import Mathlib

/-! Basecoin ledger state-transition engine.

A shallow embedding of `state/execution.go` (`ExecTx` and its helpers),
`state/state.go` (the layered `State`) and `app/app.go` (the application
around them), with theorems about the transaction pipeline for `SendTx` and
`AppTx`, the scratch layers and the check state.

Conventions of the embedding:

* Go `[]byte` and `string` values are Lean `String`s (Go converts freely
  between the two; the code keys its maps by `string(address)`).
* A Go function that mutates `*State` takes the state and returns the new one.
* A `cmn.PanicSanity` abort is the `none` outcome of an `Option`.
* `wrsp.Result` is modelled by its code and data; the human readable log
  trail (`AppendLog`, `PrependLog`) carries no behaviour and is left out.
* The package `types` (coins, accounts, transactions, the write buffer
  `KVCache`, the plugin registry) is not among the sources; each definition
  standing for a part of it says so in its doc comment.
-/

namespace Basecoin

/-! ## Coins -/

/-- Modelled from the spec: `types.Coin` is not among the sources. One
(denomination, amount) pair; the amount is a signed integer, since a fee
"whose structural validity check fails (e.g., negative)" can be built. The
spec gives integers and no width, so the amount is an unbounded `Int`. -/
structure Coin where
  denom : String
  amount : Int
deriving DecidableEq, Repr

/-- Modelled from the spec: `types.Coins` is not among the sources. "A set of
(denomination, amount) pairs, unique per denomination, kept in a canonical
sorted order." -/
abbrev Coins := List Coin

/-- Order of denominations: lexicographic on the characters. -/
def denomLT (a b : String) : Prop := a.data < b.data

instance denomLT.decidable : DecidableRel denomLT :=
  fun a b => inferInstanceAs (Decidable (a.data < b.data))

/-- The non-strict order of denominations. -/
def denomLE (a b : String) : Prop := ¬ denomLT b a

instance denomLE.decidable : DecidableRel denomLE :=
  fun a b => inferInstanceAs (Decidable (¬ denomLT b a))

namespace Coins

/-- The amount held in denomination `d`, "missing denominations treated as
zero". -/
def amountOf (cs : Coins) (d : String) : Int :=
  ((cs.filter (fun c => c.denom = d)).map Coin.amount).sum

/-- The denominations listed. -/
def denoms (cs : Coins) : List String := cs.map Coin.denom

/-- The canonical coins holding `f d` in each denomination `d` of `ds`:
sorted by denomination, one entry per denomination, no zero entry. -/
def canon (ds : List String) (f : String → Int) : Coins :=
  ((ds.dedup.filter (fun d => f d ≠ 0)).insertionSort denomLE).map
    (fun d => { denom := d, amount := f d })

/-- Modelled from the spec: `Coins.Plus` is not among the sources. Addition
"defined by summing per-denomination amounts with missing denominations
treated as zero". -/
def Plus (a b : Coins) : Coins :=
  canon (a.denoms ++ b.denoms) (fun d => a.amountOf d + b.amountOf d)

/-- Modelled from the spec: `Coins.Minus` is not among the sources.
Subtraction per denomination. The code assigns its result directly
(`acc.Balance = acc.Balance.Minus(in.Coins)`), so it returns coins and no
error; every call is guarded by `IsGTE`. -/
def Minus (a b : Coins) : Coins :=
  canon (a.denoms ++ b.denoms) (fun d => a.amountOf d - b.amountOf d)

/-- Modelled from the spec: `Coins.IsGTE` is not among the sources.
Greater-than-or-equal in every denomination. -/
def IsGTE (a b : Coins) : Bool :=
  (a.denoms ++ b.denoms).all (fun d => decide (b.amountOf d ≤ a.amountOf d))

/-- Modelled from the spec: `Coins.IsEqual` is not among the sources.
Equality of the per-denomination amounts. -/
def IsEqual (a b : Coins) : Bool :=
  (a.denoms ++ b.denoms).all (fun d => decide (a.amountOf d = b.amountOf d))

/-- Modelled from the spec: `Coins.IsValid` is not among the sources. The
structural check: "coin amounts sorted by denomination with no duplicate or
non-positive entries". -/
def IsValid (cs : Coins) : Bool :=
  decide (cs.denoms.Sorted denomLT) && cs.all (fun c => decide (0 < c.amount))

end Coins

/-! ## Accounts and stored values -/

/-- The public key type of the external crypto library (`crypto.PubKey`): a
wrapper that may hold no key. -/
structure PubKey where
  inner : Option String
deriving DecidableEq, Repr

/-- Go `PubKey.Empty()`: no key is held. -/
def PubKey.Empty (pk : PubKey) : Bool := pk.inner.isNone

/-- Modelled from the spec: `types.Account` is not among the sources. "Fields:
public key (optional), a strictly increasing sequence number, and a balance".
The spec gives no width for the sequence number: an unbounded `Int`. -/
structure Account where
  pubKey : PubKey
  sequence : Int
  balance : Coins
deriving DecidableEq, Repr

/-- The Go zero value `&types.Account{}`: "zero value is valid, empty
account". -/
def Account.zero : Account := { pubKey := ⟨none⟩, sequence := 0, balance := [] }

/-- A stored byte string, seen through the wire codec ("an opaque
deterministic codec"): either the encoding of an account, or any other byte
string. The empty byte string is what a store returns for an absent key. -/
inductive Value where
  | bytes (b : String)
  | account (acc : Account)
deriving DecidableEq, Repr

/-- What a store returns for a key never written. -/
def Value.absent : Value := Value.bytes ""

/-- Modelled from the spec: `types.AccountKey` is not among the sources. "The
key computed as a fixed prefix concatenated with the address". -/
def AccountKey (addr : String) : String := "base/a/" ++ addr

/-! ## The layered state (`state/state.go`) -/

/-- Modelled from the spec: `types.KVCache` is not among the sources. The write
buffer of a scratch layer is the list of its writes "in the order they were
made"; a read "resolves through the local write buffer first", so it finds the
last write to the key. -/
def kvLookup : List (String × Value) → String → Option Value
  | [], _ => none
  | (k', v) :: rest, k =>
    match kvLookup rest k with
    | some w => some w
    | none => if k' = k then some v else none

/-- The Go `State`. `root` is a state made by `NewState` over a backing
store (`readCache` not nil, `writeCache` nil); `isEyes` tells whether the
backing store is the persistent `*eyes.Client`. `wrap` is a state made by
`CacheWrap`: `readCache` is nil and `store` and `writeCache` are one `KVCache`
over the parent state. -/
inductive State where
  | root (chainID : String) (isEyes : Bool) (store : String → Value)
      (readCache : String → Option Value)
  | wrap (chainID : String) (parent : State) (writes : List (String × Value))

namespace State

/-- The field `chainID`. -/
def chainID : State → String
  | root c _ _ _ => c
  | wrap c _ _ => c

/-- The state with the field `chainID` assigned. -/
def withChainID : State → String → State
  | root _ e st rc, c => root c e st rc
  | wrap _ p ws, c => wrap c p ws

/-- Go `State.Get`. -/
def Get : State → String → Value
  | root _ _ store rc, k =>
    match rc k with
    | some v => v
    | none => store k
  | wrap _ parent ws, k =>
    match kvLookup ws k with
    | some v => v
    | none => parent.Get k

/-- Go `s.store.Get`: the backing store of a root, the write buffer (falling
back to the parent state) of a scratch layer. -/
def storeGet : State → String → Value
  | root _ _ store _, k => store k
  | wrap _ parent ws, k =>
    match kvLookup ws k with
    | some v => v
    | none => parent.Get k

/-- Go `s.store.Set`. -/
def storeSet : State → String → Value → State
  | root c e store rc, k, v => root c e (fun k' => if k' = k then v else store k') rc
  | wrap c p ws, k, v => wrap c p (ws ++ [(k, v)])

/-- Go `State.Set`. -/
def Set : State → String → Value → State
  | root c e store rc, k, v =>
    root c e (fun k' => if k' = k then v else store k')
      (fun k' => if k' = k then some v else rc k')
  | wrap c p ws, k, v => wrap c p (ws ++ [(k, v)])

/-- Modelled from the spec: `types.GetAccount` is not among the sources.
"`get_account(address) -> Account|absent`". -/
def GetAccount (s : State) (addr : String) : Option Account :=
  match s.Get (AccountKey addr) with
  | Value.account acc => some acc
  | Value.bytes _ => none

/-- Modelled from the spec: `types.SetAccount` is not among the sources.
"`set_account(address, Account)`". -/
def SetAccount (s : State) (addr : String) (acc : Account) : State :=
  s.Set (AccountKey addr) (Value.account acc)

/-- A sequence of `Set` calls, in order. -/
def applyWrites (s : State) (ws : List (String × Value)) : State :=
  ws.foldl (fun st kv => st.Set kv.1 kv.2) s

/-- Go `State.CacheWrap`. -/
def CacheWrap (s : State) : State := wrap s.chainID s []

/-- Go `State.CacheSync`, returning the parent after the flush ("applies all
buffered writes of a scratch snapshot into its immediate parent, in the order
they were made"). On a state that is not from `CacheWrap` the Go code
dereferences a nil `writeCache`: `none`. -/
def CacheSync : State → Option State
  | wrap _ parent ws => some (parent.applyWrites ws)
  | root _ _ _ _ => none

end State

/-! ## Results, transactions, plugins -/

/-- The result codes of the `wrsp` library that the engine uses; `other`
stands for every further code a plugin may return. -/
inductive CodeType where
  | OK
  | InternalError
  | EncodingError
  | BaseDuplicateAddress
  | BaseInsufficientFunds
  | BaseInvalidInput
  | BaseInvalidOutput
  | BaseInvalidSequence
  | BaseInvalidSignature
  | BaseUnknownAddress
  | other (n : Nat)
deriving DecidableEq, Repr

/-- The `wrsp.Result`, by code and data. -/
structure Result where
  code : CodeType
  data : String
deriving DecidableEq, Repr

namespace Result

/-- Go `Result.IsOK`. -/
def IsOK (r : Result) : Bool := decide (r.code = CodeType.OK)

/-- Go `Result.IsErr`. -/
def IsErr (r : Result) : Bool := decide (r.code ≠ CodeType.OK)

/-- Go `wrsp.OK`, the bare success. -/
def OK : Result := { code := CodeType.OK, data := "" }

/-- Go `wrsp.NewResultOK(data, "")`. -/
def NewResultOK (data : String) : Result := { code := CodeType.OK, data := data }

/-- An error result of the given code, such as `wrsp.ErrBaseInvalidOutput`. -/
def err (c : CodeType) : Result := { code := c, data := "" }

end Result

/-- Modelled from the spec: `types.TxInput` is not among the sources. "An input
references an address, a coin amount, a sequence number asserted by the
sender, a signature over a canonical sign-payload, and an optional public
key". -/
structure TxInput where
  address : String
  coins : Coins
  sequence : Int
  signature : String
  pubKey : PubKey
deriving DecidableEq, Repr

/-- Modelled from the spec: `types.TxOutput` is not among the sources. "An
output references a destination, either a local address or a
(destination-chain-id, address) pair for cross-chain transfer, and a coin
amount". The fields `chain` and `address` are what `ChainAndAddress()`
returns. -/
structure TxOutput where
  chain : Option String
  address : String
  coins : Coins
deriving DecidableEq, Repr

/-- Modelled from the spec: `types.SendTx` is not among the sources. "A
multi-input/multi-output value transfer plus an optional flat fee". -/
structure SendTx where
  fee : Coin
  inputs : List TxInput
  outputs : List TxOutput
deriving DecidableEq, Repr

/-- Modelled from the spec: `types.AppTx` is not among the sources. "A
single-input call into a named plugin, carrying a fee and an opaque
payload". -/
structure AppTx where
  fee : Coin
  name : String
  input : TxInput
  data : String
deriving DecidableEq, Repr

/-- The transaction variants that `ExecTx` switches over; `unknown` is any
value that reaches the `default` branch. -/
inductive Tx where
  | send (tx : SendTx)
  | app (tx : AppTx)
  | unknown
deriving DecidableEq, Repr

/-- Modelled from the spec: `types.CallContext` is not among the sources. "A
call context (caller address, caller account snapshot, coins forwarded net of
fee)". -/
structure CallContext where
  callerAddress : String
  callerAccount : Account
  coins : Coins
deriving DecidableEq, Repr

/-- Modelled from the spec: `types.Plugin` is not among the sources. A plugin
is handed the scratch state as a key/value store, so all it can do to the
ledger is read it and call `Set`: `RunTx` maps what it can read to its result
and to the sequence of `Set` calls it makes, in order. -/
structure Plugin where
  name : String
  RunTx : State → CallContext → String → Result × List (String × Value)
  /-- Go `Plugin.SetOption(store, key, value)`: the log it returns and the `Set`
  calls it makes, in order. -/
  SetOption : State → String → String → String × List (String × Value) :=
    fun _ _ _ => ("", [])

/-- Modelled from the spec: `types.Plugins` is not among the sources. A
"name-keyed" registry; `GetByName` is nil (`none`) for a name not
registered. -/
structure Plugins where
  GetByName : String → Option Plugin

/-- The collaborators of the engine that are not in the sources: the external
crypto library, and the parts of the packages `types` and `plugins/ibc` whose
result the engine only passes on. -/
structure Env where
  /-- Go `PubKey.VerifyBytes(msg, sig)`. -/
  verifyBytes : PubKey → String → String → Bool
  /-- Go `SendTx.SignBytes(chainID)`. -/
  sendSignBytes : String → SendTx → String
  /-- Go `AppTx.SignBytes(chainID)`. -/
  appSignBytes : String → AppTx → String
  /-- Go `types.TxID(chainID, tx)`. -/
  txID : String → SendTx → String
  /-- Go `TxInput.ValidateBasic()`. -/
  inputValidateBasic : TxInput → Result
  /-- Go `TxOutput.ValidateBasic()`. -/
  outputValidateBasic : TxOutput → Result
  /-- Go `ibc.SaveNewIBCPacket(state, src, dst, payload)`: it is handed the
  state as a key/value store, so it is the sequence of `Set` calls it makes. -/
  saveNewIBCPacket : State → String → String → String × Coins → List (String × Value)
  /-- The wire encoding of an account, read back as a string. -/
  wireAccount : Account → String

/-- Go `string(value)` of a stored byte string. -/
def Value.toStr (E : Env) : Value → String
  | Value.bytes b => b
  | Value.account acc => E.wireAccount acc

/-- Go `State.GetChainID`: the cached field if not empty, else the stored
value, which is then cached in the field. -/
def State.GetChainID (E : Env) (s : State) : String × State :=
  if s.chainID ≠ "" then (s.chainID, s)
  else
    let c := (s.storeGet "base/chain_id").toStr E
    (c, s.withChainID c)

/-- Go `State.SetChainID`. -/
def State.SetChainID (s : State) (chainID : String) : State :=
  (s.withChainID chainID).storeSet "base/chain_id" (Value.bytes chainID)

/-! ## The execution engine (`state/execution.go`) -/

/-- The Go `map[string]*types.Account`; the nil map reads as the empty map. -/
abbrev AccMap := String → Option Account

/-- The empty (or nil) accounts map. -/
def AccMap.empty : AccMap := fun _ => none

/-- Go `accounts[string(addr)] = acc`. -/
def AccMap.insert (m : AccMap) (addr : String) (acc : Account) : AccMap :=
  fun a => if a = addr then some acc else m a

/-- Go `if !in.PubKey.Empty() { acc.PubKey = in.PubKey }`, in `getInputs` and
in the `AppTx` case: the account takes the public key of the input whenever
the input has one. -/
def withInputKey (inp : TxInput) (acc : Account) : Account :=
  if !inp.pubKey.Empty then { acc with pubKey := inp.pubKey } else acc

/-- The loop of `getInputs`, from the accounts gathered so far. -/
def getInputsLoop (state : State) : AccMap → List TxInput → AccMap × Result
  | accounts, [] => (accounts, Result.OK)
  | accounts, inp :: rest =>
    if (accounts inp.address).isSome then
      (AccMap.empty, Result.err CodeType.BaseDuplicateAddress)
    else
      match state.GetAccount inp.address with
      | none => (AccMap.empty, Result.err CodeType.BaseUnknownAddress)
      | some acc =>
        getInputsLoop state (accounts.insert inp.address (withInputKey inp acc)) rest

/-- Go `getInputs`. -/
def getInputs (state : State) (ins : List TxInput) : AccMap × Result :=
  getInputsLoop state AccMap.empty ins

/-- Go `getOrMakeOutputs`. -/
def getOrMakeOutputs (state : State) : AccMap → List TxOutput → AccMap × Result
  | accounts, [] => (accounts, Result.OK)
  | accounts, out :: rest =>
    match out.chain with
    | some _ => getOrMakeOutputs state accounts rest
    | none =>
      if (accounts out.address).isSome then
        (AccMap.empty, Result.err CodeType.BaseDuplicateAddress)
      else
        let acc := match state.GetAccount out.address with
          | none => Account.zero
          | some acc => acc
        getOrMakeOutputs state (accounts.insert out.address acc) rest

/-- Go `validateInputsBasic`. -/
def validateInputsBasic (E : Env) : List TxInput → Result
  | [] => Result.OK
  | inp :: rest =>
    if (E.inputValidateBasic inp).IsErr then E.inputValidateBasic inp
    else validateInputsBasic E rest

/-- Go `validateOutputsBasic`. -/
def validateOutputsBasic (E : Env) : List TxOutput → Result
  | [] => Result.OK
  | out :: rest =>
    if (E.outputValidateBasic out).IsErr then E.outputValidateBasic out
    else validateOutputsBasic E rest

/-- Go `validateInputAdvanced`. -/
def validateInputAdvanced (E : Env) (acc : Account) (signBytes : String)
    (inp : TxInput) : Result :=
  if acc.sequence + 1 ≠ inp.sequence then Result.err CodeType.BaseInvalidSequence
  else if !acc.balance.IsGTE inp.coins then Result.err CodeType.BaseInsufficientFunds
  else if !E.verifyBytes acc.pubKey signBytes inp.signature then
    Result.err CodeType.BaseInvalidSignature
  else Result.OK

/-- The loop of `validateInputsAdvanced`, from the total so far; `none` is the
`PanicSanity` abort. -/
def validateInputsAdvancedLoop (E : Env) (accounts : AccMap) (signBytes : String) :
    Coins → List TxInput → Option (Coins × Result)
  | total, [] => some (total, Result.OK)
  | total, inp :: rest =>
    match accounts inp.address with
    | none => none
    | some acc =>
      if (validateInputAdvanced E acc signBytes inp).IsErr then
        some (total, validateInputAdvanced E acc signBytes inp)
      else validateInputsAdvancedLoop E accounts signBytes (total.Plus inp.coins) rest

/-- Go `validateInputsAdvanced`. -/
def validateInputsAdvanced (E : Env) (accounts : AccMap) (signBytes : String)
    (ins : List TxInput) : Option (Coins × Result) :=
  validateInputsAdvancedLoop E accounts signBytes [] ins

/-- Go `sumOutputs`. -/
def sumOutputs (outs : List TxOutput) : Coins :=
  outs.foldl (fun total out => total.Plus out.coins) []

/-- Go `adjustByInputs`; `none` is a `PanicSanity` abort. The accounts are
held by pointer, so the map sees each adjusted account. -/
def adjustByInputs : State → AccMap → List TxInput → Option (State × AccMap)
  | state, accounts, [] => some (state, accounts)
  | state, accounts, inp :: rest =>
    match accounts inp.address with
    | none => none
    | some acc =>
      if !acc.balance.IsGTE inp.coins then none
      else
        let acc' : Account :=
          { acc with balance := acc.balance.Minus inp.coins, sequence := acc.sequence + 1 }
        adjustByInputs (state.SetAccount inp.address acc') (accounts.insert inp.address acc') rest

/-- Go `adjustByOutputs`; `none` is the `PanicSanity` abort. -/
def adjustByOutputs (E : Env) : State → AccMap → List TxOutput → Bool → Option (State × AccMap)
  | state, accounts, [], _ => some (state, accounts)
  | state, accounts, out :: rest, isCheckTx =>
    match out.chain with
    | some destChain =>
      let state1 := (state.GetChainID E).2
      let ws := E.saveNewIBCPacket state1 (state.GetChainID E).1 destChain (out.address, out.coins)
      adjustByOutputs E (state1.applyWrites ws) accounts rest isCheckTx
    | none =>
      match accounts out.address with
      | none => none
      | some acc =>
        let acc' : Account := { acc with balance := acc.balance.Plus out.coins }
        let state' := if !isCheckTx then state.SetAccount out.address acc' else state
        adjustByOutputs E state' (accounts.insert out.address acc') rest isCheckTx

/-- The `SendTx` case of `ExecTx`, on the state after `GetChainID`. -/
def execSendTx (E : Env) (state : State) (chainID : String) (tx : SendTx)
    (isCheckTx : Bool) : Option (Result × State) :=
  if (validateInputsBasic E tx.inputs).IsErr then
    some (validateInputsBasic E tx.inputs, state)
  else if (validateOutputsBasic E tx.outputs).IsErr then
    some (validateOutputsBasic E tx.outputs, state)
  else if (getInputs state tx.inputs).2.IsErr then
    some ((getInputs state tx.inputs).2, state)
  else
    let accounts0 := (getInputs state tx.inputs).1
    if (getOrMakeOutputs state accounts0 tx.outputs).2.IsErr then
      some ((getOrMakeOutputs state accounts0 tx.outputs).2, state)
    else
      let accounts := (getOrMakeOutputs state accounts0 tx.outputs).1
      let signBytes := E.sendSignBytes chainID tx
      match validateInputsAdvanced E accounts signBytes tx.inputs with
      | none => none
      | some (inTotal, res) =>
        if res.IsErr then some (res, state)
        else
          let outTotal := sumOutputs tx.outputs
          let fees : Coins := [tx.fee]
          let outPlusFees := if fees.IsValid then outTotal.Plus fees else outTotal
          if !inTotal.IsEqual outPlusFees then
            some (Result.err CodeType.BaseInvalidOutput, state)
          else
            match adjustByInputs state accounts tx.inputs with
            | none => none
            | some (state1, accounts1) =>
              match adjustByOutputs E state1 accounts1 tx.outputs isCheckTx with
              | none => none
              | some (state2, _) => some (Result.NewResultOK (E.txID chainID tx), state2)

/-- The `AppTx` case of `ExecTx`, on the state after `GetChainID`. -/
def execAppTx (E : Env) (state : State) (pgz : Plugins) (chainID : String) (tx : AppTx)
    (isCheckTx : Bool) : Option (Result × State) :=
  if (E.inputValidateBasic tx.input).IsErr then some (E.inputValidateBasic tx.input, state)
  else
    match state.GetAccount tx.input.address with
    | none => some (Result.err CodeType.BaseUnknownAddress, state)
    | some inAcc0 =>
      let inAcc1 : Account := withInputKey tx.input inAcc0
      let signBytes := E.appSignBytes chainID tx
      if (validateInputAdvanced E inAcc1 signBytes tx.input).IsErr then
        some (validateInputAdvanced E inAcc1 signBytes tx.input, state)
      else if !tx.input.coins.IsGTE [tx.fee] then
        some (Result.err CodeType.BaseInsufficientFunds, state)
      else
        match pgz.GetByName tx.name with
        | none => some (Result.err CodeType.BaseUnknownAddress, state)
        | some plugin =>
          let coins := tx.input.coins.Minus [tx.fee]
          let inAcc : Account :=
            { inAcc1 with sequence := inAcc1.sequence + 1,
                          balance := inAcc1.balance.Minus tx.input.coins }
          if isCheckTx then some (Result.OK, state.SetAccount tx.input.address inAcc)
          else
            let inAccCopy := inAcc
            let cache := (state.CacheWrap).SetAccount tx.input.address inAcc
            let ctx : CallContext :=
              { callerAddress := tx.input.address, callerAccount := inAcc, coins := coins }
            let res := (plugin.RunTx cache ctx tx.data).1
            let cache' := cache.applyWrites (plugin.RunTx cache ctx tx.data).2
            if res.IsOK then
              match cache'.CacheSync with
              | none => none
              | some state' => some (res, state')
            else
              let refunded : Account :=
                { inAccCopy with balance := inAccCopy.balance.Plus coins }
              some (res, state.SetAccount tx.input.address refunded)

/-- Go `ExecTx`: the result and the state afterwards; `none` is a fatal
abort. -/
def ExecTx (E : Env) (state : State) (pgz : Plugins) (tx : Tx) (isCheckTx : Bool) :
    Option (Result × State) :=
  let chainID := (state.GetChainID E).1
  let state0 := (state.GetChainID E).2
  match tx with
  | Tx.send tx => execSendTx E state0 chainID tx isCheckTx
  | Tx.app tx => execAppTx E state0 pgz chainID tx isCheckTx
  | Tx.unknown => some (Result.err CodeType.EncodingError, state0)

/-! ## A reference instance of the collaborators, for the worked scenarios -/

/-- The structural check of the reference instance, after the spec:
"non-empty address, coin amounts sorted by denomination with no duplicate or
non-positive entries, and (for inputs) a present signature". -/
def refInputValidateBasic (inp : TxInput) : Result :=
  if inp.address = "" then Result.err CodeType.BaseInvalidInput
  else if !inp.coins.IsValid then Result.err CodeType.BaseInvalidInput
  else if inp.signature = "" then Result.err CodeType.BaseInvalidInput
  else Result.OK

/-- The structural check of outputs of the reference instance. -/
def refOutputValidateBasic (out : TxOutput) : Result :=
  if out.address = "" then Result.err CodeType.BaseInvalidOutput
  else if !out.coins.IsValid then Result.err CodeType.BaseInvalidOutput
  else Result.OK

/-- A reference instance of the collaborators: a signature by key `k` over
the bytes `m` is the string `m ++ "@" ++ k`; the sign-bytes of a transaction
are the chain id followed by the kind of the transaction; an outgoing packet
is one write under a key of its own namespace. -/
def refEnv : Env where
  verifyBytes := fun pk msg sig =>
    match pk.inner with
    | some k => decide (sig = msg ++ "@" ++ k)
    | none => false
  sendSignBytes := fun chainID _ => chainID ++ ":send"
  appSignBytes := fun chainID tx => chainID ++ ":app:" ++ tx.name
  txID := fun chainID _ => chainID ++ ":send:id"
  inputValidateBasic := refInputValidateBasic
  outputValidateBasic := refOutputValidateBasic
  saveNewIBCPacket := fun _ src dst payload =>
    [("ibc,egress," ++ src ++ "," ++ dst, Value.bytes payload.1)]
  wireAccount := fun _ => "account"

/-- Scenario state: chain id `test`, account `A` with key `ka`, sequence 5 and
balance atom:100; no other key is stored. The backing store is not the
persistent client. -/
def demoState : State :=
  State.root "test" false
    (fun k => if k = AccountKey "A" then
        Value.account { pubKey := ⟨some "ka"⟩, sequence := 5, balance := [⟨"atom", 100⟩] }
      else Value.absent)
    (fun _ => none)

/-- Scenario input: `A` sends `n` atoms with sequence 6 and a valid signature
over the sign-bytes `msg`. -/
def demoInput (n : Int) (msg : String) : TxInput :=
  { address := "A", coins := [⟨"atom", n⟩], sequence := 6,
    signature := msg ++ "@ka", pubKey := ⟨none⟩ }

/-- Scenario transfer: `A` sends 30 atoms, `B` receives `n` atoms, with the
given fee. -/
def demoSend (n : Int) (fee : Coin) : SendTx :=
  { fee := fee, inputs := [demoInput 30 "test:send"],
    outputs := [{ chain := none, address := "B", coins := [⟨"atom", n⟩] }] }

/-- The registry with no plugin. -/
def noPlugins : Plugins := { GetByName := fun _ => none }

/-- A plugin that writes the key `counter` and then fails. -/
def failingPlugin : Plugin :=
  { name := "fail",
    RunTx := fun _ _ _ => (Result.err CodeType.InternalError, [("counter", Value.bytes "1")]) }

/-- A plugin that writes the key `counter` and succeeds, returning `done`. -/
def countingPlugin : Plugin :=
  { name := "count",
    RunTx := fun _ _ _ => (Result.NewResultOK "done", [("counter", Value.bytes "1")]) }

/-- A plugin that writes the key `counter` and then turns the call down with
InsufficientFunds. -/
def refusingPlugin : Plugin :=
  { name := "paid",
    RunTx := fun _ _ _ =>
      (Result.err CodeType.BaseInsufficientFunds, [("counter", Value.bytes "1")]) }

/-- The registry of the scenario plugins. -/
def demoPlugins : Plugins :=
  { GetByName := fun n =>
      if n = "fail" then some failingPlugin
      else if n = "count" then some countingPlugin
      else if n = "paid" then some refusingPlugin
      else none }

/-- Scenario call: `A` calls the plugin `name` with 10 atoms and a fee of 2
atoms. -/
def demoApp (name : String) : AppTx :=
  { fee := ⟨"atom", 2⟩, name := name, input := demoInput 10 ("test:app:" ++ name), data := "" }

/-- Scenario state with two accounts: `A` as in `demoState`, and `D` with key
`kd`, sequence 0 and balance atom:50. -/
def demoState2 : State :=
  State.root "test" false
    (fun k =>
      if k = AccountKey "A" then
        Value.account { pubKey := ⟨some "ka"⟩, sequence := 5, balance := [⟨"atom", 100⟩] }
      else if k = AccountKey "D" then
        Value.account { pubKey := ⟨some "kd"⟩, sequence := 0, balance := [⟨"atom", 50⟩] }
      else Value.absent)
    (fun _ => none)

/-- Scenario transfer with two inputs: `A` sends 500 atoms, more than it holds,
with the right sequence 6; `D` sends 10 atoms with the wrong sequence 7; `B`
receives 510 atoms. -/
def demoSendTwo : SendTx :=
  { fee := ⟨"atom", 0⟩,
    inputs := [{ address := "A", coins := [⟨"atom", 500⟩], sequence := 6,
                 signature := "test:send@ka", pubKey := ⟨none⟩ },
               { address := "D", coins := [⟨"atom", 10⟩], sequence := 7,
                 signature := "test:send@kd", pubKey := ⟨none⟩ }],
    outputs := [{ chain := none, address := "B", coins := [⟨"atom", 510⟩] }] }

/-- Scenario transfer of `A` to itself, with the wrong sequence 9. -/
def demoSendSelf : SendTx :=
  { fee := ⟨"atom", 0⟩,
    inputs := [{ address := "A", coins := [⟨"atom", 30⟩], sequence := 9,
                 signature := "test:send@ka", pubKey := ⟨none⟩ }],
    outputs := [{ chain := none, address := "A", coins := [⟨"atom", 30⟩] }] }

/-- Scenario call on `demoState2`: `D`, stored at sequence 0 with the key `kd`,
calls the plugin `count` with 10 atoms and a fee of 2 atoms; the input asserts
the sequence 1, supplies the key `kx` and is signed with `kx`. -/
def demoAppOtherKey : AppTx :=
  { fee := ⟨"atom", 2⟩, name := "count",
    input := { address := "D", coins := [⟨"atom", 10⟩], sequence := 1,
               signature := "test:app:count@kx", pubKey := ⟨some "kx"⟩ },
    data := "" }

/-- Scenario transfer on `demoState2`: `D` sends 10 atoms to `B`; the input
asserts the sequence 1, supplies the key `kx` and is signed with `kx`. -/
def demoSendOtherKey : SendTx :=
  { fee := ⟨"atom", 0⟩,
    inputs := [{ address := "D", coins := [⟨"atom", 10⟩], sequence := 1,
                 signature := "test:send@kx", pubKey := ⟨some "kx"⟩ }],
    outputs := [{ chain := none, address := "B", coins := [⟨"atom", 10⟩] }] }

/-- Scenario transfer of `A` to itself, with the right sequence 6 and a
signature that is not one of `ka`. -/
def demoSendSelfForged : SendTx :=
  { fee := ⟨"atom", 0⟩,
    inputs := [{ address := "A", coins := [⟨"atom", 30⟩], sequence := 6,
                 signature := "forged", pubKey := ⟨none⟩ }],
    outputs := [{ chain := none, address := "A", coins := [⟨"atom", 30⟩] }] }

/-- Scenario transfer of `Z`, an address with no stored account, to itself. -/
def demoSendUnknownSelf : SendTx :=
  { fee := ⟨"atom", 0⟩,
    inputs := [{ address := "Z", coins := [⟨"atom", 30⟩], sequence := 1,
                 signature := "test:send@kz", pubKey := ⟨some "kz"⟩ }],
    outputs := [{ chain := none, address := "Z", coins := [⟨"atom", 30⟩] }] }

/-- Scenario transfer of `A` to itself, the input carrying no signature. -/
def demoSendSelfUnsigned : SendTx :=
  { fee := ⟨"atom", 0⟩,
    inputs := [{ address := "A", coins := [⟨"atom", 30⟩], sequence := 6,
                 signature := "", pubKey := ⟨none⟩ }],
    outputs := [{ chain := none, address := "A", coins := [⟨"atom", 30⟩] }] }

/-- What a scenario observes of the account of `D`. -/
def observeD (o : Option (Result × State)) : Option (Result × Option Account) :=
  o.map (fun p => (p.1, p.2.GetAccount "D"))

/-- What a scenario observes of an outcome: the result and the accounts of
`A` and `B`. -/
def observe (o : Option (Result × State)) : Option (Result × Option Account × Option Account) :=
  o.map (fun p => (p.1, p.2.GetAccount "A", p.2.GetAccount "B"))

/-! ## Commit, and the application (`app/app.go`) -/

set_option linter.dupNamespace false

/-- Go `NewState(store)`: empty chain id, empty read cache, no write cache. -/
def NewState (isEyes : Bool) (store : String → Value) : State :=
  State.root "" isEyes store (fun _ => none)

/-- The parent state that the `KVCache` of a scratch state points to. -/
def State.parent? : State → Option State
  | State.wrap _ p _ => some p
  | State.root _ _ _ _ => none

/-- The write buffer of a scratch state, in the order of the writes. -/
def State.writes : State → List (String × Value)
  | State.wrap _ _ ws => ws
  | State.root _ _ _ _ => []

/-- The read cache of a state; a scratch state has none. -/
def State.readCache? : State → Option (String → Option Value)
  | State.root _ _ _ rc => some rc
  | State.wrap _ _ _ => none

/-- A scratch state seen after its parent, which it holds by pointer, has
become `p`. -/
def State.withParent : State → State → State
  | State.wrap c _ ws, p => State.wrap c p ws
  | State.root c e st rc, _ => State.root c e st rc

/-- Go `State.Commit`. `commitSync` is `(*eyes.Client).CommitSync()`, the
commit of the persistent engine, as a function of what the engine stores. -/
def State.Commit (commitSync : (String → Value) → Result) : State → Result × State
  | State.root c true store _ => (commitSync store, State.root c true store (fun _ => none))
  | State.root c false store rc => (Result.err CodeType.InternalError, State.root c false store rc)
  | State.wrap c p ws => (Result.err CodeType.InternalError, State.wrap c p ws)

/-- Whether the backing store of the state is the persistent `*eyes.Client`
(the first case of the type switch of `Commit`). -/
def State.backedByEyes : State → Bool
  | State.root _ e _ _ => e
  | State.wrap _ _ _ => false

/-- What decoding the JSON descriptor of a bootstrap account gives:
`json.Unmarshal` fails, or `GetAddr` fails, or the address and the account of
`ToAccount` (the balance sorted) are there. -/
inductive GenesisDecode where
  | jsonError (msg : String)
  | addrError (msg : String)
  | ok (addr : String) (acc : Account)

/-- The collaborators of the application that are not in the sources: those
of the engine, the wire codec of transactions, the commit of the persistent
engine and the JSON codec of bootstrap accounts. -/
structure AppEnv where
  env : Env
  /-- Go `wire.ReadBinaryBytes(txBytes, &tx)`; `none` is a decoding error. -/
  decodeTx : String → Option Tx
  /-- Go `(*eyes.Client).CommitSync()`. -/
  commitSync : (String → Value) → Result
  /-- Go `json.Unmarshal` into a `GenesisAccount`, `GetAddr` and `ToAccount`. -/
  decodeGenesisAccount : String → GenesisDecode

/-- Go `maxTxSize`. -/
def maxTxSize : Nat := 10240

/-- Go `PluginNameBase`. -/
def PluginNameBase : String := "base"

/-- The Go `Basecoin`. `state` is the committed state; `cacheState` is nil
(`none`) or a state made by `CacheWrap` of `state`, which it holds by pointer:
what is written to `state` is seen through it. -/
structure Basecoin where
  state : State
  cacheState : Option State
  plugins : Plugins

/-- Go `NewBasecoin(eyesCli)`; the registry `types.NewPlugins()` is empty. -/
def NewBasecoin (store : String → Value) : Basecoin :=
  { state := NewState true store, cacheState := none,
    plugins := { GetByName := fun _ => none } }

/-- Go `splitKey`: "Splits the string at the first '/'. If there are none, the
second string is nil". -/
def splitKey (key : String) : String × String :=
  if '/' ∈ key.data then
    (String.mk (key.data.takeWhile (fun c => c ≠ '/')),
     String.mk ((key.data.dropWhile (fun c => c ≠ '/')).drop 1))
  else (key, "")

/-- Go `Basecoin.SetOption`: the log returned and the application afterwards. -/
def Basecoin.SetOption (A : AppEnv) (app : Basecoin) (key value : String) :
    String × Basecoin :=
  let pluginName := (splitKey key).1
  let key := (splitKey key).2
  if pluginName ≠ PluginNameBase then
    match app.plugins.GetByName pluginName with
    | none => ("Invalid plugin name: " ++ pluginName, app)
    | some plugin =>
      let state' := app.state.applyWrites (plugin.SetOption app.state key value).2
      ((plugin.SetOption app.state key value).1,
        { app with state := state',
                   cacheState := app.cacheState.map (fun c => c.withParent state') })
  else if key = "chain_id" then
    let state' := app.state.SetChainID value
    ("Success", { app with state := state',
                           cacheState := app.cacheState.map (fun c => c.withParent state') })
  else if key = "account" then
    match A.decodeGenesisAccount value with
    | GenesisDecode.jsonError msg => ("Error decoding acc message: " ++ msg, app)
    | GenesisDecode.addrError msg => ("Invalid address: " ++ msg, app)
    | GenesisDecode.ok addr acc =>
      let state' := app.state.SetAccount addr acc
      ("Success", { app with state := state',
                             cacheState := app.cacheState.map (fun c => c.withParent state') })
  else ("Unrecognized option key " ++ key, app)

/-- Go `Basecoin.DeliverTx`; `none` is a fatal abort. The check state holds
the committed state by pointer, so it sees what the delivery wrote. -/
def Basecoin.DeliverTx (A : AppEnv) (app : Basecoin) (txBytes : String) :
    Option (Result × Basecoin) :=
  if txBytes.length > maxTxSize then some (Result.err CodeType.EncodingError, app)
  else
    match A.decodeTx txBytes with
    | none => some (Result.err CodeType.EncodingError, app)
    | some tx =>
      match ExecTx A.env app.state app.plugins tx false with
      | none => none
      | some (res, state') =>
        some (res, { app with state := state',
                              cacheState := app.cacheState.map (fun c => c.withParent state') })

/-- Go `Basecoin.CheckTx`; `none` is a fatal abort, as is the call on a nil
`cacheState`. The engine runs on the check state; the committed state
afterwards is the one the check state points to. -/
def Basecoin.CheckTx (A : AppEnv) (app : Basecoin) (txBytes : String) :
    Option (Result × Basecoin) :=
  if txBytes.length > maxTxSize then some (Result.err CodeType.EncodingError, app)
  else
    match A.decodeTx txBytes with
    | none => some (Result.err CodeType.EncodingError, app)
    | some tx =>
      match app.cacheState with
      | none => none
      | some cache =>
        match ExecTx A.env cache app.plugins tx true with
        | none => none
        | some (res, cache') =>
          let app' : Basecoin :=
            { app with state := (cache'.parent?).getD app.state, cacheState := some cache' }
          if res.IsErr then some (res, app') else some (Result.OK, app')

/-- Go `Basecoin.Commit`; `none` is the `PanicSanity` abort on a failed
commit. -/
def Basecoin.Commit (A : AppEnv) (app : Basecoin) : Option (Result × Basecoin) :=
  let res := (app.state.Commit A.commitSync).1
  let state' := (app.state.Commit A.commitSync).2
  if res.IsErr then none
  else some (res, { app with state := state', cacheState := some state'.CacheWrap })

/-- A reference instance of the collaborators of the application: the byte
strings `send`, `call` and `call-unknown` decode to the scenario transfer of 30
atoms from `A` to `B`, to the scenario call of the plugin `count` and to the
call of an unregistered plugin, and nothing else decodes; the engine answers a
commit with the data `hash`. -/
def refAppEnv : AppEnv where
  env := refEnv
  decodeTx := fun b =>
    if b = "send" then some (Tx.send (demoSend 30 ⟨"atom", 0⟩))
    else if b = "call" then some (Tx.app (demoApp "count"))
    else if b = "call-unknown" then some (Tx.app (demoApp "nope"))
    else none
  commitSync := fun _ => Result.NewResultOK "hash"
  decodeGenesisAccount := fun _ => GenesisDecode.jsonError "not supported"

/-- Scenario application: the committed state is `demoState` with the chain id
set to `test` by `SetChainID`, the check state is a fresh scratch layer of it,
and the scenario plugins are registered. -/
def demoApplication : Basecoin :=
  { state := demoState.SetChainID "test",
    cacheState := some (demoState.SetChainID "test").CacheWrap,
    plugins := demoPlugins }

/-! ## Sequences of calls, for the statements on reachable states -/

/-- A call of the consensus engine on the application. -/
inductive AppCall where
  | setOption (key value : String)
  | deliverTx (txBytes : String)
  | checkTx (txBytes : String)
  | commit
deriving DecidableEq, Repr

/-- The application after one call; `none` is a fatal abort. -/
def Basecoin.call (A : AppEnv) (app : Basecoin) : AppCall → Option Basecoin
  | AppCall.setOption key value => some (app.SetOption A key value).2
  | AppCall.deliverTx txBytes => (app.DeliverTx A txBytes).map Prod.snd
  | AppCall.checkTx txBytes => (app.CheckTx A txBytes).map Prod.snd
  | AppCall.commit => (app.Commit A).map Prod.snd

/-- The application after a sequence of calls, in order; `none` if one of
them aborts. -/
def Basecoin.calls (A : AppEnv) : Basecoin → List AppCall → Option Basecoin
  | app, [] => some app
  | app, c :: cs => (app.call A c).bind (fun app' => Basecoin.calls A app' cs)

/-- The application holds two store handles: the committed state, which is a
root state, and a check state that is a scratch layer pointing to it. -/
def Basecoin.twoHandles (app : Basecoin) : Prop :=
  app.state.parent? = none ∧
  ∃ cache, app.cacheState = some cache ∧ cache.parent? = some app.state

/-- Scenario application on a persistent engine: the committed state is a
root state over the engine that stores the account of `A`, with the chain id
set to `test`; the check state is a fresh scratch layer of it, and the
scenario plugins are registered. -/
def demoEyesApplication : Basecoin :=
  { state := (NewState true demoState.storeGet).SetChainID "test",
    cacheState := some ((NewState true demoState.storeGet).SetChainID "test").CacheWrap,
    plugins := demoPlugins }

/-- A call made through a state. -/
inductive StateCall where
  | set (key : String) (value : Value)
  | setAccount (addr : String) (acc : Account)
  | setChainID (chainID : String)
  | commit

/-- The state after one call made through it. -/
def State.call (commitSync : (String → Value) → Result) (s : State) : StateCall → State
  | StateCall.set key value => s.Set key value
  | StateCall.setAccount addr acc => s.SetAccount addr acc
  | StateCall.setChainID chainID => s.SetChainID chainID
  | StateCall.commit => (s.Commit commitSync).2

/-- The state after a sequence of calls made through it, in order. -/
def State.calls (commitSync : (String → Value) → Result) (s : State)
    (cs : List StateCall) : State :=
  cs.foldl (State.call commitSync) s

/-- The read cache of the state is coherent at the key: if the key is in the
read cache, it maps to the value that the backing store holds. -/
def State.coherentAt (s : State) (k : String) : Prop :=
  ∀ rc v, s.readCache? = some rc → rc k = some v → s.storeGet k = v


/-- The amount of the denomination `d` that the state stores for the address
`a`: that of the balance of the stored account, nothing if there is none. -/
def State.holding (s : State) (a d : String) : Int :=
  match s.GetAccount a with
  | some acc => acc.balance.amountOf d
  | none => 0


/-- Scenario state: chain id `test`, account `B` with no public key, sequence
0 and balance atom:30, as a first transfer to `B` leaves it; no other key is
stored. -/
def demoStateNoKey : State :=
  State.root "test" false
    (fun k => if k = AccountKey "B" then
        Value.account { pubKey := ⟨none⟩, sequence := 0, balance := [⟨"atom", 30⟩] }
      else Value.absent)
    (fun _ => none)

/-- Scenario input: `B` sends 10 atoms with sequence 1 and supplies no public
key. -/
def demoInputNoKey : TxInput :=
  { address := "B", coins := [⟨"atom", 10⟩], sequence := 1,
    signature := "test:send@kb", pubKey := ⟨none⟩ }

/-- The coins have only non-negative amounts. -/
def Coins.IsNonnegative (cs : Coins) : Prop := ∀ c ∈ cs, 0 ≤ c.amount

/-- Every account that the state stores, under whatever key, has a balance of
non-negative amounts only. -/
def State.balancesNonnegative (s : State) : Prop :=
  ∀ k acc, s.Get k = Value.account acc → acc.balance.IsNonnegative

/-- No write of the list stores an account with a negative amount in its
balance. -/
def writesNonnegative (ws : List (String × Value)) : Prop :=
  ∀ kv ∈ ws, ∀ acc, kv.2 = Value.account acc → acc.balance.IsNonnegative


/-! ## Conditions named in the statements -/

/-- A `SendTx` passes every check that comes before the conservation check:
structural validation of inputs and outputs, loading of the input accounts,
resolution of the outputs, and the sequence, balance and signature checks of
every input. -/
def sendPassesChecks (E : Env) (s : State) (tx : SendTx) : Bool :=
  !(validateInputsBasic E tx.inputs).IsErr &&
  !(validateOutputsBasic E tx.outputs).IsErr &&
  !(getInputs s tx.inputs).2.IsErr &&
  !(getOrMakeOutputs s (getInputs s tx.inputs).1 tx.outputs).2.IsErr &&
  decide ((validateInputsAdvanced E (getOrMakeOutputs s (getInputs s tx.inputs).1 tx.outputs).1
    (E.sendSignBytes (s.GetChainID E).1 tx) tx.inputs).map (fun p => p.2.IsErr) = some false)

/-- The amount of the fee that the conservation check counts in denomination
`d`: the fee if it passes the coins validity check, nothing otherwise. -/
def countedFee (fee : Coin) (d : String) : Int :=
  if Coins.IsValid [fee] then Coins.amountOf [fee] d else 0

/-- The outgoing packets of the cross-chain outputs are stored outside the
accounts: no write that `SaveNewIBCPacket` makes for an output of the list is
to an account key. It holds of every list without cross-chain output. -/
def packetsKeepAccounts (E : Env) (outs : List TxOutput) : Prop :=
  ∀ out ∈ outs, ∀ dst, out.chain = some dst →
    ∀ st src kv, kv ∈ E.saveNewIBCPacket st src dst (out.address, out.coins) →
      ∀ a, kv.1 ≠ AccountKey a

/-- The local (not cross-chain) output addresses, in order. -/
def localAddresses (outs : List TxOutput) : List String :=
  (outs.filter (fun o => o.chain.isNone)).map (fun o => o.address)

/-- The codes of a rejection: "any InvalidX/UnknownAddress result". -/
def rejectionCodes : List CodeType :=
  [CodeType.BaseInvalidSequence, CodeType.BaseInvalidSignature, CodeType.BaseInvalidOutput,
   CodeType.BaseInsufficientFunds, CodeType.BaseDuplicateAddress, CodeType.BaseUnknownAddress]

/-- The debited caller account of an `AppTx`: the stored account with the key
of the input (if any), the sequence raised by one and the full input coins
taken off. -/
def appDebited (tx : AppTx) (acc : Account) : Account :=
  { withInputKey tx.input acc with
    sequence := (withInputKey tx.input acc).sequence + 1,
    balance := (withInputKey tx.input acc).balance.Minus tx.input.coins }

/-- The scratch state that the plugin of an `AppTx` is run on: a scratch layer
of the state, holding the debited caller account. -/
def appCache (s : State) (tx : AppTx) (acc : Account) : State :=
  (s.CacheWrap).SetAccount tx.input.address (appDebited tx acc)

/-- The call context handed to the plugin of an `AppTx`. -/
def appContext (tx : AppTx) (acc : Account) : CallContext :=
  { callerAddress := tx.input.address,
    callerAccount := appDebited tx acc,
    coins := tx.input.coins.Minus [tx.fee] }

/-- An `AppTx` passes every check of the engine that comes before the plugin
is resolved: structural validation, loading of the caller account, the
sequence, balance and signature checks, and the fee check. -/
def appPassesChecks (E : Env) (s : State) (tx : AppTx) : Bool :=
  !(E.inputValidateBasic tx.input).IsErr &&
  (match s.GetAccount tx.input.address with
   | none => false
   | some acc =>
     !(validateInputAdvanced E (withInputKey tx.input acc)
        (E.appSignBytes (s.GetChainID E).1 tx) tx.input).IsErr) &&
  tx.input.coins.IsGTE [tx.fee]

/-- An observation of the state that `Set` keeps, and that `GetChainID` keeps
on the states of a class closed under both. -/
structure Kept (E : Env) (α : Type) where
  obs : State → α
  good : State → Prop
  obs_Set : ∀ s k v, obs (s.Set k v) = obs s
  good_Set : ∀ s k v, good s → good (s.Set k v)
  obs_GetChainID : ∀ s, good s → obs (s.GetChainID E).2 = obs s
  good_GetChainID : ∀ s, good s → good (s.GetChainID E).2

/-! ## Coins arithmetic, per denomination -/

namespace Coins

theorem amountOf_nil (d : String) : amountOf [] d = 0 := rfl

theorem amountOf_cons (c : Coin) (cs : Coins) (d : String) :
    amountOf (c :: cs) d = (if c.denom = d then c.amount else 0) + amountOf cs d := by
  unfold amountOf
  by_cases h : c.denom = d <;> simp [List.filter_cons, h]

theorem amountOf_of_not_mem (cs : Coins) (d : String) (h : d ∉ cs.denoms) :
    amountOf cs d = 0 := by
  induction cs with
  | nil => rfl
  | cons c cs ih =>
    simp only [denoms, List.map_cons, List.mem_cons, not_or] at h
    rw [amountOf_cons, if_neg (fun e => h.1 e.symm), zero_add]
    exact ih h.2

theorem amountOf_map_nodup (f : String → Int) (l : List String) (hl : l.Nodup) (d : String) :
    amountOf (l.map (fun x => ({ denom := x, amount := f x } : Coin))) d
      = if d ∈ l then f d else 0 := by
  induction l with
  | nil => simp [amountOf_nil]
  | cons x l ih =>
    rw [List.nodup_cons] at hl
    rw [List.map_cons, amountOf_cons, ih hl.2]
    by_cases hx : x = d
    · subst hx
      simp [hl.1]
    · have hx' : ¬ d = x := fun e => hx e.symm
      simp [hx, hx']

theorem amountOf_canon (ds : List String) (f : String → Int) (d : String) :
    amountOf (canon ds f) d = if d ∈ ds then f d else 0 := by
  unfold canon
  have hnd : ((ds.dedup.filter (fun d => f d ≠ 0)).insertionSort denomLE).Nodup :=
    (List.perm_insertionSort denomLE _).nodup_iff.mpr ((List.nodup_dedup ds).filter _)
  rw [amountOf_map_nodup f _ hnd]
  have hmem : d ∈ (ds.dedup.filter (fun d => f d ≠ 0)).insertionSort denomLE
      ↔ d ∈ ds ∧ f d ≠ 0 := by
    rw [(List.perm_insertionSort denomLE _).mem_iff]
    simp [List.mem_filter]
  by_cases h1 : d ∈ ds
  · by_cases h2 : f d = 0
    · simp [hmem, h1, h2]
    · simp [hmem, h1, h2]
  · simp [hmem, h1]

theorem amountOf_Plus (a b : Coins) (d : String) :
    amountOf (Plus a b) d = amountOf a d + amountOf b d := by
  unfold Plus
  rw [amountOf_canon]
  split_ifs with h
  · rfl
  · simp only [List.mem_append, not_or] at h
    rw [amountOf_of_not_mem a d h.1, amountOf_of_not_mem b d h.2]; rfl

theorem amountOf_Minus (a b : Coins) (d : String) :
    amountOf (Minus a b) d = amountOf a d - amountOf b d := by
  unfold Minus
  rw [amountOf_canon]
  split_ifs with h
  · rfl
  · simp only [List.mem_append, not_or] at h
    rw [amountOf_of_not_mem a d h.1, amountOf_of_not_mem b d h.2]; rfl

theorem IsEqual_iff (a b : Coins) :
    IsEqual a b = true ↔ ∀ d, amountOf a d = amountOf b d := by
  unfold IsEqual
  rw [List.all_eq_true]
  constructor
  · intro h d
    by_cases hd : d ∈ a.denoms ++ b.denoms
    · simpa using h d hd
    · simp only [List.mem_append, not_or] at hd
      rw [amountOf_of_not_mem a d hd.1, amountOf_of_not_mem b d hd.2]
  · intro h d _
    simpa using h d

theorem IsGTE_iff (a b : Coins) :
    IsGTE a b = true ↔ ∀ d, amountOf b d ≤ amountOf a d := by
  unfold IsGTE
  rw [List.all_eq_true]
  constructor
  · intro h d
    by_cases hd : d ∈ a.denoms ++ b.denoms
    · simpa using h d hd
    · simp only [List.mem_append, not_or] at hd
      rw [amountOf_of_not_mem a d hd.1, amountOf_of_not_mem b d hd.2]
  · intro h d _
    simpa using h d
end Coins

/-! ## The layered state: reads after writes -/

theorem AccountKey_injective {a b : String} (h : AccountKey a = AccountKey b) : a = b := by
  unfold AccountKey at h
  have h' := congrArg String.data h
  simp only [String.data_append] at h'
  exact String.ext (List.append_cancel_left h')

theorem kvLookup_cons (k0 : String) (v0 : Value) (ws : List (String × Value)) (k : String) :
    kvLookup ((k0, v0) :: ws) k =
      match kvLookup ws k with
      | some w => some w
      | none => if k0 = k then some v0 else none := rfl

theorem kvLookup_append (ws : List (String × Value)) (k : String) (v : Value) (k' : String) :
    kvLookup (ws ++ [(k, v)]) k' = if k = k' then some v else kvLookup ws k' := by
  induction ws with
  | nil =>
    by_cases h : k = k' <;> simp [kvLookup, h]
  | cons kv ws ih =>
    obtain ⟨k0, v0⟩ := kv
    rw [List.cons_append, kvLookup_cons, kvLookup_cons, ih]
    by_cases h : k = k'
    · simp [h]
    · simp [h]

theorem kvLookup_append_list (ws ws' : List (String × Value)) (k : String) :
    kvLookup (ws ++ ws') k =
      match kvLookup ws' k with
      | some v => some v
      | none => kvLookup ws k := by
  induction ws with
  | nil =>
    rw [List.nil_append]
    cases kvLookup ws' k <;> rfl
  | cons kv ws ih =>
    obtain ⟨k0, v0⟩ := kv
    rw [List.cons_append, kvLookup_cons, kvLookup_cons, ih]
    cases kvLookup ws' k <;> rfl

namespace State

@[simp] theorem Get_withChainID (s : State) (c k : String) :
    (s.withChainID c).Get k = s.Get k := by
  cases s <;> rfl

@[simp] theorem Get_GetChainID (E : Env) (s : State) (k : String) :
    (s.GetChainID E).2.Get k = s.Get k := by
  unfold GetChainID
  split_ifs <;> simp

theorem Get_Set (s : State) (k : String) (v : Value) (k' : String) :
    (s.Set k v).Get k' = if k' = k then v else s.Get k' := by
  cases s with
  | root c e store rc =>
    simp only [Set, Get]
    by_cases h : k' = k <;> simp [h]
  | wrap c p ws =>
    simp only [Set, Get, kvLookup_append]
    by_cases h : k' = k
    · subst h; simp
    · have h' : ¬ k = k' := fun e => h e.symm
      simp [h, h']

theorem Get_SetAccount (s : State) (addr : String) (acc : Account) (k : String) :
    (s.SetAccount addr acc).Get k
      = if k = AccountKey addr then Value.account acc else s.Get k :=
  Get_Set s _ _ k

theorem GetAccount_SetAccount (s : State) (addr : String) (acc : Account) (a : String) :
    (s.SetAccount addr acc).GetAccount a = if a = addr then some acc else s.GetAccount a := by
  unfold GetAccount
  rw [Get_SetAccount]
  by_cases h : a = addr
  · subst h; simp
  · have h' : AccountKey a ≠ AccountKey addr := fun e => h (AccountKey_injective e)
    simp [h, h']

@[simp] theorem GetAccount_GetChainID (E : Env) (s : State) (a : String) :
    (s.GetChainID E).2.GetAccount a = s.GetAccount a := by
  unfold GetAccount
  rw [Get_GetChainID]

theorem Get_applyWrites (s : State) (ws : List (String × Value)) (k : String) :
    (s.applyWrites ws).Get k =
      match kvLookup ws k with
      | some v => v
      | none => s.Get k := by
  unfold applyWrites
  induction ws using List.reverseRecOn with
  | nil => rfl
  | append_singleton ws kv ih =>
    obtain ⟨k0, v0⟩ := kv
    rw [List.foldl_append, List.foldl_cons, List.foldl_nil, Get_Set, kvLookup_append, ih]
    by_cases h : k = k0
    · subst h; simp
    · have h' : ¬ k0 = k := fun e => h e.symm
      simp [h, h']

theorem Set_wrap (c : String) (p : State) (ws : List (String × Value)) (k : String)
    (v : Value) : (wrap c p ws).Set k v = wrap c p (ws ++ [(k, v)]) := rfl

theorem applyWrites_nil (s : State) : s.applyWrites [] = s := rfl

theorem applyWrites_cons (s : State) (kv : String × Value) (ws : List (String × Value)) :
    s.applyWrites (kv :: ws) = (s.Set kv.1 kv.2).applyWrites ws := rfl

theorem applyWrites_wrap (c : String) (p : State) (ws ws' : List (String × Value)) :
    (wrap c p ws).applyWrites ws' = wrap c p (ws ++ ws') := by
  induction ws' generalizing ws with
  | nil => simp [applyWrites_nil]
  | cons kv ws' ih =>
    rw [applyWrites_cons, Set_wrap, ih]
    simp

end State

/-! ## The SendTx pipeline -/

theorem Result.IsErr_err {c : CodeType} (h : c ≠ CodeType.OK) : (Result.err c).IsErr = true := by
  simp [Result.IsErr, Result.err, h]

theorem Result.code_ne_OK_of_IsErr {r : Result} (h : r.IsErr = true) : r.code ≠ CodeType.OK := by
  simpa [Result.IsErr] using h

theorem Result.IsErr_false_iff {r : Result} : r.IsErr = false ↔ r.code = CodeType.OK := by
  simp [Result.IsErr]

/-- What an accepted `SendTx` went through: every check passed, the totals
agree, and the state is the one after both adjustments. -/
theorem execSendTx_ok_inv (E : Env) (st : State) (cid : String) (tx : SendTx) (chk : Bool)
    (res : Result) (s' : State)
    (h : execSendTx E st cid tx chk = some (res, s')) (hres : res.IsErr = false) :
    (validateInputsBasic E tx.inputs).IsErr = false ∧
    (validateOutputsBasic E tx.outputs).IsErr = false ∧
    (getInputs st tx.inputs).2.IsErr = false ∧
    (getOrMakeOutputs st (getInputs st tx.inputs).1 tx.outputs).2.IsErr = false ∧
    ∃ inTotal r st1 accounts1 accounts2,
      validateInputsAdvanced E (getOrMakeOutputs st (getInputs st tx.inputs).1 tx.outputs).1
        (E.sendSignBytes cid tx) tx.inputs = some (inTotal, r) ∧
      r.IsErr = false ∧
      inTotal.IsEqual (if Coins.IsValid [tx.fee] then (sumOutputs tx.outputs).Plus [tx.fee]
        else sumOutputs tx.outputs) = true ∧
      adjustByInputs st (getOrMakeOutputs st (getInputs st tx.inputs).1 tx.outputs).1 tx.inputs
        = some (st1, accounts1) ∧
      adjustByOutputs E st1 accounts1 tx.outputs chk = some (s', accounts2) ∧
      res = Result.NewResultOK (E.txID cid tx) := by
  unfold execSendTx at h
  have key : ∀ (r : Result), r.IsErr = true → some (r, st) = some (res, s') → False := by
    intro r hr e
    simp only [Option.some.injEq, Prod.mk.injEq] at e
    rw [← e.1, hr] at hres
    cases hres
  by_cases h1 : (validateInputsBasic E tx.inputs).IsErr = true
  · rw [if_pos h1] at h; exact (key _ h1 h).elim
  rw [if_neg h1] at h
  by_cases h2 : (validateOutputsBasic E tx.outputs).IsErr = true
  · rw [if_pos h2] at h; exact (key _ h2 h).elim
  rw [if_neg h2] at h
  by_cases h3 : (getInputs st tx.inputs).2.IsErr = true
  · rw [if_pos h3] at h; exact (key _ h3 h).elim
  rw [if_neg h3] at h
  dsimp only at h
  by_cases h4 : (getOrMakeOutputs st (getInputs st tx.inputs).1 tx.outputs).2.IsErr = true
  · rw [if_pos h4] at h; exact (key _ h4 h).elim
  rw [if_neg h4] at h
  refine ⟨by simpa using h1, by simpa using h2, by simpa using h3, by simpa using h4, ?_⟩
  cases hv : validateInputsAdvanced E (getOrMakeOutputs st (getInputs st tx.inputs).1 tx.outputs).1
      (E.sendSignBytes cid tx) tx.inputs with
  | none => rw [hv] at h; cases h
  | some p =>
    obtain ⟨inTotal, r⟩ := p
    rw [hv] at h
    dsimp only at h
    by_cases h5 : r.IsErr = true
    · rw [if_pos h5] at h; exact (key _ h5 h).elim
    rw [if_neg h5] at h
    by_cases h6 : (!inTotal.IsEqual (if Coins.IsValid [tx.fee] = true
        then (sumOutputs tx.outputs).Plus [tx.fee] else sumOutputs tx.outputs)) = true
    · rw [if_pos h6] at h
      exact (key _ (Result.IsErr_err (by decide)) h).elim
    rw [if_neg h6] at h
    cases ha : adjustByInputs st (getOrMakeOutputs st (getInputs st tx.inputs).1 tx.outputs).1
        tx.inputs with
    | none => rw [ha] at h; cases h
    | some q =>
      obtain ⟨st1, accounts1⟩ := q
      rw [ha] at h
      dsimp only at h
      cases hb : adjustByOutputs E st1 accounts1 tx.outputs chk with
      | none => rw [hb] at h; cases h
      | some q2 =>
        obtain ⟨st2, accounts2⟩ := q2
        rw [hb] at h
        simp only [Option.some.injEq, Prod.mk.injEq] at h
        refine ⟨inTotal, r, st1, accounts1, accounts2, rfl, by simpa using h5,
          by simpa using h6, rfl, ?_, h.1.symm⟩
        rw [← h.2, hb]

theorem validateInputsAdvancedLoop_total (E : Env) (accounts : AccMap) (sb : String)
    (ins : List TxInput) (t t' : Coins) (r : Result)
    (h : validateInputsAdvancedLoop E accounts sb t ins = some (t', r))
    (hr : r.IsErr = false) :
    t' = ins.foldl (fun total inp => total.Plus inp.coins) t := by
  induction ins generalizing t with
  | nil =>
    simp only [validateInputsAdvancedLoop, Option.some.injEq, Prod.mk.injEq] at h
    rw [List.foldl_nil]; exact h.1.symm
  | cons inp rest ih =>
    rw [validateInputsAdvancedLoop] at h
    cases ha : accounts inp.address with
    | none => rw [ha] at h; cases h
    | some acc =>
      rw [ha] at h
      dsimp only at h
      by_cases he : (validateInputAdvanced E acc sb inp).IsErr = true
      · rw [if_pos he] at h
        simp only [Option.some.injEq, Prod.mk.injEq] at h
        rw [← h.2, he] at hr; cases hr
      · rw [if_neg he] at h
        rw [List.foldl_cons]
        exact ih _ h

theorem Coins.amountOf_foldl_Plus {α : Type} (f : α → Coins) (l : List α) (t : Coins)
    (d : String) :
    Coins.amountOf (l.foldl (fun total x => total.Plus (f x)) t) d
      = Coins.amountOf t d + (l.map (fun x => (f x).amountOf d)).sum := by
  induction l generalizing t with
  | nil => simp
  | cons x l ih =>
    rw [List.foldl_cons, ih, Coins.amountOf_Plus, List.map_cons, List.sum_cons]
    ring

theorem amountOf_sumOutputs (outs : List TxOutput) (d : String) :
    Coins.amountOf (sumOutputs outs) d = (outs.map (fun o => o.coins.amountOf d)).sum := by
  unfold sumOutputs
  rw [Coins.amountOf_foldl_Plus (fun o : TxOutput => o.coins), Coins.amountOf_nil, zero_add]

theorem getInputsLoop_congr (s s' : State) (h : ∀ a, s'.GetAccount a = s.GetAccount a)
    (m : AccMap) (ins : List TxInput) : getInputsLoop s' m ins = getInputsLoop s m ins := by
  induction ins generalizing m with
  | nil => rfl
  | cons inp rest ih =>
    rw [getInputsLoop, getInputsLoop, h inp.address]
    by_cases hm : (m inp.address).isSome = true
    · rw [if_pos hm, if_pos hm]
    · rw [if_neg hm, if_neg hm]
      cases s.GetAccount inp.address with
      | none => rfl
      | some acc => exact ih _

theorem getInputs_congr (s s' : State) (h : ∀ a, s'.GetAccount a = s.GetAccount a)
    (ins : List TxInput) : getInputs s' ins = getInputs s ins :=
  getInputsLoop_congr s s' h _ ins

theorem getOrMakeOutputs_congr (s s' : State) (h : ∀ a, s'.GetAccount a = s.GetAccount a)
    (m : AccMap) (outs : List TxOutput) :
    getOrMakeOutputs s' m outs = getOrMakeOutputs s m outs := by
  induction outs generalizing m with
  | nil => rfl
  | cons out rest ih =>
    rw [getOrMakeOutputs, getOrMakeOutputs, h out.address]
    cases out.chain with
    | some c => exact ih _
    | none =>
      dsimp only
      split_ifs
      · rfl
      · exact ih _

theorem sendPassesChecks_iff (E : Env) (s : State) (tx : SendTx) :
    sendPassesChecks E s tx = true ↔
      (validateInputsBasic E tx.inputs).IsErr = false ∧
      (validateOutputsBasic E tx.outputs).IsErr = false ∧
      (getInputs s tx.inputs).2.IsErr = false ∧
      (getOrMakeOutputs s (getInputs s tx.inputs).1 tx.outputs).2.IsErr = false ∧
      ∃ t r, validateInputsAdvanced E (getOrMakeOutputs s (getInputs s tx.inputs).1 tx.outputs).1
          (E.sendSignBytes (s.GetChainID E).1 tx) tx.inputs = some (t, r) ∧ r.IsErr = false := by
  unfold sendPassesChecks
  simp only [Bool.and_eq_true, Bool.not_eq_true', decide_eq_true_eq, and_assoc]
  refine and_congr_right fun _ => and_congr_right fun _ => and_congr_right fun _ =>
    and_congr_right fun _ => ?_
  cases validateInputsAdvanced E (getOrMakeOutputs s (getInputs s tx.inputs).1 tx.outputs).1
      (E.sendSignBytes (s.GetChainID E).1 tx) tx.inputs with
  | none => simp
  | some p =>
    obtain ⟨t, r⟩ := p
    simp only [Option.map_some', Option.some.injEq, Prod.mk.injEq]
    constructor
    · intro hr; exact ⟨t, r, ⟨rfl, rfl⟩, hr⟩
    · rintro ⟨_, _, ⟨rfl, rfl⟩, hr⟩; exact hr

/-- The state that `ExecTx` works on reads as the given one. -/
theorem execSendTx_GetChainID_pass (E : Env) (s : State) (tx : SendTx)
    (h : sendPassesChecks E s tx = true) :
    (validateInputsBasic E tx.inputs).IsErr = false ∧
    (validateOutputsBasic E tx.outputs).IsErr = false ∧
    (getInputs (s.GetChainID E).2 tx.inputs).2.IsErr = false ∧
    (getOrMakeOutputs (s.GetChainID E).2 (getInputs (s.GetChainID E).2 tx.inputs).1
      tx.outputs).2.IsErr = false ∧
    ∃ t r, validateInputsAdvanced E
        (getOrMakeOutputs (s.GetChainID E).2 (getInputs (s.GetChainID E).2 tx.inputs).1
          tx.outputs).1
        (E.sendSignBytes (s.GetChainID E).1 tx) tx.inputs = some (t, r) ∧ r.IsErr = false := by
  have hc : ∀ a, (s.GetChainID E).2.GetAccount a = s.GetAccount a :=
    State.GetAccount_GetChainID E s
  rw [getInputs_congr s _ hc, getOrMakeOutputs_congr s _ hc]
  exact (sendPassesChecks_iff E s tx).mp h

theorem amountOf_outPlusFees (tx : SendTx) (d : String) :
    Coins.amountOf (if Coins.IsValid [tx.fee] = true then (sumOutputs tx.outputs).Plus [tx.fee]
      else sumOutputs tx.outputs) d
      = (tx.outputs.map (fun o => o.coins.amountOf d)).sum + countedFee tx.fee d := by
  unfold countedFee
  split_ifs with h
  · rw [Coins.amountOf_Plus, amountOf_sumOutputs]
  · rw [amountOf_sumOutputs, add_zero]

theorem amountOf_inTotal (E : Env) (accounts : AccMap) (sb : String) (ins : List TxInput)
    (t : Coins) (r : Result) (h : validateInputsAdvanced E accounts sb ins = some (t, r))
    (hr : r.IsErr = false) (d : String) :
    Coins.amountOf t d = (ins.map (fun i => i.coins.amountOf d)).sum := by
  rw [validateInputsAdvancedLoop_total E accounts sb ins [] t r h hr,
    Coins.amountOf_foldl_Plus (fun i : TxInput => i.coins), Coins.amountOf_nil, zero_add]

/-- A `SendTx` that passes the earlier checks and whose totals differ is
rejected with InvalidOutput, on the state as it was. -/
theorem execSendTx_invalidOutput (E : Env) (st : State) (cid : String) (tx : SendTx)
    (chk : Bool) (t : Coins) (r : Result)
    (h1 : (validateInputsBasic E tx.inputs).IsErr = false)
    (h2 : (validateOutputsBasic E tx.outputs).IsErr = false)
    (h3 : (getInputs st tx.inputs).2.IsErr = false)
    (h4 : (getOrMakeOutputs st (getInputs st tx.inputs).1 tx.outputs).2.IsErr = false)
    (h5 : validateInputsAdvanced E (getOrMakeOutputs st (getInputs st tx.inputs).1 tx.outputs).1
      (E.sendSignBytes cid tx) tx.inputs = some (t, r))
    (h6 : r.IsErr = false)
    (h7 : t.IsEqual (if Coins.IsValid [tx.fee] = true then (sumOutputs tx.outputs).Plus [tx.fee]
      else sumOutputs tx.outputs) = false) :
    execSendTx E st cid tx chk = some (Result.err CodeType.BaseInvalidOutput, st) := by
  unfold execSendTx
  simp [h1, h2, h3, h4, h5, h6, h7]

/-- C1 (amended): a `SendTx` is accepted only if, in every denomination, the
sum of the input coins equals the sum of the output coins plus the fee that
the check counts (the fee when it passes the coins validity check, nothing
when it does not); and a `SendTx` that passes structural validation, account
loading and the per-input checks, and whose two sides differ in some
denomination, is rejected with InvalidOutput, every key of the state reading
as before. -/
theorem sendTx_conservation_check (E : Env) (s : State) (pgz : Plugins) (tx : SendTx)
    (isCheckTx : Bool) :
    (∀ res s', ExecTx E s pgz (Tx.send tx) isCheckTx = some (res, s') →
      res.code = CodeType.OK →
      ∀ d, (tx.inputs.map (fun i => i.coins.amountOf d)).sum
        = (tx.outputs.map (fun o => o.coins.amountOf d)).sum + countedFee tx.fee d) ∧
    (sendPassesChecks E s tx = true →
      (∃ d, (tx.inputs.map (fun i => i.coins.amountOf d)).sum
        ≠ (tx.outputs.map (fun o => o.coins.amountOf d)).sum + countedFee tx.fee d) →
      ∃ s', ExecTx E s pgz (Tx.send tx) isCheckTx
          = some (Result.err CodeType.BaseInvalidOutput, s') ∧
        ∀ k, s'.Get k = s.Get k) := by
  constructor
  · intro res s' h hOK d
    have hinv := execSendTx_ok_inv E _ _ tx isCheckTx res s' h (Result.IsErr_false_iff.mpr hOK)
    obtain ⟨_, _, _, _, t, r, _, _, _, hv, hr, heq, _⟩ := hinv
    rw [← amountOf_inTotal E _ _ _ t r hv hr d, ← amountOf_outPlusFees]
    exact (Coins.IsEqual_iff _ _).mp heq d
  · intro hpass hdiff
    obtain ⟨h1, h2, h3, h4, t, r, h5, h6⟩ := execSendTx_GetChainID_pass E s tx hpass
    refine ⟨(s.GetChainID E).2, ?_, State.Get_GetChainID E s⟩
    apply execSendTx_invalidOutput E _ _ tx isCheckTx t r h1 h2 h3 h4 h5 h6
    rw [Bool.eq_false_iff]
    intro heq
    obtain ⟨d, hd⟩ := hdiff
    apply hd
    rw [← amountOf_inTotal E _ _ _ t r h5 h6 d, ← amountOf_outPlusFees]
    exact (Coins.IsEqual_iff _ _).mp heq d

/-- C1, scenario 2: with `A` holding atom:100 at sequence 5, the transfer of
30 atoms in and 25 atoms out with fee atom:0 is rejected with InvalidOutput;
`A` is unchanged and `B` still has no account. -/
theorem sendTx_conservation_check_witness :
    sendPassesChecks refEnv demoState (demoSend 25 ⟨"atom", 0⟩) = true ∧
    ∃ s', ExecTx refEnv demoState noPlugins (Tx.send (demoSend 25 ⟨"atom", 0⟩)) false
        = some (Result.err CodeType.BaseInvalidOutput, s') ∧
      ∀ k, s'.Get k = demoState.Get k :=
  ⟨by decide,
   (sendTx_conservation_check refEnv demoState noPlugins (demoSend 25 ⟨"atom", 0⟩) false).2
     (by decide) ⟨"atom", by decide⟩⟩

/-- C1 as stated fails: the transfer of 30 atoms in and 30 atoms out with the
fee atom:-5, which fails the coins validity check, passes every earlier check
and is accepted, although the input total (30) is not the output total plus
the fee (25). -/
theorem sendTx_invalid_fee_accepted :
    sendPassesChecks refEnv demoState (demoSend 30 ⟨"atom", -5⟩) = true ∧
    observe (ExecTx refEnv demoState noPlugins (Tx.send (demoSend 30 ⟨"atom", -5⟩)) false)
      = some (Result.NewResultOK "test:send:id",
          some { pubKey := ⟨some "ka"⟩, sequence := 6, balance := [⟨"atom", 70⟩] },
          some { pubKey := ⟨none⟩, sequence := 0, balance := [⟨"atom", 30⟩] }) ∧
    ((demoSend 30 ⟨"atom", -5⟩).inputs.map (fun i => i.coins.amountOf "atom")).sum = 30 ∧
    ((demoSend 30 ⟨"atom", -5⟩).outputs.map (fun o => o.coins.amountOf "atom")).sum
      + Coins.amountOf [(demoSend 30 ⟨"atom", -5⟩).fee] "atom" = 25 := by
  decide

/-! ## Loading the accounts of a SendTx -/

theorem AccMap.insert_same (m : AccMap) (a : String) (acc : Account) :
    m.insert a acc a = some acc := by
  simp [AccMap.insert]

theorem AccMap.insert_ne (m : AccMap) (a b : String) (acc : Account) (h : b ≠ a) :
    m.insert a acc b = m b := by
  simp [AccMap.insert, h]

/-- What `getInputs` has done when it succeeds: the addresses are pairwise
distinct and were not in the map, each is mapped to its stored account (with
the key of the input, if any), and no other entry is touched. -/
theorem getInputsLoop_ok (s : State) (ins : List TxInput) (m m' : AccMap) (r : Result)
    (h : getInputsLoop s m ins = (m', r)) (hr : r.IsErr = false) :
    (ins.map (fun i => i.address)).Nodup ∧
    (∀ inp ∈ ins, m inp.address = none) ∧
    (∀ inp ∈ ins, ∃ acc, s.GetAccount inp.address = some acc ∧
      m' inp.address = some (withInputKey inp acc)) ∧
    (∀ a, a ∉ ins.map (fun i => i.address) → m' a = m a) := by
  induction ins generalizing m with
  | nil =>
    simp only [getInputsLoop, Prod.mk.injEq] at h
    refine ⟨List.nodup_nil, by simp, by simp, ?_⟩
    intro a _; rw [h.1]
  | cons inp rest ih =>
    rw [getInputsLoop] at h
    by_cases hm : (m inp.address).isSome = true
    · rw [if_pos hm] at h
      simp only [Prod.mk.injEq] at h
      rw [← h.2] at hr
      cases hr
    rw [if_neg hm] at h
    have hm' : m inp.address = none := by simpa using hm
    cases hg : s.GetAccount inp.address with
    | none =>
      rw [hg] at h
      simp only [Prod.mk.injEq] at h
      rw [← h.2] at hr
      cases hr
    | some acc =>
      rw [hg] at h
      obtain ⟨hnd, hnone, hsome, hother⟩ := ih _ h
      have hnot : inp.address ∉ rest.map (fun i => i.address) := by
        intro hmem
        obtain ⟨i, hi, he⟩ := List.mem_map.mp hmem
        have := hnone i hi
        rw [he, AccMap.insert_same] at this
        cases this
      refine ⟨?_, ?_, ?_, ?_⟩
      · rw [List.map_cons, List.nodup_cons]; exact ⟨hnot, hnd⟩
      · intro i hi
        rcases List.mem_cons.mp hi with rfl | hi
        · exact hm'
        · have h1 := hnone i hi
          by_cases he : i.address = inp.address
          · rw [he, AccMap.insert_same] at h1; cases h1
          · rwa [AccMap.insert_ne _ _ _ _ he] at h1
      · intro i hi
        rcases List.mem_cons.mp hi with rfl | hi
        · refine ⟨acc, hg, ?_⟩
          rw [hother _ hnot, AccMap.insert_same]
        · exact hsome i hi
      · intro a ha
        rw [List.map_cons, List.mem_cons, not_or] at ha
        rw [hother a ha.2, AccMap.insert_ne _ _ _ _ ha.1]

/-- What `getOrMakeOutputs` has done when it succeeds: the local output
addresses are pairwise distinct and were not in the map, each is mapped to its
stored account or to the empty account, and no other entry is touched. -/
theorem getOrMakeOutputs_ok (s : State) (outs : List TxOutput) (m m' : AccMap) (r : Result)
    (h : getOrMakeOutputs s m outs = (m', r)) (hr : r.IsErr = false) :
    (localAddresses outs).Nodup ∧
    (∀ a ∈ localAddresses outs, m a = none) ∧
    (∀ a ∈ localAddresses outs, m' a = some ((s.GetAccount a).getD Account.zero)) ∧
    (∀ a, a ∉ localAddresses outs → m' a = m a) := by
  induction outs generalizing m with
  | nil =>
    simp only [getOrMakeOutputs, Prod.mk.injEq] at h
    refine ⟨List.nodup_nil, by simp [localAddresses], by simp [localAddresses], ?_⟩
    intro a _; rw [h.1]
  | cons out rest ih =>
    rw [getOrMakeOutputs] at h
    cases hc : out.chain with
    | some c =>
      rw [hc] at h
      have hl : localAddresses (out :: rest) = localAddresses rest := by
        simp [localAddresses, List.filter_cons, hc]
      rw [hl]
      exact ih _ h
    | none =>
      rw [hc] at h
      dsimp only at h
      have hl : localAddresses (out :: rest) = out.address :: localAddresses rest := by
        simp [localAddresses, List.filter_cons, hc]
      rw [hl]
      by_cases hm : (m out.address).isSome = true
      · rw [if_pos hm] at h
        simp only [Prod.mk.injEq] at h
        rw [← h.2] at hr
        cases hr
      rw [if_neg hm] at h
      have hm' : m out.address = none := by simpa using hm
      obtain ⟨hnd, hnone, hsome, hother⟩ := ih _ h
      have hnot : out.address ∉ localAddresses rest := by
        intro hmem
        have := hnone _ hmem
        rw [AccMap.insert_same] at this
        cases this
      refine ⟨List.nodup_cons.mpr ⟨hnot, hnd⟩, ?_, ?_, ?_⟩
      · intro a ha
        rcases List.mem_cons.mp ha with rfl | ha
        · exact hm'
        · have h1 := hnone a ha
          by_cases he : a = out.address
          · rw [he, AccMap.insert_same] at h1; cases h1
          · rwa [AccMap.insert_ne _ _ _ _ he] at h1
      · intro a ha
        rcases List.mem_cons.mp ha with rfl | ha
        · rw [hother _ hnot, AccMap.insert_same]
          cases s.GetAccount out.address <;> rfl
        · exact hsome a ha
      · intro a ha
        rw [List.mem_cons, not_or] at ha
        rw [hother a ha.2, AccMap.insert_ne _ _ _ _ ha.1]

/-! ## Adjusting the accounts of a SendTx -/

theorem kvLookup_eq_none (ws : List (String × Value)) (k : String)
    (h : ∀ kv ∈ ws, kv.1 ≠ k) : kvLookup ws k = none := by
  induction ws with
  | nil => rfl
  | cons kv ws ih =>
    obtain ⟨k0, v0⟩ := kv
    rw [kvLookup_cons, ih (fun kv hkv => h kv (List.mem_cons_of_mem _ hkv))]
    have : k0 ≠ k := h (k0, v0) (List.mem_cons_self _ _)
    simp [this]

theorem State.GetAccount_applyWrites_frame (s : State) (ws : List (String × Value))
    (h : ∀ kv ∈ ws, ∀ a, kv.1 ≠ AccountKey a) (a : String) :
    (s.applyWrites ws).GetAccount a = s.GetAccount a := by
  unfold State.GetAccount
  rw [State.Get_applyWrites, kvLookup_eq_none ws _ (fun kv hkv => h kv hkv a)]

/-- What `adjustByInputs` has done when it returns, the input addresses being
pairwise distinct: each input account is stored with its coins taken off and
its sequence raised by one, and every other key reads as before. -/
theorem adjustByInputs_ok (ins : List TxInput) (st st' : State) (acc acc' : AccMap)
    (h : adjustByInputs st acc ins = some (st', acc'))
    (hnd : (ins.map (fun i => i.address)).Nodup) :
    (∀ inp ∈ ins, ∃ a0, acc inp.address = some a0 ∧ a0.balance.IsGTE inp.coins = true ∧
      st'.GetAccount inp.address = some
        { a0 with balance := a0.balance.Minus inp.coins, sequence := a0.sequence + 1 }) ∧
    (∀ k, (∀ inp ∈ ins, k ≠ AccountKey inp.address) → st'.Get k = st.Get k) ∧
    (∀ a, a ∉ ins.map (fun i => i.address) → acc' a = acc a) := by
  induction ins generalizing st acc with
  | nil =>
    simp only [adjustByInputs, Option.some.injEq, Prod.mk.injEq] at h
    refine ⟨by simp, ?_, ?_⟩
    · intro k _; rw [h.1]
    · intro a _; rw [h.2]
  | cons inp rest ih =>
    rw [List.map_cons, List.nodup_cons] at hnd
    rw [adjustByInputs] at h
    cases ha : acc inp.address with
    | none => rw [ha] at h; cases h
    | some a0 =>
      rw [ha] at h
      dsimp only at h
      by_cases hg : (!a0.balance.IsGTE inp.coins) = true
      · rw [if_pos hg] at h; cases h
      rw [if_neg hg] at h
      have hg' : a0.balance.IsGTE inp.coins = true := by simpa using hg
      obtain ⟨hin, hframe, hmap⟩ := ih _ _ h hnd.2
      have hne : ∀ i ∈ rest, i.address ≠ inp.address := by
        intro i hi he
        exact hnd.1 (List.mem_map.mpr ⟨i, hi, he⟩)
      refine ⟨?_, ?_, ?_⟩
      · intro i hi
        rcases List.mem_cons.mp hi with rfl | hi
        · refine ⟨a0, ha, hg', ?_⟩
          unfold State.GetAccount
          rw [hframe _ (fun j hj e => hne j hj (AccountKey_injective e).symm)]
          have := State.GetAccount_SetAccount st i.address
            { a0 with balance := a0.balance.Minus i.coins, sequence := a0.sequence + 1 }
            i.address
          unfold State.GetAccount at this
          rw [this, if_pos rfl]
        · obtain ⟨a1, h1, h2, h3⟩ := hin i hi
          rw [AccMap.insert_ne _ _ _ _ (hne i hi)] at h1
          exact ⟨a1, h1, h2, h3⟩
      · intro k hk
        rw [hframe k (fun i hi => hk i (List.mem_cons_of_mem _ hi)), State.Get_SetAccount,
          if_neg (hk inp (List.mem_cons_self _ _))]
      · intro a hna
        rw [List.map_cons, List.mem_cons, not_or] at hna
        rw [hmap a hna.2, AccMap.insert_ne _ _ _ _ hna.1]

theorem packetsKeepAccounts_cons {E : Env} {out : TxOutput} {rest : List TxOutput}
    (h : packetsKeepAccounts E (out :: rest)) : packetsKeepAccounts E rest :=
  fun o ho => h o (List.mem_cons_of_mem _ ho)

/-- What `adjustByOutputs` has done in delivery mode when it returns, the local
output addresses being pairwise distinct and the packets being stored outside
the accounts: each local destination is stored with the coins added, and every
other account reads as before. -/
theorem adjustByOutputs_ok (E : Env) (outs : List TxOutput) (st st' : State)
    (acc acc' : AccMap)
    (h : adjustByOutputs E st acc outs false = some (st', acc'))
    (hnd : (localAddresses outs).Nodup) (hp : packetsKeepAccounts E outs) :
    (∀ out ∈ outs, out.chain = none → ∃ a0, acc out.address = some a0 ∧
      st'.GetAccount out.address = some { a0 with balance := a0.balance.Plus out.coins }) ∧
    (∀ a, a ∉ localAddresses outs → st'.GetAccount a = st.GetAccount a) := by
  induction outs generalizing st acc with
  | nil =>
    simp only [adjustByOutputs, Option.some.injEq, Prod.mk.injEq] at h
    refine ⟨by simp, ?_⟩
    intro a _; rw [h.1]
  | cons out rest ih =>
    rw [adjustByOutputs] at h
    cases hc : out.chain with
    | some dst =>
      rw [hc] at h
      dsimp only at h
      have hl : localAddresses (out :: rest) = localAddresses rest := by
        simp [localAddresses, List.filter_cons, hc]
      rw [hl] at hnd ⊢
      obtain ⟨hout, hframe⟩ := ih _ _ h hnd (packetsKeepAccounts_cons hp)
      have hws : ∀ a, ((st.GetChainID E).2.applyWrites
          (E.saveNewIBCPacket (st.GetChainID E).2 (st.GetChainID E).1 dst
            (out.address, out.coins))).GetAccount a = st.GetAccount a := by
        intro a
        rw [State.GetAccount_applyWrites_frame _ _
          (fun kv hkv => hp out (List.mem_cons_self _ _) dst hc _ _ kv hkv),
          State.GetAccount_GetChainID]
      refine ⟨?_, ?_⟩
      · intro o ho hoc
        rcases List.mem_cons.mp ho with rfl | ho
        · rw [hc] at hoc; cases hoc
        · exact hout o ho hoc
      · intro a ha
        rw [hframe a ha, hws]
    | none =>
      rw [hc] at h
      dsimp only at h
      have hl : localAddresses (out :: rest) = out.address :: localAddresses rest := by
        simp [localAddresses, List.filter_cons, hc]
      rw [hl] at hnd ⊢
      rw [List.nodup_cons] at hnd
      cases ha : acc out.address with
      | none => rw [ha] at h; cases h
      | some a0 =>
        rw [ha] at h
        dsimp only at h
        simp only [Bool.not_false, if_true] at h
        obtain ⟨hout, hframe⟩ := ih _ _ h hnd.2 (packetsKeepAccounts_cons hp)
        refine ⟨?_, ?_⟩
        · intro o ho hoc
          rcases List.mem_cons.mp ho with rfl | ho
          · refine ⟨a0, ha, ?_⟩
            rw [hframe _ hnd.1, State.GetAccount_SetAccount, if_pos rfl]
          · obtain ⟨a1, h1, h2⟩ := hout o ho hoc
            have hne : o.address ≠ out.address := by
              intro e
              apply hnd.1
              rw [← e]
              unfold localAddresses
              exact List.mem_map.mpr ⟨o, List.mem_filter.mpr ⟨ho, by simp [hoc]⟩, rfl⟩
            rw [AccMap.insert_ne _ _ _ _ hne] at h1
            exact ⟨a1, h1, h2⟩
        · intro a hna
          rw [List.mem_cons, not_or] at hna
          rw [hframe a hna.2, State.GetAccount_SetAccount, if_neg hna.1]

theorem withInputKey_balance (inp : TxInput) (acc : Account) :
    (withInputKey inp acc).balance = acc.balance := by
  unfold withInputKey; split_ifs <;> rfl

theorem withInputKey_sequence (inp : TxInput) (acc : Account) :
    (withInputKey inp acc).sequence = acc.sequence := by
  unfold withInputKey; split_ifs <;> rfl

theorem mem_localAddresses {outs : List TxOutput} {out : TxOutput} (ho : out ∈ outs)
    (hc : out.chain = none) : out.address ∈ localAddresses outs := by
  unfold localAddresses
  exact List.mem_map.mpr ⟨out, List.mem_filter.mpr ⟨ho, by simp [hc]⟩, rfl⟩

theorem not_mem_localAddresses {outs : List TxOutput} {a : String}
    (h : ∀ out ∈ outs, out.chain = none → out.address ≠ a) : a ∉ localAddresses outs := by
  unfold localAddresses
  intro hmem
  obtain ⟨o, ho, he⟩ := List.mem_map.mp hmem
  rw [List.mem_filter] at ho
  exact h o ho.1 (by simpa using ho.2) he

/-- C2: for a `SendTx` accepted in delivery mode (the outgoing packets being
stored outside the accounts), the state afterwards stores each input account
with its balance less the input coins and its sequence plus one, and each
local destination (the empty account if there was none) with its balance plus
the output coins; every other account reads as before. -/
theorem sendTx_delivery_effect (E : Env) (s : State) (pgz : Plugins) (tx : SendTx)
    (res : Result) (s' : State)
    (hp : packetsKeepAccounts E tx.outputs)
    (h : ExecTx E s pgz (Tx.send tx) false = some (res, s'))
    (hOK : res.code = CodeType.OK) :
    (∀ inp ∈ tx.inputs, ∃ acc, s.GetAccount inp.address = some acc ∧
      s'.GetAccount inp.address = some
        { pubKey := (withInputKey inp acc).pubKey,
          sequence := acc.sequence + 1,
          balance := acc.balance.Minus inp.coins }) ∧
    (∀ out ∈ tx.outputs, out.chain = none →
      s'.GetAccount out.address = some
        { pubKey := ((s.GetAccount out.address).getD Account.zero).pubKey,
          sequence := ((s.GetAccount out.address).getD Account.zero).sequence,
          balance := ((s.GetAccount out.address).getD Account.zero).balance.Plus out.coins }) ∧
    (∀ a, (∀ inp ∈ tx.inputs, inp.address ≠ a) →
      (∀ out ∈ tx.outputs, out.chain = none → out.address ≠ a) →
      s'.GetAccount a = s.GetAccount a) := by
  have hinv := execSendTx_ok_inv E _ _ tx false res s' h (Result.IsErr_false_iff.mpr hOK)
  obtain ⟨_, _, h3, h4, t, r, st1, acc1, acc2, _, _, _, ha, hb, _⟩ := hinv
  have hs0 : ∀ a, (s.GetChainID E).2.GetAccount a = s.GetAccount a :=
    State.GetAccount_GetChainID E s
  obtain ⟨ind, _, iload, _⟩ :=
    getInputsLoop_ok (s.GetChainID E).2 tx.inputs AccMap.empty _ _ rfl h3
  obtain ⟨ond, onone, oload, oother⟩ :=
    getOrMakeOutputs_ok (s.GetChainID E).2 tx.outputs _ _ _ rfl h4
  obtain ⟨iadj, iframe, imap⟩ := adjustByInputs_ok tx.inputs _ _ _ _ ha ind
  obtain ⟨oadj, oframe⟩ := adjustByOutputs_ok E tx.outputs _ _ _ _ hb ond hp
  have hdisj : ∀ inp ∈ tx.inputs, inp.address ∉ localAddresses tx.outputs := by
    intro inp hi hmem
    obtain ⟨acc, _, hm⟩ := iload inp hi
    have hn := onone _ hmem
    change (getInputs (s.GetChainID E).2 tx.inputs).1 inp.address = none at hn
    change (getInputs (s.GetChainID E).2 tx.inputs).1 inp.address = _ at hm
    rw [hm] at hn
    cases hn
  refine ⟨?_, ?_, ?_⟩
  · intro inp hi
    obtain ⟨acc, hg, hm⟩ := iload inp hi
    obtain ⟨a0, h0, _, h1⟩ := iadj inp hi
    rw [oother _ (hdisj inp hi)] at h0
    change (getInputs (s.GetChainID E).2 tx.inputs).1 inp.address = _ at hm
    rw [hm] at h0
    cases h0
    refine ⟨acc, (hs0 _).symm.trans hg, ?_⟩
    rw [oframe _ (hdisj inp hi), h1, withInputKey_balance, withInputKey_sequence]
  · intro out ho hc
    have hmem := mem_localAddresses ho hc
    obtain ⟨a0, h0, h1⟩ := oadj out ho hc
    have hni : out.address ∉ tx.inputs.map (fun i => i.address) := by
      intro hm
      obtain ⟨i, hi, he⟩ := List.mem_map.mp hm
      exact hdisj i hi (he ▸ hmem)
    rw [imap _ hni, oload _ hmem, hs0] at h0
    cases h0
    rw [h1]
  · intro a hi ho
    rw [oframe a (not_mem_localAddresses ho)]
    unfold State.GetAccount
    rw [iframe _ (fun inp hinp e => hi inp hinp (AccountKey_injective e).symm),
      State.Get_GetChainID]

/-- C2, scenario 1: `A` (atom:100, sequence 5) sends 30 atoms to `B` with fee
atom:0 in delivery mode; afterwards `A` holds atom:70 at sequence 6 and `B`
holds atom:30, and an account `C` that the transfer does not name is still
absent. -/
theorem sendTx_delivery_effect_witness :
    ∃ res s', ExecTx refEnv demoState noPlugins (Tx.send (demoSend 30 ⟨"atom", 0⟩)) false
        = some (res, s') ∧
      res.code = CodeType.OK ∧
      s'.GetAccount "A"
        = some { pubKey := ⟨some "ka"⟩, sequence := 6, balance := [⟨"atom", 70⟩] } ∧
      s'.GetAccount "B" = some { pubKey := ⟨none⟩, sequence := 0, balance := [⟨"atom", 30⟩] } ∧
      s'.GetAccount "C" = none := by
  have hsome : (ExecTx refEnv demoState noPlugins
      (Tx.send (demoSend 30 ⟨"atom", 0⟩)) false).isSome = true := by decide
  obtain ⟨⟨res, s'⟩, h⟩ := Option.isSome_iff_exists.mp hsome
  have hcode : (ExecTx refEnv demoState noPlugins
      (Tx.send (demoSend 30 ⟨"atom", 0⟩)) false).map (fun p => p.1.code)
      = some CodeType.OK := by decide
  have hOK : res.code = CodeType.OK := by
    rw [h] at hcode
    simpa using hcode
  have hp : packetsKeepAccounts refEnv (demoSend 30 ⟨"atom", 0⟩).outputs := by
    intro out ho dst hc
    simp only [demoSend, List.mem_singleton] at ho
    rw [ho] at hc
    cases hc
  obtain ⟨hin, hout, hframe⟩ :=
    sendTx_delivery_effect refEnv demoState noPlugins (demoSend 30 ⟨"atom", 0⟩) res s' hp h hOK
  refine ⟨res, s', h, hOK, ?_, ?_, ?_⟩
  · obtain ⟨acc, h1, h2⟩ := hin (demoInput 30 "test:send") (by simp [demoSend])
    have hA : demoState.GetAccount "A"
        = some { pubKey := ⟨some "ka"⟩, sequence := 5, balance := [⟨"atom", 100⟩] } := by
      decide
    rw [show (demoInput 30 "test:send").address = "A" from rfl, hA] at h1
    cases h1
    rw [show (demoInput 30 "test:send").address = "A" from rfl] at h2
    rw [h2]
    decide
  · have h2 := hout { chain := none, address := "B", coins := [⟨"atom", 30⟩] }
      (by simp [demoSend]) rfl
    have hB : demoState.GetAccount "B" = none := by decide
    dsimp only at h2
    rw [h2, hB]
    decide
  · have hC : demoState.GetAccount "C" = none := by decide
    rw [hframe "C" (by simp [demoSend, demoInput]) (by simp [demoSend]), hC]

/-! ## Rejections -/

/-- A `SendTx` that is not accepted leaves the state it was run on. -/
theorem execSendTx_err (E : Env) (st : State) (cid : String) (tx : SendTx) (chk : Bool)
    (res : Result) (s' : State)
    (h : execSendTx E st cid tx chk = some (res, s')) (hres : res.IsErr = true) :
    s' = st := by
  unfold execSendTx at h
  have key : ∀ (r : Result), some (r, st) = some (res, s') → s' = st := by
    intro r e
    simp only [Option.some.injEq, Prod.mk.injEq] at e
    exact e.2.symm
  by_cases h1 : (validateInputsBasic E tx.inputs).IsErr = true
  · rw [if_pos h1] at h; exact key _ h
  rw [if_neg h1] at h
  by_cases h2 : (validateOutputsBasic E tx.outputs).IsErr = true
  · rw [if_pos h2] at h; exact key _ h
  rw [if_neg h2] at h
  by_cases h3 : (getInputs st tx.inputs).2.IsErr = true
  · rw [if_pos h3] at h; exact key _ h
  rw [if_neg h3] at h
  dsimp only at h
  by_cases h4 : (getOrMakeOutputs st (getInputs st tx.inputs).1 tx.outputs).2.IsErr = true
  · rw [if_pos h4] at h; exact key _ h
  rw [if_neg h4] at h
  cases hv : validateInputsAdvanced E (getOrMakeOutputs st (getInputs st tx.inputs).1 tx.outputs).1
      (E.sendSignBytes cid tx) tx.inputs with
  | none => rw [hv] at h; cases h
  | some p =>
    obtain ⟨inTotal, r⟩ := p
    rw [hv] at h
    dsimp only at h
    by_cases h5 : r.IsErr = true
    · rw [if_pos h5] at h; exact key _ h
    rw [if_neg h5] at h
    by_cases h6 : (!inTotal.IsEqual (if Coins.IsValid [tx.fee] = true
        then (sumOutputs tx.outputs).Plus [tx.fee] else sumOutputs tx.outputs)) = true
    · rw [if_pos h6] at h; exact key _ h
    rw [if_neg h6] at h
    cases ha : adjustByInputs st (getOrMakeOutputs st (getInputs st tx.inputs).1 tx.outputs).1
        tx.inputs with
    | none => rw [ha] at h; cases h
    | some q =>
      obtain ⟨st1, accounts1⟩ := q
      rw [ha] at h
      dsimp only at h
      cases hb : adjustByOutputs E st1 accounts1 tx.outputs chk with
      | none => rw [hb] at h; cases h
      | some q2 =>
        obtain ⟨st2, accounts2⟩ := q2
        rw [hb] at h
        simp only [Option.some.injEq, Prod.mk.injEq] at h
        rw [← h.1] at hres
        simp [Result.IsErr, Result.NewResultOK] at hres

theorem appDebited_sequence (tx : AppTx) (acc : Account) :
    (appDebited tx acc).sequence = acc.sequence + 1 := by
  unfold appDebited
  rw [withInputKey_sequence]

theorem appDebited_balance (tx : AppTx) (acc : Account) :
    (appDebited tx acc).balance = acc.balance.Minus tx.input.coins := by
  unfold appDebited
  rw [withInputKey_balance]

theorem State.CacheSync_appCache (st : State) (tx : AppTx) (acc : Account)
    (ws : List (String × Value)) :
    ((appCache st tx acc).applyWrites ws).CacheSync
      = some (st.applyWrites
          ((AccountKey tx.input.address, Value.account (appDebited tx acc)) :: ws)) := by
  unfold appCache State.CacheWrap State.SetAccount
  rw [State.Set_wrap, State.applyWrites_wrap]
  rfl

/-- The `AppTx` case from the caller account on, once the structural check has
passed and the account is loaded. -/
theorem execAppTx_loaded (E : Env) (st : State) (pgz : Plugins) (cid : String) (tx : AppTx)
    (chk : Bool) (acc : Account)
    (h1 : (E.inputValidateBasic tx.input).IsErr = false)
    (h2 : st.GetAccount tx.input.address = some acc) :
    execAppTx E st pgz cid tx chk =
      if (validateInputAdvanced E (withInputKey tx.input acc) (E.appSignBytes cid tx)
          tx.input).IsErr then
        some (validateInputAdvanced E (withInputKey tx.input acc) (E.appSignBytes cid tx)
          tx.input, st)
      else if !tx.input.coins.IsGTE [tx.fee] then
        some (Result.err CodeType.BaseInsufficientFunds, st)
      else
        match pgz.GetByName tx.name with
        | none => some (Result.err CodeType.BaseUnknownAddress, st)
        | some plugin =>
          if chk then some (Result.OK, st.SetAccount tx.input.address (appDebited tx acc))
          else if (plugin.RunTx (appCache st tx acc) (appContext tx acc) tx.data).1.IsOK then
            some ((plugin.RunTx (appCache st tx acc) (appContext tx acc) tx.data).1,
              st.applyWrites ((AccountKey tx.input.address, Value.account (appDebited tx acc))
                :: (plugin.RunTx (appCache st tx acc) (appContext tx acc) tx.data).2))
          else
            some ((plugin.RunTx (appCache st tx acc) (appContext tx acc) tx.data).1,
              st.SetAccount tx.input.address
                { appDebited tx acc with
                  balance := (appDebited tx acc).balance.Plus
                    (tx.input.coins.Minus [tx.fee]) }) := by
  unfold execAppTx
  rw [h1, h2]
  simp only [Bool.false_eq_true, if_false]
  by_cases h3 : (validateInputAdvanced E (withInputKey tx.input acc) (E.appSignBytes cid tx)
      tx.input).IsErr = true
  · rw [if_pos h3, if_pos h3]
  rw [if_neg h3, if_neg h3]
  by_cases h4 : (!tx.input.coins.IsGTE [tx.fee]) = true
  · rw [if_pos h4, if_pos h4]
  rw [if_neg h4, if_neg h4]
  cases pgz.GetByName tx.name with
  | none => rfl
  | some plugin =>
    dsimp only
    by_cases h5 : chk = true
    · rw [if_pos h5, if_pos h5]; rfl
    rw [if_neg h5, if_neg h5]
    by_cases h6 : (plugin.RunTx (appCache st tx acc) (appContext tx acc) tx.data).1.IsOK = true
    · rw [if_pos h6]
      have h6' : (plugin.RunTx ((st.CacheWrap).SetAccount tx.input.address (appDebited tx acc))
          { callerAddress := tx.input.address, callerAccount := appDebited tx acc,
            coins := tx.input.coins.Minus [tx.fee] } tx.data).1.IsOK = true := h6
      unfold appDebited at h6'
      rw [if_pos h6']
      have hs := State.CacheSync_appCache st tx acc
        (plugin.RunTx (appCache st tx acc) (appContext tx acc) tx.data).2
      unfold appCache appContext appDebited at hs
      rw [hs]
      rfl
    · rw [if_neg h6]
      have h6' : ¬ (plugin.RunTx ((st.CacheWrap).SetAccount tx.input.address (appDebited tx acc))
          { callerAddress := tx.input.address, callerAccount := appDebited tx acc,
            coins := tx.input.coins.Minus [tx.fee] } tx.data).1.IsOK = true := h6
      unfold appDebited at h6'
      rw [if_neg h6']
      rfl

theorem IsErr_of_mem_rejectionCodes {r : Result} (h : r.code ∈ rejectionCodes) :
    r.IsErr = true := by
  unfold Result.IsErr
  rw [decide_eq_true_eq]
  intro e
  rw [e] at h
  revert h
  decide

theorem appPassesChecks_iff (E : Env) (s : State) (tx : AppTx) :
    appPassesChecks E s tx = true ↔
      (E.inputValidateBasic tx.input).IsErr = false ∧
      (∃ acc, s.GetAccount tx.input.address = some acc ∧
        (validateInputAdvanced E (withInputKey tx.input acc)
          (E.appSignBytes (s.GetChainID E).1 tx) tx.input).IsErr = false) ∧
      tx.input.coins.IsGTE [tx.fee] = true := by
  unfold appPassesChecks
  cases s.GetAccount tx.input.address with
  | none => simp
  | some acc => simp [and_assoc]

/-- C3 (amended): if `ExecTx` returns a rejection (InvalidSequence,
InvalidSignature, InvalidOutput, InsufficientFunds, DuplicateAddress or
UnknownAddress), in either mode and for either kind of transaction, then every
key of the state reads after the call as before it, unless the transaction is
an `AppTx` run in delivery mode that passed every check of the engine and the
rejection is the result that its plugin returned. -/
theorem rejection_keeps_state (E : Env) (s : State) (pgz : Plugins) (tx : Tx)
    (isCheckTx : Bool) (res : Result) (s' : State)
    (h : ExecTx E s pgz tx isCheckTx = some (res, s'))
    (hrej : res.code ∈ rejectionCodes) :
    (∀ k, s'.Get k = s.Get k) ∨
    (isCheckTx = false ∧ ∃ atx acc plugin, tx = Tx.app atx ∧
      appPassesChecks E s atx = true ∧
      s.GetAccount atx.input.address = some acc ∧
      pgz.GetByName atx.name = some plugin ∧
      res = (plugin.RunTx (appCache (s.GetChainID E).2 atx acc) (appContext atx acc)
        atx.data).1) := by
  have herr := IsErr_of_mem_rejectionCodes hrej
  have hs0 : ∀ a, (s.GetChainID E).2.GetAccount a = s.GetAccount a :=
    State.GetAccount_GetChainID E s
  have same : ∀ (r : Result), some (r, (s.GetChainID E).2) = some (res, s') →
      ∀ k, s'.Get k = s.Get k := by
    intro r e k
    simp only [Option.some.injEq, Prod.mk.injEq] at e
    rw [← e.2, State.Get_GetChainID]
  cases tx with
  | send stx =>
    left
    have := execSendTx_err E _ _ stx isCheckTx res s' h herr
    intro k
    rw [this, State.Get_GetChainID]
  | unknown => left; exact same _ h
  | app atx =>
    change execAppTx E (s.GetChainID E).2 pgz (s.GetChainID E).1 atx isCheckTx = _ at h
    by_cases h1 : (E.inputValidateBasic atx.input).IsErr = true
    · left
      unfold execAppTx at h
      rw [if_pos h1] at h
      exact same _ h
    have h1' : (E.inputValidateBasic atx.input).IsErr = false := by simpa using h1
    cases hg : (s.GetChainID E).2.GetAccount atx.input.address with
    | none =>
      left
      unfold execAppTx at h
      rw [if_neg h1, hg] at h
      exact same _ h
    | some acc =>
      rw [execAppTx_loaded E _ pgz _ atx isCheckTx acc h1' hg] at h
      by_cases h3 : (validateInputAdvanced E (withInputKey atx.input acc)
          (E.appSignBytes (s.GetChainID E).1 atx) atx.input).IsErr = true
      · rw [if_pos h3] at h; left; exact same _ h
      rw [if_neg h3] at h
      by_cases h4 : (!atx.input.coins.IsGTE [atx.fee]) = true
      · rw [if_pos h4] at h; left; exact same _ h
      rw [if_neg h4] at h
      cases hpl : pgz.GetByName atx.name with
      | none => rw [hpl] at h; left; exact same _ h
      | some plugin =>
        rw [hpl] at h
        dsimp only at h
        by_cases h5 : isCheckTx = true
        · rw [if_pos h5] at h
          simp only [Option.some.injEq, Prod.mk.injEq] at h
          rw [← h.1] at herr
          cases herr
        rw [if_neg h5] at h
        by_cases h6 : (plugin.RunTx (appCache (s.GetChainID E).2 atx acc) (appContext atx acc)
            atx.data).1.IsOK = true
        · rw [if_pos h6] at h
          simp only [Option.some.injEq, Prod.mk.injEq] at h
          rw [← h.1] at herr
          simp only [Result.IsOK, decide_eq_true_eq] at h6
          simp [Result.IsErr, h6] at herr
        rw [if_neg h6] at h
        simp only [Option.some.injEq, Prod.mk.injEq] at h
        right
        refine ⟨by simpa using h5, atx, acc, plugin, rfl, ?_, (hs0 _).symm.trans hg, hpl,
          h.1.symm⟩
        rw [appPassesChecks_iff]
        exact ⟨h1', ⟨acc, (hs0 _).symm.trans hg, by simpa using h3⟩, by simpa using h4⟩

/-- C3, scenario 3: the call of an unregistered plugin by `A` is rejected with
UnknownAddress, and every key reads as before. -/
theorem rejection_keeps_state_witness :
    ∃ res s', ExecTx refEnv demoState noPlugins (Tx.app (demoApp "nope")) false
        = some (res, s') ∧
      res.code = CodeType.BaseUnknownAddress ∧ ∀ k, s'.Get k = demoState.Get k := by
  have hsome : (ExecTx refEnv demoState noPlugins (Tx.app (demoApp "nope")) false).isSome
      = true := by decide
  obtain ⟨⟨res, s'⟩, h⟩ := Option.isSome_iff_exists.mp hsome
  have hcode : (ExecTx refEnv demoState noPlugins (Tx.app (demoApp "nope")) false).map
      (fun p => p.1.code) = some CodeType.BaseUnknownAddress := by decide
  have hc : res.code = CodeType.BaseUnknownAddress := by
    rw [h] at hcode
    simpa using hcode
  refine ⟨res, s', h, hc, ?_⟩
  rcases rejection_keeps_state refEnv demoState noPlugins _ false res s' h
    (by rw [hc]; decide) with hsame | ⟨_, atx, acc, plugin, _, _, _, hpl, _⟩
  · exact hsame
  · cases hpl

/-- C3 as stated fails: in delivery mode `A` (atom:100, sequence 5) calls, with
10 atoms and a fee of 2 atoms, a registered plugin that turns the call down
with InsufficientFunds; `ExecTx` returns that rejection, yet `A` is stored
with atom:98 at sequence 6. -/
theorem rejection_by_plugin_changes_caller :
    demoState.GetAccount "A"
      = some { pubKey := ⟨some "ka"⟩, sequence := 5, balance := [⟨"atom", 100⟩] } ∧
    observe (ExecTx refEnv demoState demoPlugins (Tx.app (demoApp "paid")) false)
      = some (Result.err CodeType.BaseInsufficientFunds,
          some { pubKey := ⟨some "ka"⟩, sequence := 6, balance := [⟨"atom", 98⟩] },
          none) := by
  decide

/-! ## The per-input checks -/

theorem validateInputAdvanced_wrong_sequence (E : Env) (acc : Account) (sb : String)
    (inp : TxInput) (h : acc.sequence + 1 ≠ inp.sequence) :
    validateInputAdvanced E acc sb inp = Result.err CodeType.BaseInvalidSequence := by
  unfold validateInputAdvanced
  rw [if_pos h]

/-- With every input in the accounts map, `validateInputsAdvanced` returns. -/
theorem validateInputsAdvancedLoop_total_fn (E : Env) (accounts : AccMap) (sb : String)
    (ins : List TxInput) (t0 : Coins)
    (h : ∀ i ∈ ins, ∃ acc, accounts i.address = some acc) :
    ∃ t r, validateInputsAdvancedLoop E accounts sb t0 ins = some (t, r) := by
  induction ins generalizing t0 with
  | nil => exact ⟨t0, Result.OK, rfl⟩
  | cons inp rest ih =>
    obtain ⟨acc, ha⟩ := h inp (List.mem_cons_self _ _)
    rw [validateInputsAdvancedLoop, ha]
    dsimp only
    by_cases he : (validateInputAdvanced E acc sb inp).IsErr = true
    · rw [if_pos he]; exact ⟨_, _, rfl⟩
    · rw [if_neg he]
      exact ih _ (fun i hi => h i (List.mem_cons_of_mem _ hi))

/-- If `validateInputsAdvanced` reports no error, every input passed its
checks against its entry of the accounts map. -/
theorem validateInputsAdvancedLoop_ok_all (E : Env) (accounts : AccMap) (sb : String)
    (ins : List TxInput) (t0 t : Coins) (r : Result)
    (h : validateInputsAdvancedLoop E accounts sb t0 ins = some (t, r))
    (hr : r.IsErr = false) :
    ∀ i ∈ ins, ∃ acc, accounts i.address = some acc ∧
      (validateInputAdvanced E acc sb i).IsErr = false := by
  induction ins generalizing t0 with
  | nil => intro i hi; cases hi
  | cons inp rest ih =>
    rw [validateInputsAdvancedLoop] at h
    cases ha : accounts inp.address with
    | none => rw [ha] at h; cases h
    | some acc =>
      rw [ha] at h
      dsimp only at h
      by_cases he : (validateInputAdvanced E acc sb inp).IsErr = true
      · rw [if_pos he] at h
        simp only [Option.some.injEq, Prod.mk.injEq] at h
        rw [← h.2, he] at hr; cases hr
      · rw [if_neg he] at h
        intro i hi
        rcases List.mem_cons.mp hi with rfl | hi
        · exact ⟨acc, ha, by simpa using he⟩
        · exact ih _ h i hi

/-- The first input that fails a check decides the result of
`validateInputsAdvanced`. -/
theorem validateInputsAdvancedLoop_first_bad (E : Env) (accounts : AccMap) (sb : String)
    (pre : List TxInput) (inp : TxInput) (post : List TxInput) (t0 : Coins) (acc : Account)
    (hpre : ∀ i ∈ pre, ∃ a, accounts i.address = some a ∧
      (validateInputAdvanced E a sb i).IsErr = false)
    (ha : accounts inp.address = some acc)
    (hbad : (validateInputAdvanced E acc sb inp).IsErr = true) :
    ∃ t, validateInputsAdvancedLoop E accounts sb t0 (pre ++ inp :: post)
      = some (t, validateInputAdvanced E acc sb inp) := by
  induction pre generalizing t0 with
  | nil =>
    rw [List.nil_append, validateInputsAdvancedLoop, ha]
    dsimp only
    rw [if_pos hbad]
    exact ⟨_, rfl⟩
  | cons i pre ih =>
    obtain ⟨a, h1, h2⟩ := hpre i (List.mem_cons_self _ _)
    rw [List.cons_append, validateInputsAdvancedLoop, h1]
    dsimp only
    rw [h2]
    simp only [Bool.false_eq_true, if_false]
    exact ih _ (fun j hj => hpre j (List.mem_cons_of_mem _ hj))

/-- After `getInputs` and `getOrMakeOutputs` have succeeded, the accounts map
holds, for each input, the stored account with the key of the input. -/
theorem sendAccounts_input (st : State) (tx : SendTx)
    (h3 : (getInputs st tx.inputs).2.IsErr = false)
    (h4 : (getOrMakeOutputs st (getInputs st tx.inputs).1 tx.outputs).2.IsErr = false) :
    ∀ inp ∈ tx.inputs, ∃ acc, st.GetAccount inp.address = some acc ∧
      (getOrMakeOutputs st (getInputs st tx.inputs).1 tx.outputs).1 inp.address
        = some (withInputKey inp acc) := by
  obtain ⟨_, _, iload, _⟩ := getInputsLoop_ok st tx.inputs AccMap.empty _ _ rfl h3
  obtain ⟨_, onone, _, oother⟩ := getOrMakeOutputs_ok st tx.outputs _ _ _ rfl h4
  intro inp hi
  obtain ⟨acc, hg, hm⟩ := iload inp hi
  change (getInputs st tx.inputs).1 inp.address = _ at hm
  refine ⟨acc, hg, ?_⟩
  rw [oother, hm]
  intro hmem
  have hn := onone _ hmem
  rw [hm] at hn
  cases hn

/-- An `AppTx` whose asserted sequence is wrong is rejected with
InvalidSequence, on the state as it was. -/
theorem execAppTx_wrong_sequence (E : Env) (st : State) (pgz : Plugins) (cid : String)
    (tx : AppTx) (chk : Bool) (acc : Account)
    (h1 : (E.inputValidateBasic tx.input).IsErr = false)
    (h2 : st.GetAccount tx.input.address = some acc)
    (h3 : acc.sequence + 1 ≠ tx.input.sequence) :
    execAppTx E st pgz cid tx chk = some (Result.err CodeType.BaseInvalidSequence, st) := by
  rw [execAppTx_loaded E st pgz cid tx chk acc h1 h2,
    validateInputAdvanced_wrong_sequence E _ _ _
      (by rw [withInputKey_sequence]; exact h3),
    Result.IsErr_err (by decide), if_pos rfl]

/-- A `SendTx` that passes the structural checks and the loading of the
accounts stops at the per-input checks when they report an error. -/
theorem execSendTx_adv_err (E : Env) (st : State) (cid : String) (tx : SendTx)
    (chk : Bool) (t : Coins) (r : Result)
    (h1 : (validateInputsBasic E tx.inputs).IsErr = false)
    (h2 : (validateOutputsBasic E tx.outputs).IsErr = false)
    (h3 : (getInputs st tx.inputs).2.IsErr = false)
    (h4 : (getOrMakeOutputs st (getInputs st tx.inputs).1 tx.outputs).2.IsErr = false)
    (h5 : validateInputsAdvanced E (getOrMakeOutputs st (getInputs st tx.inputs).1 tx.outputs).1
      (E.sendSignBytes cid tx) tx.inputs = some (t, r))
    (h6 : r.IsErr = true) :
    execSendTx E st cid tx chk = some (r, st) := by
  unfold execSendTx
  simp [h1, h2, h3, h4, h5, h6]

/-- C4 (amended): an `AppTx` whose input passes structural validation, whose
account loads and whose asserted sequence differs from the stored sequence
plus one is rejected with InvalidSequence; a `SendTx` whose inputs pass
structural validation, whose input accounts all load and one of whose inputs
asserts such a sequence is rejected with an error, which is InvalidSequence
when the outputs pass structural validation and resolution and every earlier
input passes its sequence, balance and signature checks. In each case every
key of the state reads as before. -/
theorem wrong_sequence_rejected (E : Env) (s : State) (pgz : Plugins) (isCheckTx : Bool) :
    (∀ (atx : AppTx) (acc : Account),
      (E.inputValidateBasic atx.input).IsErr = false →
      s.GetAccount atx.input.address = some acc →
      acc.sequence + 1 ≠ atx.input.sequence →
      ∃ s', ExecTx E s pgz (Tx.app atx) isCheckTx
          = some (Result.err CodeType.BaseInvalidSequence, s') ∧
        ∀ k, s'.Get k = s.Get k) ∧
    (∀ (stx : SendTx) (pre : List TxInput) (inp : TxInput) (post : List TxInput)
      (acc : Account),
      (validateInputsBasic E stx.inputs).IsErr = false →
      (getInputs s stx.inputs).2.IsErr = false →
      stx.inputs = pre ++ inp :: post →
      s.GetAccount inp.address = some acc →
      acc.sequence + 1 ≠ inp.sequence →
      ∃ res s', ExecTx E s pgz (Tx.send stx) isCheckTx = some (res, s') ∧
        res.code ≠ CodeType.OK ∧
        (∀ k, s'.Get k = s.Get k) ∧
        ((validateOutputsBasic E stx.outputs).IsErr = false →
          (getOrMakeOutputs s (getInputs s stx.inputs).1 stx.outputs).2.IsErr = false →
          (∀ i ∈ pre, ∀ a, s.GetAccount i.address = some a →
            (validateInputAdvanced E (withInputKey i a)
              (E.sendSignBytes (s.GetChainID E).1 stx) i).IsErr = false) →
          res = Result.err CodeType.BaseInvalidSequence)) := by
  have hs0 : ∀ a, (s.GetChainID E).2.GetAccount a = s.GetAccount a :=
    State.GetAccount_GetChainID E s
  constructor
  · intro atx acc h1 h2 h3
    exact ⟨(s.GetChainID E).2,
      execAppTx_wrong_sequence E _ pgz _ atx isCheckTx acc h1 ((hs0 _).trans h2) h3,
      State.Get_GetChainID E s⟩
  · intro stx pre inp post acc h1 h3 hsplit hacc hseq
    have hmem : inp ∈ stx.inputs := by rw [hsplit]; simp
    change ∃ res s', execSendTx E (s.GetChainID E).2 (s.GetChainID E).1 stx isCheckTx
      = some (res, s') ∧ _
    rw [← getInputs_congr s _ hs0] at h3
    by_cases h2 : (validateOutputsBasic E stx.outputs).IsErr = true
    · refine ⟨_, (s.GetChainID E).2, ?_, Result.code_ne_OK_of_IsErr h2,
        State.Get_GetChainID E s, ?_⟩
      · unfold execSendTx; simp [h1, h2]
      · intro h2'; rw [h2] at h2'; cases h2'
    have h2' : (validateOutputsBasic E stx.outputs).IsErr = false := by simpa using h2
    by_cases h4 : (getOrMakeOutputs (s.GetChainID E).2 (getInputs (s.GetChainID E).2
        stx.inputs).1 stx.outputs).2.IsErr = true
    · refine ⟨_, (s.GetChainID E).2, ?_, Result.code_ne_OK_of_IsErr h4,
        State.Get_GetChainID E s, ?_⟩
      · unfold execSendTx; simp [h1, h2', h3, h4]
      · intro _ h4'
        rw [← getInputs_congr s _ hs0, ← getOrMakeOutputs_congr s _ hs0, h4] at h4'
        cases h4'
    have h4' : (getOrMakeOutputs (s.GetChainID E).2 (getInputs (s.GetChainID E).2
        stx.inputs).1 stx.outputs).2.IsErr = false := by simpa using h4
    have hacc' := sendAccounts_input _ stx h3 h4'
    obtain ⟨t, r, hv⟩ := validateInputsAdvancedLoop_total_fn E
      (getOrMakeOutputs (s.GetChainID E).2 (getInputs (s.GetChainID E).2 stx.inputs).1
        stx.outputs).1 (E.sendSignBytes (s.GetChainID E).1 stx) stx.inputs []
      (fun i hi => by obtain ⟨a, _, ha⟩ := hacc' i hi; exact ⟨_, ha⟩)
    obtain ⟨a, hga, hma⟩ := hacc' inp hmem
    rw [hs0, hacc] at hga
    cases hga
    have hbad := validateInputAdvanced_wrong_sequence E (withInputKey inp acc)
      (E.sendSignBytes (s.GetChainID E).1 stx) inp (by rw [withInputKey_sequence]; exact hseq)
    have hr : r.IsErr = true := by
      by_contra hr
      have hr' : r.IsErr = false := by simpa using hr
      obtain ⟨a, ha1, ha2⟩ := validateInputsAdvancedLoop_ok_all E _ _ _ _ t r hv hr' inp hmem
      rw [hma] at ha1
      cases ha1
      rw [hbad, Result.IsErr_err (by decide)] at ha2
      cases ha2
    refine ⟨r, (s.GetChainID E).2,
      execSendTx_adv_err E _ _ stx isCheckTx t r h1 h2' h3 h4' hv hr,
      Result.code_ne_OK_of_IsErr hr, State.Get_GetChainID E s, ?_⟩
    intro _ _ hpre
    have hfirst := validateInputsAdvancedLoop_first_bad E
      (getOrMakeOutputs (s.GetChainID E).2 (getInputs (s.GetChainID E).2 stx.inputs).1
        stx.outputs).1 (E.sendSignBytes (s.GetChainID E).1 stx) pre inp post [] _
      (fun i hi => by
        obtain ⟨a, hg, hm⟩ := hacc' i (by rw [hsplit]; exact List.mem_append_left _ hi)
        exact ⟨_, hm, hpre i hi a ((hs0 _).symm.trans hg)⟩)
      hma (by rw [hbad]; exact Result.IsErr_err (by decide))
    obtain ⟨t', ht'⟩ := hfirst
    rw [← hsplit] at ht'
    rw [hv] at ht'
    simp only [Option.some.injEq, Prod.mk.injEq] at ht'
    rw [ht'.2, hbad]

/-- C4, witness: `A` is stored at sequence 5. A plugin call of `A` asserting
the sequence 9 is rejected with InvalidSequence; so is the transfer of
`demoSendTwo` with its inputs swapped, where the input of `D` asserting the
wrong sequence 7 comes first. Every key reads as before. -/
theorem wrong_sequence_rejected_witness :
    (∃ s', ExecTx refEnv demoState demoPlugins
        (Tx.app { demoApp "count" with
          input := { demoInput 10 "test:app:count" with sequence := 9 } }) false
        = some (Result.err CodeType.BaseInvalidSequence, s') ∧
      ∀ k, s'.Get k = demoState.Get k) ∧
    (∃ res s', ExecTx refEnv demoState2 noPlugins
        (Tx.send { demoSendTwo with inputs := demoSendTwo.inputs.reverse }) false
        = some (res, s') ∧
      res.code ≠ CodeType.OK ∧
      (∀ k, s'.Get k = demoState2.Get k) ∧
      res = Result.err CodeType.BaseInvalidSequence) := by
  constructor
  · exact (wrong_sequence_rejected refEnv demoState demoPlugins false).1
      { demoApp "count" with input := { demoInput 10 "test:app:count" with sequence := 9 } }
      { pubKey := ⟨some "ka"⟩, sequence := 5, balance := [⟨"atom", 100⟩] }
      (by decide) (by decide) (by decide)
  · obtain ⟨res, s', h, hne, hsame, hseq⟩ :=
      (wrong_sequence_rejected refEnv demoState2 noPlugins false).2
        { demoSendTwo with inputs := demoSendTwo.inputs.reverse }
        []
        { address := "D", coins := [⟨"atom", 10⟩], sequence := 7,
          signature := "test:send@kd", pubKey := ⟨none⟩ }
        [{ address := "A", coins := [⟨"atom", 500⟩], sequence := 6,
           signature := "test:send@ka", pubKey := ⟨none⟩ }]
        { pubKey := ⟨some "kd"⟩, sequence := 0, balance := [⟨"atom", 50⟩] }
        (by decide) (by decide) (by decide) (by decide) (by decide)
    exact ⟨res, s', h, hne, hsame, hseq (by decide) (by decide) (by simp)⟩

/-- C4 as stated fails. In `demoSendTwo` both input accounts load and the
input of `D` asserts the sequence 7 against the stored 0, yet the rejection is
InsufficientFunds, from the input of `A` that is checked first. In
`demoSendSelf` the input of `A` asserts the sequence 9 against the stored 5,
yet the rejection is DuplicateAddress, from the resolution of the outputs. -/
theorem wrong_sequence_other_rejection :
    ((validateInputsBasic refEnv demoSendTwo.inputs).IsErr = false ∧
      (getInputs demoState2 demoSendTwo.inputs).2.IsErr = false ∧
      demoState2.GetAccount "D"
        = some { pubKey := ⟨some "kd"⟩, sequence := 0, balance := [⟨"atom", 50⟩] } ∧
      observe (ExecTx refEnv demoState2 noPlugins (Tx.send demoSendTwo) false)
        = some (Result.err CodeType.BaseInsufficientFunds,
            some { pubKey := ⟨some "ka"⟩, sequence := 5, balance := [⟨"atom", 100⟩] },
            none)) ∧
    ((validateInputsBasic refEnv demoSendSelf.inputs).IsErr = false ∧
      (getInputs demoState demoSendSelf.inputs).2.IsErr = false ∧
      observe (ExecTx refEnv demoState noPlugins (Tx.send demoSendSelf) false)
        = some (Result.err CodeType.BaseDuplicateAddress,
            some { pubKey := ⟨some "ka"⟩, sequence := 5, balance := [⟨"atom", 100⟩] },
            none)) := by
  decide

/-! ## Canonical coins -/

theorem denomLE_isTotal : IsTotal String denomLE :=
  ⟨fun a b => by
    unfold denomLE denomLT
    rcases le_total a.data b.data with h | h
    · left; exact not_lt.mpr h
    · right; exact not_lt.mpr h⟩

theorem denomLE_isTrans : IsTrans String denomLE :=
  ⟨fun a b c hab hbc => by
    unfold denomLE denomLT at *
    exact not_lt.mpr (le_trans (not_lt.mp hab) (not_lt.mp hbc))⟩

theorem denomLE_isAntisymm : IsAntisymm String denomLE :=
  ⟨fun a b hab hba => by
    unfold denomLE denomLT at *
    exact String.ext (le_antisymm (not_lt.mp hab) (not_lt.mp hba))⟩

namespace Coins

theorem canon_ext (ds ds' : List String) (f g : String → Int)
    (h : ∀ d, amountOf (canon ds f) d = amountOf (canon ds' g) d) :
    canon ds f = canon ds' g := by
  have hmem : ∀ (es : List String) (k : String → Int) (d : String),
      d ∈ (es.dedup.filter (fun d => k d ≠ 0)).insertionSort denomLE
        ↔ amountOf (canon es k) d ≠ 0 := by
    intro es k d
    rw [(List.perm_insertionSort denomLE _).mem_iff, amountOf_canon]
    by_cases h1 : d ∈ es <;> simp [List.mem_filter, h1]
  have hnd : ∀ (es : List String) (k : String → Int),
      ((es.dedup.filter (fun d => k d ≠ 0)).insertionSort denomLE).Nodup := fun es k =>
    (List.perm_insertionSort denomLE _).nodup_iff.mpr ((List.nodup_dedup es).filter _)
  haveI := denomLE_isTotal
  haveI := denomLE_isTrans
  haveI := denomLE_isAntisymm
  have hkeys : (ds.dedup.filter (fun d => f d ≠ 0)).insertionSort denomLE
      = (ds'.dedup.filter (fun d => g d ≠ 0)).insertionSort denomLE := by
    apply List.eq_of_perm_of_sorted (r := denomLE)
    · rw [List.perm_ext_iff_of_nodup (hnd ds f) (hnd ds' g)]
      intro d
      rw [hmem, hmem, h d]
    · exact List.sorted_insertionSort denomLE _
    · exact List.sorted_insertionSort denomLE _
  unfold canon
  rw [hkeys]
  apply List.map_congr_left
  intro d hd
  have h1 := (hmem ds' g d).mp hd
  have h2 := h d
  rw [amountOf_canon, amountOf_canon] at h2
  rw [amountOf_canon] at h1
  by_cases hd' : d ∈ ds'
  · rw [if_pos hd'] at h2
    by_cases hd1 : d ∈ ds
    · rw [if_pos hd1] at h2; rw [h2]
    · rw [if_neg hd1] at h2
      rw [if_pos hd'] at h1
      exact absurd h2.symm h1
  · rw [if_neg hd'] at h1; exact absurd rfl h1

/-- The coins taken off and the coins less the fee given back come to the fee
taken off. -/
theorem Minus_Plus_Minus (b i f : Coins) : (b.Minus i).Plus (i.Minus f) = b.Minus f := by
  have h : ∀ d, amountOf ((b.Minus i).Plus (i.Minus f)) d = amountOf (b.Minus f) d := by
    intro d
    rw [amountOf_Plus, amountOf_Minus, amountOf_Minus, amountOf_Minus]
    ring
  exact canon_ext _ _ _ _ h

end Coins

/-! ## The AppTx pipeline -/

/-- An `AppTx` that passes every check, run on the state after `GetChainID`:
what remains is the resolution of the plugin and the call. -/
theorem execAppTx_passed (E : Env) (s : State) (pgz : Plugins) (tx : AppTx) (chk : Bool)
    (acc : Account) (hpass : appPassesChecks E s tx = true)
    (hacc : s.GetAccount tx.input.address = some acc) :
    ExecTx E s pgz (Tx.app tx) chk =
      match pgz.GetByName tx.name with
      | none => some (Result.err CodeType.BaseUnknownAddress, (s.GetChainID E).2)
      | some plugin =>
        if chk then
          some (Result.OK, (s.GetChainID E).2.SetAccount tx.input.address (appDebited tx acc))
        else if (plugin.RunTx (appCache (s.GetChainID E).2 tx acc) (appContext tx acc)
            tx.data).1.IsOK then
          some ((plugin.RunTx (appCache (s.GetChainID E).2 tx acc) (appContext tx acc)
              tx.data).1,
            (s.GetChainID E).2.applyWrites
              ((AccountKey tx.input.address, Value.account (appDebited tx acc))
                :: (plugin.RunTx (appCache (s.GetChainID E).2 tx acc) (appContext tx acc)
                  tx.data).2))
        else
          some ((plugin.RunTx (appCache (s.GetChainID E).2 tx acc) (appContext tx acc)
              tx.data).1,
            (s.GetChainID E).2.SetAccount tx.input.address
              { appDebited tx acc with
                balance := (appDebited tx acc).balance.Plus
                  (tx.input.coins.Minus [tx.fee]) }) := by
  obtain ⟨h1, ⟨acc', hacc', hadv⟩, hfee⟩ := (appPassesChecks_iff E s tx).mp hpass
  rw [hacc] at hacc'
  cases hacc'
  change execAppTx E (s.GetChainID E).2 pgz (s.GetChainID E).1 tx chk = _
  rw [execAppTx_loaded E _ pgz _ tx chk acc h1
    ((State.GetAccount_GetChainID E s _).trans hacc), hadv, hfee]
  rfl

/-- C5: an `AppTx` that passes validation, the fee check and plugin
resolution, run in delivery mode with a plugin whose call returns an error:
`ExecTx` returns the result of the plugin; every key but the account key of
the caller reads as before, whatever the plugin wrote; and the caller is
stored with the balance it had less the fee, at its sequence plus one. -/
theorem appTx_plugin_failure (E : Env) (s : State) (pgz : Plugins) (tx : AppTx)
    (acc : Account) (plugin : Plugin)
    (hpass : appPassesChecks E s tx = true)
    (hacc : s.GetAccount tx.input.address = some acc)
    (hpl : pgz.GetByName tx.name = some plugin)
    (hfail : (plugin.RunTx (appCache (s.GetChainID E).2 tx acc) (appContext tx acc)
      tx.data).1.IsOK = false) :
    ∃ s', ExecTx E s pgz (Tx.app tx) false
        = some ((plugin.RunTx (appCache (s.GetChainID E).2 tx acc) (appContext tx acc)
            tx.data).1, s') ∧
      (∀ k, k ≠ AccountKey tx.input.address → s'.Get k = s.Get k) ∧
      s'.GetAccount tx.input.address = some
        { pubKey := (withInputKey tx.input acc).pubKey,
          sequence := acc.sequence + 1,
          balance := acc.balance.Minus [tx.fee] } := by
  refine ⟨(s.GetChainID E).2.SetAccount tx.input.address
    { appDebited tx acc with
      balance := (appDebited tx acc).balance.Plus (tx.input.coins.Minus [tx.fee]) },
    ?_, ?_, ?_⟩
  · rw [execAppTx_passed E s pgz tx false acc hpass hacc, hpl]
    dsimp only
    rw [hfail]
    rfl
  · intro k hk
    rw [State.Get_SetAccount, if_neg hk, State.Get_GetChainID]
  · rw [State.GetAccount_SetAccount, if_pos rfl, appDebited_balance, Coins.Minus_Plus_Minus]
    dsimp only
    rw [appDebited_sequence]
    rfl

/-- C5, scenario 4: `A` (atom:100, sequence 5) calls with 10 atoms and a fee of
2 atoms a plugin that writes the key `counter` and fails; afterwards `A` holds
atom:98 at sequence 6 and the key `counter` is as absent as before. -/
theorem appTx_plugin_failure_witness :
    ∃ s', ExecTx refEnv demoState demoPlugins (Tx.app (demoApp "fail")) false
        = some (Result.err CodeType.InternalError, s') ∧
      s'.Get "counter" = Value.absent ∧
      s'.GetAccount "A"
        = some { pubKey := ⟨some "ka"⟩, sequence := 6, balance := [⟨"atom", 98⟩] } := by
  obtain ⟨s', h, hframe, hA⟩ := appTx_plugin_failure refEnv demoState demoPlugins
    (demoApp "fail") { pubKey := ⟨some "ka"⟩, sequence := 5, balance := [⟨"atom", 100⟩] }
    failingPlugin (by decide) (by decide) rfl (by decide)
  refine ⟨s', h, ?_, ?_⟩
  · rw [hframe "counter" (by decide)]
    decide
  · rw [show "A" = (demoApp "fail").input.address from rfl, hA]
    decide

theorem kvLookup_last (before after : List (String × Value)) (k : String) (v : Value)
    (h : ∀ kv ∈ after, kv.1 ≠ k) :
    kvLookup (before ++ (k, v) :: after) k = some v := by
  rw [kvLookup_append_list, kvLookup_cons, kvLookup_eq_none after k h, if_pos rfl]

theorem kvLookup_not_written (ws : List (String × Value)) (k : String)
    (h : k ∉ ws.map Prod.fst) : kvLookup ws k = none :=
  kvLookup_eq_none ws k (fun kv hkv e => h (List.mem_map.mpr ⟨kv, hkv, e⟩))

/-- C6: an `AppTx` that passes every check, run in delivery mode with a plugin
whose call returns OK: `ExecTx` returns the result of the plugin, and the
scratch layer is flushed. Afterwards a key that the plugin wrote reads as the
last value the plugin wrote to it; the account key of the caller, unless the
plugin wrote it, holds the debited account (balance less the full input coins,
sequence plus one); every other key reads as before. -/
theorem appTx_plugin_success (E : Env) (s : State) (pgz : Plugins) (tx : AppTx)
    (acc : Account) (plugin : Plugin)
    (hpass : appPassesChecks E s tx = true)
    (hacc : s.GetAccount tx.input.address = some acc)
    (hpl : pgz.GetByName tx.name = some plugin)
    (hok : (plugin.RunTx (appCache (s.GetChainID E).2 tx acc) (appContext tx acc)
      tx.data).1.IsOK = true) :
    ∃ s', ExecTx E s pgz (Tx.app tx) false
        = some ((plugin.RunTx (appCache (s.GetChainID E).2 tx acc) (appContext tx acc)
            tx.data).1, s') ∧
      (∀ before k v after,
        (plugin.RunTx (appCache (s.GetChainID E).2 tx acc) (appContext tx acc) tx.data).2
          = before ++ (k, v) :: after →
        (∀ kv ∈ after, kv.1 ≠ k) → s'.Get k = v) ∧
      (AccountKey tx.input.address ∉
          ((plugin.RunTx (appCache (s.GetChainID E).2 tx acc) (appContext tx acc)
            tx.data).2).map Prod.fst →
        s'.GetAccount tx.input.address = some
          { pubKey := (withInputKey tx.input acc).pubKey,
            sequence := acc.sequence + 1,
            balance := acc.balance.Minus tx.input.coins }) ∧
      (∀ k, k ∉ ((plugin.RunTx (appCache (s.GetChainID E).2 tx acc) (appContext tx acc)
            tx.data).2).map Prod.fst →
        k ≠ AccountKey tx.input.address → s'.Get k = s.Get k) := by
  refine ⟨(s.GetChainID E).2.applyWrites
    ((AccountKey tx.input.address, Value.account (appDebited tx acc))
      :: (plugin.RunTx (appCache (s.GetChainID E).2 tx acc) (appContext tx acc) tx.data).2),
    ?_, ?_, ?_, ?_⟩
  · rw [execAppTx_passed E s pgz tx false acc hpass hacc, hpl]
    dsimp only
    rw [hok]
    rfl
  · intro before k v after hsplit hlast
    rw [State.Get_applyWrites, kvLookup_cons, hsplit, kvLookup_last before after k v hlast]
  · intro hnot
    unfold State.GetAccount
    rw [State.Get_applyWrites, kvLookup_cons, kvLookup_not_written _ _ hnot, if_pos rfl]
    dsimp only
    unfold appDebited
    rw [withInputKey_balance, withInputKey_sequence]
  · intro k hnot hk
    rw [State.Get_applyWrites, kvLookup_cons, kvLookup_not_written _ _ hnot,
      if_neg (fun e => hk e.symm)]
    exact State.Get_GetChainID E s k

/-- C6, witness: `A` (atom:100, sequence 5) calls with 10 atoms and a fee of 2
atoms a plugin that writes `1` to the key `counter` and returns OK with the
data `done`; afterwards the key `counter` reads `1`, `A` holds atom:90 at
sequence 6, and the account of `B` is as absent as before. -/
theorem appTx_plugin_success_witness :
    ∃ s', ExecTx refEnv demoState demoPlugins (Tx.app (demoApp "count")) false
        = some (Result.NewResultOK "done", s') ∧
      s'.Get "counter" = Value.bytes "1" ∧
      s'.GetAccount "A"
        = some { pubKey := ⟨some "ka"⟩, sequence := 6, balance := [⟨"atom", 90⟩] } ∧
      s'.Get (AccountKey "B") = Value.absent := by
  obtain ⟨s', h, hwritten, hA, hframe⟩ := appTx_plugin_success refEnv demoState demoPlugins
    (demoApp "count") { pubKey := ⟨some "ka"⟩, sequence := 5, balance := [⟨"atom", 100⟩] }
    countingPlugin (by decide) (by decide) rfl (by decide)
  refine ⟨s', h, ?_, ?_, ?_⟩
  · exact hwritten [] "counter" (Value.bytes "1") [] rfl (by simp)
  · rw [show "A" = (demoApp "count").input.address from rfl, hA (by decide)]
    decide
  · rw [hframe (AccountKey "B") (by decide) (by decide)]
    decide

/-- C7: an `AppTx` that passes validation, the fee check and plugin
resolution, run in check-only mode: `ExecTx` returns the bare OK; the outcome
is the same whatever plugin is registered under the name, so the plugin is not
run; every key but the account key of the caller reads as before; and the
caller is stored with its balance less the full input coins, at its sequence
plus one. -/
theorem appTx_check_mode (E : Env) (s : State) (pgz pgz' : Plugins) (tx : AppTx)
    (acc : Account) (plugin plugin' : Plugin)
    (hpass : appPassesChecks E s tx = true)
    (hacc : s.GetAccount tx.input.address = some acc)
    (hpl : pgz.GetByName tx.name = some plugin)
    (hpl' : pgz'.GetByName tx.name = some plugin') :
    ∃ s', ExecTx E s pgz (Tx.app tx) true = some (Result.OK, s') ∧
      ExecTx E s pgz' (Tx.app tx) true = some (Result.OK, s') ∧
      (∀ k, k ≠ AccountKey tx.input.address → s'.Get k = s.Get k) ∧
      s'.GetAccount tx.input.address = some
        { pubKey := (withInputKey tx.input acc).pubKey,
          sequence := acc.sequence + 1,
          balance := acc.balance.Minus tx.input.coins } := by
  refine ⟨(s.GetChainID E).2.SetAccount tx.input.address (appDebited tx acc), ?_, ?_, ?_, ?_⟩
  · rw [execAppTx_passed E s pgz tx true acc hpass hacc, hpl]
    rfl
  · rw [execAppTx_passed E s pgz' tx true acc hpass hacc, hpl']
    rfl
  · intro k hk
    rw [State.Get_SetAccount, if_neg hk, State.Get_GetChainID]
  · rw [State.GetAccount_SetAccount, if_pos rfl]
    unfold appDebited
    rw [withInputKey_balance, withInputKey_sequence]

/-- C7, witness: in check-only mode the call by `A` of the plugin `count`
(which would write the key `counter` and return the data `done`) returns the
bare OK, as it does when the failing plugin is registered under that name; the
key `counter` stays absent and `A` is stored with atom:90 at sequence 6. -/
theorem appTx_check_mode_witness :
    ∃ s', ExecTx refEnv demoState demoPlugins (Tx.app (demoApp "count")) true
        = some (Result.OK, s') ∧
      ExecTx refEnv demoState { GetByName := fun _ => some failingPlugin }
        (Tx.app (demoApp "count")) true = some (Result.OK, s') ∧
      s'.Get "counter" = Value.absent ∧
      s'.GetAccount "A"
        = some { pubKey := ⟨some "ka"⟩, sequence := 6, balance := [⟨"atom", 90⟩] } := by
  obtain ⟨s', h, h', hframe, hA⟩ := appTx_check_mode refEnv demoState demoPlugins
    { GetByName := fun _ => some failingPlugin }
    (demoApp "count") { pubKey := ⟨some "ka"⟩, sequence := 5, balance := [⟨"atom", 100⟩] }
    countingPlugin failingPlugin (by decide) (by decide) rfl rfl
  refine ⟨s', h, h', ?_, ?_⟩
  · rw [hframe "counter" (by decide)]
    decide
  · rw [show "A" = (demoApp "count").input.address from rfl, hA]
    decide

/-- C8: an `AppTx` whose input passes structural validation and the sequence,
balance and signature checks and whose input coins cover the fee, naming a
plugin that is not registered: in either mode `ExecTx` returns UnknownAddress,
and every key of the state, the account of the caller among them, reads as
before. -/
theorem appTx_unknown_plugin (E : Env) (s : State) (pgz : Plugins) (tx : AppTx)
    (isCheckTx : Bool)
    (hpass : appPassesChecks E s tx = true)
    (hpl : pgz.GetByName tx.name = none) :
    ∃ s', ExecTx E s pgz (Tx.app tx) isCheckTx
        = some (Result.err CodeType.BaseUnknownAddress, s') ∧
      (∀ k, s'.Get k = s.Get k) ∧
      s'.GetAccount tx.input.address = s.GetAccount tx.input.address := by
  obtain ⟨_, ⟨acc, hacc, _⟩, _⟩ := (appPassesChecks_iff E s tx).mp hpass
  refine ⟨(s.GetChainID E).2, ?_, State.Get_GetChainID E s, State.GetAccount_GetChainID E s _⟩
  rw [execAppTx_passed E s pgz tx isCheckTx acc hpass hacc, hpl]

/-- C8, scenario 3: `A` (atom:100, sequence 5) calls with 10 atoms and a fee of
2 atoms a plugin that is not registered; the call is rejected with
UnknownAddress and `A` is stored as before. -/
theorem appTx_unknown_plugin_witness :
    ∃ s', ExecTx refEnv demoState demoPlugins (Tx.app (demoApp "nope")) false
        = some (Result.err CodeType.BaseUnknownAddress, s') ∧
      s'.GetAccount "A"
        = some { pubKey := ⟨some "ka"⟩, sequence := 5, balance := [⟨"atom", 100⟩] } := by
  obtain ⟨s', h, _, hA⟩ := appTx_unknown_plugin refEnv demoState demoPlugins
    (demoApp "nope") false (by decide) rfl
  refine ⟨s', h, ?_⟩
  rw [show "A" = (demoApp "nope").input.address from rfl, hA]
  decide

/-- C9: an `AppTx` whose input passes structural validation and the sequence,
balance and signature checks, and whose input coins are short of the fee in
some denomination: in either mode and whatever the plugin registry holds,
`ExecTx` returns InsufficientFunds and every key of the state reads as before.
So the engine goes on to resolve the plugin only when the input coins are
greater than or equal to the fee in every denomination. -/
theorem appTx_fee_check (E : Env) (s : State) (pgz : Plugins) (tx : AppTx)
    (isCheckTx : Bool) (acc : Account)
    (h1 : (E.inputValidateBasic tx.input).IsErr = false)
    (hacc : s.GetAccount tx.input.address = some acc)
    (hadv : (validateInputAdvanced E (withInputKey tx.input acc)
      (E.appSignBytes (s.GetChainID E).1 tx) tx.input).IsErr = false) :
    ((∃ d, tx.input.coins.amountOf d < Coins.amountOf [tx.fee] d) →
      ∃ s', ExecTx E s pgz (Tx.app tx) isCheckTx
          = some (Result.err CodeType.BaseInsufficientFunds, s') ∧
        ∀ k, s'.Get k = s.Get k) ∧
    (∀ res s', ExecTx E s pgz (Tx.app tx) isCheckTx = some (res, s') →
      res.code ≠ CodeType.BaseInsufficientFunds →
      ∀ d, Coins.amountOf [tx.fee] d ≤ tx.input.coins.amountOf d) := by
  have hexec : ExecTx E s pgz (Tx.app tx) isCheckTx
      = execAppTx E (s.GetChainID E).2 pgz (s.GetChainID E).1 tx isCheckTx := rfl
  have hshort : tx.input.coins.IsGTE [tx.fee] = false →
      ExecTx E s pgz (Tx.app tx) isCheckTx
        = some (Result.err CodeType.BaseInsufficientFunds, (s.GetChainID E).2) := by
    intro hfee
    rw [hexec, execAppTx_loaded E _ pgz _ tx isCheckTx acc h1
      ((State.GetAccount_GetChainID E s _).trans hacc), hadv, hfee]
    rfl
  constructor
  · rintro ⟨d, hd⟩
    refine ⟨(s.GetChainID E).2, hshort ?_, State.Get_GetChainID E s⟩
    rw [Bool.eq_false_iff]
    intro hge
    exact absurd ((Coins.IsGTE_iff _ _).mp hge d) (not_le.mpr hd)
  · intro res s' h hne
    rw [← Coins.IsGTE_iff]
    by_contra hge
    rw [hshort (by simpa using hge)] at h
    simp only [Option.some.injEq, Prod.mk.injEq] at h
    rw [← h.1] at hne
    exact hne rfl

/-- C9, witness: `A` calls the registered plugin `count` with 10 atoms and a
fee of 20 atoms; the call is rejected with InsufficientFunds and every key
reads as before. -/
theorem appTx_fee_check_witness :
    ∃ s', ExecTx refEnv demoState demoPlugins
        (Tx.app { demoApp "count" with fee := ⟨"atom", 20⟩ }) false
        = some (Result.err CodeType.BaseInsufficientFunds, s') ∧
      ∀ k, s'.Get k = demoState.Get k :=
  (appTx_fee_check refEnv demoState demoPlugins { demoApp "count" with fee := ⟨"atom", 20⟩ }
    false { pubKey := ⟨some "ka"⟩, sequence := 5, balance := [⟨"atom", 100⟩] }
    (by decide) (by decide) (by decide)).1 ⟨"atom", by decide⟩

/-! ## The public key of an input -/

theorem withInputKey_eq (inp : TxInput) (acc : Account) :
    withInputKey inp acc
      = { acc with pubKey := if inp.pubKey.Empty then acc.pubKey else inp.pubKey } := by
  unfold withInputKey
  cases h : inp.pubKey.Empty <;> simp

theorem withInputKey_pubKey (inp : TxInput) (acc : Account) :
    (withInputKey inp acc).pubKey = if inp.pubKey.Empty then acc.pubKey else inp.pubKey := by
  rw [withInputKey_eq]

/-- C10 (amended): a public key supplied in an input is taken whether or not
the stored account has one. The accounts map of `getInputs` holds each input
account with the key of the input if the input has one, and with the stored
key otherwise. For an `AppTx` whose input passes structural validation and
the sequence and balance checks, the signature is verified under that same
key (InvalidSignature, with the state as before, when it does not verify), and
whenever the call changes the stored account of the caller without the plugin
writing its key, the account written back carries that same key. -/
theorem input_key_replaces_stored (E : Env) (s : State) :
    (∀ ins : List TxInput, (getInputs s ins).2.IsErr = false →
      ∀ inp ∈ ins, ∃ acc, s.GetAccount inp.address = some acc ∧
        (getInputs s ins).1 inp.address = some
          { acc with pubKey := if inp.pubKey.Empty then acc.pubKey else inp.pubKey }) ∧
    (∀ (pgz : Plugins) (tx : AppTx) (isCheckTx : Bool) (acc : Account),
      (E.inputValidateBasic tx.input).IsErr = false →
      s.GetAccount tx.input.address = some acc →
      acc.sequence + 1 = tx.input.sequence →
      acc.balance.IsGTE tx.input.coins = true →
      E.verifyBytes (if tx.input.pubKey.Empty then acc.pubKey else tx.input.pubKey)
        (E.appSignBytes (s.GetChainID E).1 tx) tx.input.signature = false →
      ∃ s', ExecTx E s pgz (Tx.app tx) isCheckTx
          = some (Result.err CodeType.BaseInvalidSignature, s') ∧
        ∀ k, s'.Get k = s.Get k) ∧
    (∀ (pgz : Plugins) (tx : AppTx) (isCheckTx : Bool) (acc : Account) (res : Result)
      (s' : State),
      s.GetAccount tx.input.address = some acc →
      ExecTx E s pgz (Tx.app tx) isCheckTx = some (res, s') →
      (∀ plugin, pgz.GetByName tx.name = some plugin →
        AccountKey tx.input.address ∉
          ((plugin.RunTx (appCache (s.GetChainID E).2 tx acc) (appContext tx acc)
            tx.data).2).map Prod.fst) →
      s'.GetAccount tx.input.address = some acc ∨
      ∃ a, s'.GetAccount tx.input.address = some a ∧
        a.pubKey = if tx.input.pubKey.Empty then acc.pubKey else tx.input.pubKey) := by
  have hs0 : ∀ a, (s.GetChainID E).2.GetAccount a = s.GetAccount a :=
    State.GetAccount_GetChainID E s
  refine ⟨?_, ?_, ?_⟩
  · intro ins hok inp hi
    obtain ⟨_, _, iload, _⟩ := getInputsLoop_ok s ins AccMap.empty _ _ rfl hok
    obtain ⟨acc, hg, hm⟩ := iload inp hi
    exact ⟨acc, hg, by rw [← withInputKey_eq]; exact hm⟩
  · intro pgz tx isCheckTx acc h1 hacc hseq hbal hver
    refine ⟨(s.GetChainID E).2, ?_, State.Get_GetChainID E s⟩
    change execAppTx E (s.GetChainID E).2 pgz (s.GetChainID E).1 tx isCheckTx = _
    have hv : validateInputAdvanced E (withInputKey tx.input acc)
        (E.appSignBytes (s.GetChainID E).1 tx) tx.input
        = Result.err CodeType.BaseInvalidSignature := by
      unfold validateInputAdvanced
      rw [withInputKey_sequence, withInputKey_balance, withInputKey_pubKey, hbal, hver]
      simp [hseq]
    rw [execAppTx_loaded E _ pgz _ tx isCheckTx acc h1 ((hs0 _).trans hacc), hv,
      Result.IsErr_err (by decide), if_pos rfl]
  · intro pgz tx isCheckTx acc res s' hacc h hnot
    have hacc0 := (hs0 _).trans hacc
    have same : ∀ (r : Result), some (r, (s.GetChainID E).2) = some (res, s') →
        s'.GetAccount tx.input.address = some acc := by
      intro r e
      simp only [Option.some.injEq, Prod.mk.injEq] at e
      rw [← e.2, hacc0]
    change execAppTx E (s.GetChainID E).2 pgz (s.GetChainID E).1 tx isCheckTx = _ at h
    by_cases h1 : (E.inputValidateBasic tx.input).IsErr = true
    · left
      unfold execAppTx at h
      rw [if_pos h1] at h
      exact same _ h
    rw [execAppTx_loaded E _ pgz _ tx isCheckTx acc (by simpa using h1) hacc0] at h
    by_cases h3 : (validateInputAdvanced E (withInputKey tx.input acc)
        (E.appSignBytes (s.GetChainID E).1 tx) tx.input).IsErr = true
    · rw [if_pos h3] at h; left; exact same _ h
    rw [if_neg h3] at h
    by_cases h4 : (!tx.input.coins.IsGTE [tx.fee]) = true
    · rw [if_pos h4] at h; left; exact same _ h
    rw [if_neg h4] at h
    cases hpl : pgz.GetByName tx.name with
    | none => rw [hpl] at h; left; exact same _ h
    | some plugin =>
      rw [hpl] at h
      dsimp only at h
      right
      by_cases h5 : isCheckTx = true
      · rw [if_pos h5] at h
        simp only [Option.some.injEq, Prod.mk.injEq] at h
        refine ⟨appDebited tx acc, ?_, withInputKey_pubKey _ _⟩
        rw [← h.2, State.GetAccount_SetAccount, if_pos rfl]
      rw [if_neg h5] at h
      by_cases h6 : (plugin.RunTx (appCache (s.GetChainID E).2 tx acc) (appContext tx acc)
          tx.data).1.IsOK = true
      · rw [if_pos h6] at h
        simp only [Option.some.injEq, Prod.mk.injEq] at h
        refine ⟨appDebited tx acc, ?_, withInputKey_pubKey _ _⟩
        rw [← h.2]
        unfold State.GetAccount
        rw [State.Get_applyWrites, kvLookup_cons,
          kvLookup_not_written _ _ (hnot plugin hpl), if_pos rfl]
      · rw [if_neg h6] at h
        simp only [Option.some.injEq, Prod.mk.injEq] at h
        refine ⟨{ appDebited tx acc with
          balance := (appDebited tx acc).balance.Plus (tx.input.coins.Minus [tx.fee]) },
          ?_, withInputKey_pubKey _ _⟩
        rw [← h.2, State.GetAccount_SetAccount, if_pos rfl]

/-- C10, witness: on `demoState2`, where `D` is stored with the key `kd`: the
accounts map of `getInputs` holds `D` with the supplied key `kx`; a call of `D`
that supplies `kx` and is signed with `kd` is rejected with InvalidSignature;
and after the call of `demoAppOtherKey` in check-only mode the account of `D`
carries `kx`. -/
theorem input_key_replaces_stored_witness :
    (getInputs demoState2 demoSendOtherKey.inputs).1 "D"
      = some { pubKey := ⟨some "kx"⟩, sequence := 0, balance := [⟨"atom", 50⟩] } ∧
    (∃ s', ExecTx refEnv demoState2 demoPlugins
        (Tx.app { demoAppOtherKey with
          input := { demoAppOtherKey.input with signature := "test:app:count@kd" } }) false
        = some (Result.err CodeType.BaseInvalidSignature, s') ∧
      ∀ k, s'.Get k = demoState2.Get k) ∧
    (∃ res s' a, ExecTx refEnv demoState2 demoPlugins (Tx.app demoAppOtherKey) true
        = some (res, s') ∧
      s'.GetAccount "D" = some a ∧ a.pubKey = ⟨some "kx"⟩) := by
  obtain ⟨hget, hsig, hback⟩ := input_key_replaces_stored refEnv demoState2
  refine ⟨?_, ?_, ?_⟩
  · obtain ⟨acc, h1, h2⟩ := hget demoSendOtherKey.inputs (by decide)
      { address := "D", coins := [⟨"atom", 10⟩], sequence := 1,
        signature := "test:send@kx", pubKey := ⟨some "kx"⟩ } (by decide)
    have hD : demoState2.GetAccount "D"
        = some { pubKey := ⟨some "kd"⟩, sequence := 0, balance := [⟨"atom", 50⟩] } := by
      decide
    dsimp only at h1 h2
    rw [hD] at h1
    cases h1
    rw [h2]
    decide
  · exact hsig demoPlugins
      { demoAppOtherKey with
        input := { demoAppOtherKey.input with signature := "test:app:count@kd" } }
      false { pubKey := ⟨some "kd"⟩, sequence := 0, balance := [⟨"atom", 50⟩] }
      (by decide) (by decide) (by decide) (by decide) (by decide)
  · have hsome : (ExecTx refEnv demoState2 demoPlugins (Tx.app demoAppOtherKey) true).isSome
        = true := by decide
    obtain ⟨⟨res, s'⟩, h⟩ := Option.isSome_iff_exists.mp hsome
    have hD' : (ExecTx refEnv demoState2 demoPlugins (Tx.app demoAppOtherKey) true).map
        (fun p => decide (p.2.GetAccount "D" = demoState2.GetAccount "D")) = some false := by
      decide
    rcases hback demoPlugins demoAppOtherKey true
      { pubKey := ⟨some "kd"⟩, sequence := 0, balance := [⟨"atom", 50⟩] } res s'
      (by decide) h (by
        intro plugin hpl
        have hp : plugin = countingPlugin := by
          have : demoPlugins.GetByName demoAppOtherKey.name = some countingPlugin := rfl
          rw [this] at hpl
          exact (Option.some.inj hpl).symm
        rw [hp]
        decide) with hsame | ⟨a, ha, hk⟩
    · rw [h] at hD'
      simp only [Option.map_some', Option.some.injEq, decide_eq_false_iff_not] at hD'
      exact absurd hsame hD'
    · exact ⟨res, s', a, h, ha, hk⟩

/-- C10 as stated fails. On `demoState2` the account `D` is stored with the
key `kd`. The call `demoAppOtherKey` supplies the key `kx` and is signed with
`kx`: the signature does not verify under the stored key `kd`, yet the call is
accepted, and `D` is written back with the key `kx`. The transfer
`demoSendOtherKey`, handled by `getInputs`, does the same. -/
theorem supplied_key_overrides_stored_key :
    demoState2.GetAccount "D"
      = some { pubKey := ⟨some "kd"⟩, sequence := 0, balance := [⟨"atom", 50⟩] } ∧
    refEnv.verifyBytes ⟨some "kd"⟩
      (refEnv.appSignBytes (demoState2.GetChainID refEnv).1 demoAppOtherKey)
      demoAppOtherKey.input.signature = false ∧
    observeD (ExecTx refEnv demoState2 demoPlugins (Tx.app demoAppOtherKey) false)
      = some (Result.NewResultOK "done",
          some { pubKey := ⟨some "kx"⟩, sequence := 1, balance := [⟨"atom", 40⟩] }) ∧
    observeD (ExecTx refEnv demoState2 noPlugins (Tx.send demoSendOtherKey) false)
      = some (Result.NewResultOK "test:send:id",
          some { pubKey := ⟨some "kx"⟩, sequence := 1, balance := [⟨"atom", 40⟩] }) := by
  decide

/-! ## The signature check -/

theorem validateInputAdvanced_of_seq_bal (E : Env) (acc : Account) (sb : String)
    (inp : TxInput) (hseq : acc.sequence + 1 = inp.sequence)
    (hbal : acc.balance.IsGTE inp.coins = true) :
    validateInputAdvanced E acc sb inp =
      if E.verifyBytes acc.pubKey sb inp.signature then Result.OK
      else Result.err CodeType.BaseInvalidSignature := by
  unfold validateInputAdvanced
  rw [if_neg (not_not.mpr hseq), hbal]
  cases E.verifyBytes acc.pubKey sb inp.signature <;> rfl

theorem validateInputAdvanced_ok_verifies (E : Env) (acc : Account) (sb : String)
    (inp : TxInput) (h : (validateInputAdvanced E acc sb inp).IsErr = false) :
    E.verifyBytes acc.pubKey sb inp.signature = true := by
  unfold validateInputAdvanced at h
  split_ifs at h with h1 h2 h3
  · cases h
  · cases h
  · cases h
  · simpa using h3

/-- If every input is in the accounts map and can only fail its checks with
the result `r0`, and some input fails, `validateInputsAdvanced` returns `r0`. -/
theorem validateInputsAdvancedLoop_only_error (E : Env) (accounts : AccMap) (sb : String)
    (r0 : Result) (ins : List TxInput) (t0 : Coins)
    (hall : ∀ i ∈ ins, ∃ a, accounts i.address = some a ∧
      ((validateInputAdvanced E a sb i).IsErr = true → validateInputAdvanced E a sb i = r0))
    (hbad : ∃ i ∈ ins, ∃ a, accounts i.address = some a ∧
      (validateInputAdvanced E a sb i).IsErr = true) :
    ∃ t, validateInputsAdvancedLoop E accounts sb t0 ins = some (t, r0) := by
  induction ins generalizing t0 with
  | nil => obtain ⟨i, hi, _⟩ := hbad; cases hi
  | cons inp rest ih =>
    obtain ⟨a, ha, hr⟩ := hall inp (List.mem_cons_self _ _)
    rw [validateInputsAdvancedLoop, ha]
    dsimp only
    by_cases he : (validateInputAdvanced E a sb inp).IsErr = true
    · rw [if_pos he, hr he]; exact ⟨_, rfl⟩
    · rw [if_neg he]
      apply ih _ (fun i hi => hall i (List.mem_cons_of_mem _ hi))
      obtain ⟨i, hi, b, hb, hbe⟩ := hbad
      rcases List.mem_cons.mp hi with rfl | hi
      · rw [ha] at hb; cases hb; exact absurd hbe he
      · exact ⟨i, hi, b, hb, hbe⟩

/-- An `AppTx` whose signature does not verify, all earlier checks passing, is
rejected with InvalidSignature on the state as it was. -/
theorem execAppTx_bad_signature (E : Env) (st : State) (pgz : Plugins) (cid : String)
    (tx : AppTx) (chk : Bool) (acc : Account)
    (h1 : (E.inputValidateBasic tx.input).IsErr = false)
    (h2 : st.GetAccount tx.input.address = some acc)
    (hseq : acc.sequence + 1 = tx.input.sequence)
    (hbal : acc.balance.IsGTE tx.input.coins = true)
    (hver : E.verifyBytes (if tx.input.pubKey.Empty then acc.pubKey else tx.input.pubKey)
      (E.appSignBytes cid tx) tx.input.signature = false) :
    execAppTx E st pgz cid tx chk = some (Result.err CodeType.BaseInvalidSignature, st) := by
  have hv : validateInputAdvanced E (withInputKey tx.input acc) (E.appSignBytes cid tx) tx.input
      = Result.err CodeType.BaseInvalidSignature := by
    rw [validateInputAdvanced_of_seq_bal E _ _ _
      (by rw [withInputKey_sequence]; exact hseq) (by rw [withInputKey_balance]; exact hbal),
      withInputKey_pubKey, hver]
    rfl
  rw [execAppTx_loaded E st pgz cid tx chk acc h1 h2, hv, Result.IsErr_err (by decide),
    if_pos rfl]

/-- An `AppTx` that is accepted passed the checks of its input. -/
theorem execAppTx_ok_inv (E : Env) (st : State) (pgz : Plugins) (cid : String) (tx : AppTx)
    (chk : Bool) (res : Result) (s' : State)
    (h : execAppTx E st pgz cid tx chk = some (res, s')) (hres : res.IsErr = false) :
    (E.inputValidateBasic tx.input).IsErr = false ∧
    ∃ acc, st.GetAccount tx.input.address = some acc ∧
      (validateInputAdvanced E (withInputKey tx.input acc) (E.appSignBytes cid tx)
        tx.input).IsErr = false ∧
      tx.input.coins.IsGTE [tx.fee] = true ∧
      ∃ plugin, pgz.GetByName tx.name = some plugin := by
  have key : ∀ (r : Result), r.IsErr = true → some (r, st) = some (res, s') → False := by
    intro r hr e
    simp only [Option.some.injEq, Prod.mk.injEq] at e
    rw [← e.1, hr] at hres
    cases hres
  by_cases h1 : (E.inputValidateBasic tx.input).IsErr = true
  · unfold execAppTx at h
    rw [if_pos h1] at h
    exact (key _ h1 h).elim
  have h1' : (E.inputValidateBasic tx.input).IsErr = false := by simpa using h1
  refine ⟨h1', ?_⟩
  cases hg : st.GetAccount tx.input.address with
  | none =>
    unfold execAppTx at h
    rw [if_neg h1, hg] at h
    exact (key _ (Result.IsErr_err (by decide)) h).elim
  | some acc =>
    rw [execAppTx_loaded E st pgz cid tx chk acc h1' hg] at h
    by_cases h3 : (validateInputAdvanced E (withInputKey tx.input acc) (E.appSignBytes cid tx)
        tx.input).IsErr = true
    · rw [if_pos h3] at h; exact (key _ h3 h).elim
    rw [if_neg h3] at h
    by_cases h4 : (!tx.input.coins.IsGTE [tx.fee]) = true
    · rw [if_pos h4] at h; exact (key _ (Result.IsErr_err (by decide)) h).elim
    rw [if_neg h4] at h
    cases hpl : pgz.GetByName tx.name with
    | none => rw [hpl] at h; exact (key _ (Result.IsErr_err (by decide)) h).elim
    | some plugin =>
      exact ⟨acc, rfl, by simpa using h3, by simpa using h4, plugin, rfl⟩

/-- C11 (amended): `ExecTx` accepts a transaction only if the signature of
every input verifies, over the sign-bytes of the transaction computed with the
chain id of the state, under the public key of the input account as the engine
holds it (the key of the input if it has one, the stored key otherwise). And if
a transaction passes structural validation (for a `SendTx`, of inputs and
outputs), account loading (for a `SendTx`, of inputs and resolution of
outputs) and the sequence and balance checks of every input, and the signature
of some input does not verify, `ExecTx` returns InvalidSignature and every key
of the state reads as before. -/
theorem signature_check (E : Env) (s : State) (pgz : Plugins) (isCheckTx : Bool) :
    (∀ (stx : SendTx) (res : Result) (s' : State),
      ExecTx E s pgz (Tx.send stx) isCheckTx = some (res, s') → res.code = CodeType.OK →
      ∀ inp ∈ stx.inputs, ∃ acc, s.GetAccount inp.address = some acc ∧
        E.verifyBytes (if inp.pubKey.Empty then acc.pubKey else inp.pubKey)
          (E.sendSignBytes (s.GetChainID E).1 stx) inp.signature = true) ∧
    (∀ (atx : AppTx) (res : Result) (s' : State),
      ExecTx E s pgz (Tx.app atx) isCheckTx = some (res, s') → res.code = CodeType.OK →
      ∃ acc, s.GetAccount atx.input.address = some acc ∧
        E.verifyBytes (if atx.input.pubKey.Empty then acc.pubKey else atx.input.pubKey)
          (E.appSignBytes (s.GetChainID E).1 atx) atx.input.signature = true) ∧
    (∀ stx : SendTx,
      (validateInputsBasic E stx.inputs).IsErr = false →
      (validateOutputsBasic E stx.outputs).IsErr = false →
      (getInputs s stx.inputs).2.IsErr = false →
      (getOrMakeOutputs s (getInputs s stx.inputs).1 stx.outputs).2.IsErr = false →
      (∀ inp ∈ stx.inputs, ∀ acc, s.GetAccount inp.address = some acc →
        acc.sequence + 1 = inp.sequence ∧ acc.balance.IsGTE inp.coins = true) →
      (∃ inp ∈ stx.inputs, ∃ acc, s.GetAccount inp.address = some acc ∧
        E.verifyBytes (if inp.pubKey.Empty then acc.pubKey else inp.pubKey)
          (E.sendSignBytes (s.GetChainID E).1 stx) inp.signature = false) →
      ∃ s', ExecTx E s pgz (Tx.send stx) isCheckTx
          = some (Result.err CodeType.BaseInvalidSignature, s') ∧
        ∀ k, s'.Get k = s.Get k) ∧
    (∀ (atx : AppTx) (acc : Account),
      (E.inputValidateBasic atx.input).IsErr = false →
      s.GetAccount atx.input.address = some acc →
      acc.sequence + 1 = atx.input.sequence →
      acc.balance.IsGTE atx.input.coins = true →
      E.verifyBytes (if atx.input.pubKey.Empty then acc.pubKey else atx.input.pubKey)
        (E.appSignBytes (s.GetChainID E).1 atx) atx.input.signature = false →
      ∃ s', ExecTx E s pgz (Tx.app atx) isCheckTx
          = some (Result.err CodeType.BaseInvalidSignature, s') ∧
        ∀ k, s'.Get k = s.Get k) := by
  have hs0 : ∀ a, (s.GetChainID E).2.GetAccount a = s.GetAccount a :=
    State.GetAccount_GetChainID E s
  refine ⟨?_, ?_, ?_, ?_⟩
  · intro stx res s' h hOK inp hi
    obtain ⟨_, _, h3, h4, t, r, _, _, _, hv, hr, _⟩ :=
      execSendTx_ok_inv E _ _ stx isCheckTx res s' h (Result.IsErr_false_iff.mpr hOK)
    obtain ⟨acc, hg, hm⟩ := sendAccounts_input _ stx h3 h4 inp hi
    obtain ⟨a, ha, hok⟩ := validateInputsAdvancedLoop_ok_all E _ _ _ _ t r hv hr inp hi
    rw [hm] at ha
    cases ha
    refine ⟨acc, (hs0 _).symm.trans hg, ?_⟩
    rw [← withInputKey_pubKey]
    exact validateInputAdvanced_ok_verifies E _ _ _ hok
  · intro atx res s' h hOK
    obtain ⟨_, acc, hg, hok, _⟩ :=
      execAppTx_ok_inv E _ pgz _ atx isCheckTx res s' h (Result.IsErr_false_iff.mpr hOK)
    refine ⟨acc, (hs0 _).symm.trans hg, ?_⟩
    rw [← withInputKey_pubKey]
    exact validateInputAdvanced_ok_verifies E _ _ _ hok
  · intro stx h1 h2 h3 h4 hsb hbad
    rw [← getInputs_congr s _ hs0] at h3 h4
    rw [← getOrMakeOutputs_congr s _ hs0] at h4
    have hacc := sendAccounts_input _ stx h3 h4
    have hres : ∀ i ∈ stx.inputs, ∀ acc, s.GetAccount i.address = some acc →
        validateInputAdvanced E (withInputKey i acc) (E.sendSignBytes (s.GetChainID E).1 stx) i
          = if E.verifyBytes (if i.pubKey.Empty then acc.pubKey else i.pubKey)
              (E.sendSignBytes (s.GetChainID E).1 stx) i.signature then Result.OK
            else Result.err CodeType.BaseInvalidSignature := by
      intro i hi acc hg
      obtain ⟨hseq, hbal⟩ := hsb i hi acc hg
      rw [validateInputAdvanced_of_seq_bal E _ _ _
        (by rw [withInputKey_sequence]; exact hseq) (by rw [withInputKey_balance]; exact hbal),
        withInputKey_pubKey]
    obtain ⟨t, ht⟩ := validateInputsAdvancedLoop_only_error E
      (getOrMakeOutputs (s.GetChainID E).2 (getInputs (s.GetChainID E).2 stx.inputs).1
        stx.outputs).1 (E.sendSignBytes (s.GetChainID E).1 stx)
      (Result.err CodeType.BaseInvalidSignature) stx.inputs []
      (fun i hi => by
        obtain ⟨acc, hg, hm⟩ := hacc i hi
        refine ⟨_, hm, ?_⟩
        rw [hres i hi acc ((hs0 _).symm.trans hg)]
        cases E.verifyBytes (if i.pubKey.Empty then acc.pubKey else i.pubKey)
          (E.sendSignBytes (s.GetChainID E).1 stx) i.signature
        · intro _; rfl
        · intro he; cases he)
      (by
        obtain ⟨i, hi, acc, hg, hv⟩ := hbad
        obtain ⟨acc', hg', hm⟩ := hacc i hi
        rw [hs0, hg] at hg'
        cases hg'
        refine ⟨i, hi, _, hm, ?_⟩
        rw [hres i hi acc hg, hv]
        rfl)
    exact ⟨(s.GetChainID E).2,
      execSendTx_adv_err E _ _ stx isCheckTx t _ h1 h2 h3 h4 ht (Result.IsErr_err (by decide)),
      State.Get_GetChainID E s⟩
  · intro atx acc h1 hacc hseq hbal hver
    exact ⟨(s.GetChainID E).2,
      execAppTx_bad_signature E _ pgz _ atx isCheckTx acc h1 ((hs0 _).trans hacc) hseq hbal hver,
      State.Get_GetChainID E s⟩

/-- C11, witness: on `demoState`, the transfer of 30 atoms from `A` to `B` and
the call of the plugin `count` by `A`, each carrying a signature that `ka` did
not make over the sign-bytes, are rejected with InvalidSignature, and every
key reads as before. -/
theorem signature_check_witness :
    (∃ s', ExecTx refEnv demoState noPlugins
        (Tx.send { demoSend 30 ⟨"atom", 0⟩ with
          inputs := [{ demoInput 30 "test:send" with signature := "other:send@ka" }] }) false
        = some (Result.err CodeType.BaseInvalidSignature, s') ∧
      ∀ k, s'.Get k = demoState.Get k) ∧
    (∃ s', ExecTx refEnv demoState demoPlugins
        (Tx.app { demoApp "count" with
          input := { demoInput 10 "test:app:count" with signature := "forged" } }) false
        = some (Result.err CodeType.BaseInvalidSignature, s') ∧
      ∀ k, s'.Get k = demoState.Get k) := by
  constructor
  · refine (signature_check refEnv demoState noPlugins false).2.2.1
      { demoSend 30 ⟨"atom", 0⟩ with
        inputs := [{ demoInput 30 "test:send" with signature := "other:send@ka" }] }
      (by decide) (by decide) (by decide) (by decide) ?_ ?_
    · intro inp hi acc hg
      simp only [List.mem_singleton] at hi
      subst hi
      have hA : demoState.GetAccount "A"
          = some { pubKey := ⟨some "ka"⟩, sequence := 5, balance := [⟨"atom", 100⟩] } := by
        decide
      rw [show ({ demoInput 30 "test:send" with signature := "other:send@ka" } : TxInput).address
        = "A" from rfl, hA] at hg
      cases hg
      decide
    · exact ⟨{ demoInput 30 "test:send" with signature := "other:send@ka" },
        List.mem_singleton.mpr rfl,
        { pubKey := ⟨some "ka"⟩, sequence := 5, balance := [⟨"atom", 100⟩] },
        by decide, by decide⟩
  · exact (signature_check refEnv demoState demoPlugins false).2.2.2
      { demoApp "count" with
        input := { demoInput 10 "test:app:count" with signature := "forged" } }
      { pubKey := ⟨some "ka"⟩, sequence := 5, balance := [⟨"atom", 100⟩] }
      (by decide) (by decide) (by decide) (by decide) (by decide)

/-- C11 as stated fails. In `demoSendSelfForged` the input of `A` passes
structural validation, its account loads, its sequence 6 and its 30 atoms pass
the sequence and balance checks, and its signature does not verify under the
key `ka`; yet the rejection is DuplicateAddress, from the resolution of the
outputs, which comes before the signature check. -/
theorem bad_signature_other_rejection :
    (validateInputsBasic refEnv demoSendSelfForged.inputs).IsErr = false ∧
    (getInputs demoState demoSendSelfForged.inputs).2.IsErr = false ∧
    demoState.GetAccount "A"
      = some { pubKey := ⟨some "ka"⟩, sequence := 5, balance := [⟨"atom", 100⟩] } ∧
    Coins.IsGTE [⟨"atom", 100⟩] [⟨"atom", 30⟩] = true ∧
    refEnv.verifyBytes ⟨some "ka"⟩
      (refEnv.sendSignBytes (demoState.GetChainID refEnv).1 demoSendSelfForged) "forged"
      = false ∧
    observe (ExecTx refEnv demoState noPlugins (Tx.send demoSendSelfForged) false)
      = some (Result.err CodeType.BaseDuplicateAddress,
          some { pubKey := ⟨some "ka"⟩, sequence := 5, balance := [⟨"atom", 100⟩] },
          none) := by
  decide

/-! ## `getInputs` and `getOrMakeOutputs`, in full -/

theorem getInputsLoop_succeeds (s : State) (ins : List TxInput) (m : AccMap)
    (hnd : (ins.map (fun i => i.address)).Nodup)
    (hnone : ∀ inp ∈ ins, m inp.address = none)
    (hload : ∀ inp ∈ ins, (s.GetAccount inp.address).isSome = true) :
    (getInputsLoop s m ins).2 = Result.OK := by
  induction ins generalizing m with
  | nil => rfl
  | cons inp rest ih =>
    rw [List.map_cons, List.nodup_cons] at hnd
    rw [getInputsLoop, hnone inp (List.mem_cons_self _ _)]
    simp only [Option.isSome_none, Bool.false_eq_true, if_false]
    obtain ⟨acc, hacc⟩ := Option.isSome_iff_exists.mp (hload inp (List.mem_cons_self _ _))
    rw [hacc]
    apply ih _ hnd.2
    · intro i hi
      rw [AccMap.insert_ne _ _ _ _ (fun e => hnd.1 (List.mem_map.mpr ⟨i, hi, e⟩))]
      exact hnone i (List.mem_cons_of_mem _ hi)
    · intro i hi
      exact hload i (List.mem_cons_of_mem _ hi)

/-- What `getInputs` has done when it fails: it returns the nil map, and it
stopped at the first input whose address is already in the map, with
DuplicateAddress, or has no stored account, with UnknownAddress. -/
theorem getInputsLoop_err (s : State) (ins : List TxInput) (m m' : AccMap) (r : Result)
    (h : getInputsLoop s m ins = (m', r)) (hr : r.IsErr = true) :
    m' = AccMap.empty ∧
    ∃ pre inp post, ins = pre ++ inp :: post ∧
      (pre.map (fun i => i.address)).Nodup ∧
      (∀ i ∈ pre, m i.address = none ∧ (s.GetAccount i.address).isSome = true) ∧
      ((((m inp.address).isSome = true ∨ inp.address ∈ pre.map (fun i => i.address)) ∧
          r = Result.err CodeType.BaseDuplicateAddress) ∨
        (m inp.address = none ∧ inp.address ∉ pre.map (fun i => i.address) ∧
          s.GetAccount inp.address = none ∧ r = Result.err CodeType.BaseUnknownAddress)) := by
  induction ins generalizing m with
  | nil =>
    simp only [getInputsLoop, Prod.mk.injEq] at h
    rw [← h.2] at hr
    cases hr
  | cons inp rest ih =>
    rw [getInputsLoop] at h
    by_cases hm : (m inp.address).isSome = true
    · rw [if_pos hm] at h
      simp only [Prod.mk.injEq] at h
      exact ⟨h.1.symm, [], inp, rest, rfl, List.nodup_nil, by simp,
        Or.inl ⟨Or.inl hm, h.2.symm⟩⟩
    rw [if_neg hm] at h
    have hm' : m inp.address = none := by simpa using hm
    cases hg : s.GetAccount inp.address with
    | none =>
      rw [hg] at h
      simp only [Prod.mk.injEq] at h
      exact ⟨h.1.symm, [], inp, rest, rfl, List.nodup_nil, by simp,
        Or.inr ⟨hm', by simp, hg, h.2.symm⟩⟩
    | some acc =>
      rw [hg] at h
      obtain ⟨hempty, pre, bad, post, hsplit, hnd, hpre, hbad⟩ := ih _ h
      have hnot : inp.address ∉ pre.map (fun i => i.address) := by
        intro hmem
        obtain ⟨i, hi, he⟩ := List.mem_map.mp hmem
        have := (hpre i hi).1
        rw [he, AccMap.insert_same] at this
        cases this
      refine ⟨hempty, inp :: pre, bad, post, by rw [hsplit]; rfl, ?_, ?_, ?_⟩
      · rw [List.map_cons, List.nodup_cons]; exact ⟨hnot, hnd⟩
      · intro i hi
        rcases List.mem_cons.mp hi with rfl | hi
        · exact ⟨hm', by rw [hg]; rfl⟩
        · refine ⟨?_, (hpre i hi).2⟩
          have h1 := (hpre i hi).1
          by_cases he : i.address = inp.address
          · rw [he, AccMap.insert_same] at h1; cases h1
          · rwa [AccMap.insert_ne _ _ _ _ he] at h1
      · rcases hbad with ⟨hdup, hr'⟩ | ⟨hn, hnp, hgn, hr'⟩
        · left
          refine ⟨?_, hr'⟩
          by_cases he : bad.address = inp.address
          · right; rw [List.map_cons, he]; exact List.mem_cons_self _ _
          · rw [AccMap.insert_ne _ _ _ _ he] at hdup
            rcases hdup with hd | hd
            · left; exact hd
            · right; rw [List.map_cons]; exact List.mem_cons_of_mem _ hd
        · right
          have he : bad.address ≠ inp.address := by
            intro he
            rw [he, AccMap.insert_same] at hn
            cases hn
          rw [AccMap.insert_ne _ _ _ _ he] at hn
          refine ⟨hn, ?_, hgn, hr'⟩
          rw [List.map_cons, List.mem_cons, not_or]
          exact ⟨he, hnp⟩

theorem getInputsLoop_result (s : State) (ins : List TxInput) (m : AccMap) :
    (getInputsLoop s m ins).2 = Result.OK ∨ (getInputsLoop s m ins).2.IsErr = true := by
  induction ins generalizing m with
  | nil => left; rfl
  | cons inp rest ih =>
    rw [getInputsLoop]
    by_cases hm : (m inp.address).isSome = true
    · rw [if_pos hm]; right; rfl
    · rw [if_neg hm]
      cases s.GetAccount inp.address with
      | none => right; rfl
      | some acc => exact ih _

/-- C12 (amended): `getInputs` returns OK exactly when the input addresses
are pairwise distinct and each has a stored account; the key set of the map it
returns is then the set of input addresses, each mapped to its stored account
with the public key of the input in place of the stored one when the input
supplies a key. Otherwise it returns the nil map, with DuplicateAddress at the
first input whose address repeats an earlier one or UnknownAddress at the
first input whose address has no stored account, whichever comes first. -/
theorem getInputs_spec (s : State) (ins : List TxInput) :
    ((getInputs s ins).2 = Result.OK ↔
      (ins.map (fun i => i.address)).Nodup ∧
      ∀ inp ∈ ins, (s.GetAccount inp.address).isSome = true) ∧
    ((getInputs s ins).2 = Result.OK →
      (∀ a, ((getInputs s ins).1 a).isSome = true ↔ a ∈ ins.map (fun i => i.address)) ∧
      ∀ inp ∈ ins, ∃ acc, s.GetAccount inp.address = some acc ∧
        (getInputs s ins).1 inp.address = some
          { acc with pubKey := if inp.pubKey.Empty then acc.pubKey else inp.pubKey }) ∧
    ((getInputs s ins).2 ≠ Result.OK →
      (getInputs s ins).1 = AccMap.empty ∧
      ∃ pre inp post, ins = pre ++ inp :: post ∧
        (pre.map (fun i => i.address)).Nodup ∧
        (∀ i ∈ pre, (s.GetAccount i.address).isSome = true) ∧
        ((inp.address ∈ pre.map (fun i => i.address) ∧
            (getInputs s ins).2 = Result.err CodeType.BaseDuplicateAddress) ∨
          (inp.address ∉ pre.map (fun i => i.address) ∧
            s.GetAccount inp.address = none ∧
            (getInputs s ins).2 = Result.err CodeType.BaseUnknownAddress))) := by
  have hOKerr : (Result.OK).IsErr = false := rfl
  refine ⟨⟨?_, ?_⟩, ?_, ?_⟩
  · intro hok
    obtain ⟨hnd, _, hload, _⟩ := getInputsLoop_ok s ins AccMap.empty _ _ rfl
      (show (getInputs s ins).2.IsErr = false by rw [hok]; rfl)
    refine ⟨hnd, ?_⟩
    intro inp hi
    obtain ⟨acc, hg, _⟩ := hload inp hi
    rw [hg]; rfl
  · rintro ⟨hnd, hload⟩
    exact getInputsLoop_succeeds s ins AccMap.empty hnd (fun _ _ => rfl) hload
  · intro hok
    obtain ⟨_, _, hload, hother⟩ := getInputsLoop_ok s ins AccMap.empty _ _ rfl
      (show (getInputs s ins).2.IsErr = false by rw [hok]; rfl)
    refine ⟨?_, ?_⟩
    · intro a
      constructor
      · intro hsome
        by_contra hna
        have := hother a hna
        change (getInputs s ins).1 a = _ at this
        rw [this] at hsome
        cases hsome
      · intro hmem
        obtain ⟨i, hi, he⟩ := List.mem_map.mp hmem
        obtain ⟨acc, _, hm⟩ := hload i hi
        change (getInputs s ins).1 i.address = _ at hm
        rw [← he, hm]; rfl
    · intro inp hi
      obtain ⟨acc, hg, hm⟩ := hload inp hi
      exact ⟨acc, hg, by rw [← withInputKey_eq]; exact hm⟩
  · intro hne
    have herr : (getInputs s ins).2.IsErr = true := by
      rcases getInputsLoop_result s ins AccMap.empty with h | h
      · exact absurd h hne
      · exact h
    obtain ⟨hempty, pre, inp, post, hsplit, hnd, hpre, hbad⟩ :=
      getInputsLoop_err s ins AccMap.empty _ _ rfl herr
    refine ⟨hempty, pre, inp, post, hsplit, hnd, fun i hi => (hpre i hi).2, ?_⟩
    rcases hbad with ⟨hdup, hr⟩ | ⟨_, hnp, hgn, hr⟩
    · left
      refine ⟨?_, hr⟩
      rcases hdup with hd | hd
      · cases hd
      · exact hd
    · right; exact ⟨hnp, hgn, hr⟩

/-- C12 as stated fails: on `demoState2` the account stored for `D` has the key
`kd`; `getInputs` succeeds on the input of `demoSendOtherKey`, which supplies
the key `kx`, and maps `D` to an account with the key `kx`, which is not the
stored account. -/
theorem getInputs_entry_not_stored_account :
    (getInputs demoState2 demoSendOtherKey.inputs).2 = Result.OK ∧
    demoState2.GetAccount "D"
      = some { pubKey := ⟨some "kd"⟩, sequence := 0, balance := [⟨"atom", 50⟩] } ∧
    (getInputs demoState2 demoSendOtherKey.inputs).1 "D"
      = some { pubKey := ⟨some "kx"⟩, sequence := 0, balance := [⟨"atom", 50⟩] } ∧
    (getInputs demoState2 demoSendOtherKey.inputs).1 "D" ≠ demoState2.GetAccount "D" := by
  decide

/-- C12, witness: on `demoState2` the two inputs of `demoSendTwo` load, and the
keys of the map are the addresses `A` and `D`; on `demoState` the input list
made of the input of `A` twice fails and returns the nil map. -/
theorem getInputs_spec_witness :
    ((∀ a, ((getInputs demoState2 demoSendTwo.inputs).1 a).isSome = true
        ↔ a ∈ demoSendTwo.inputs.map (fun i => i.address)) ∧
      ∀ inp ∈ demoSendTwo.inputs, ∃ acc, demoState2.GetAccount inp.address = some acc ∧
        (getInputs demoState2 demoSendTwo.inputs).1 inp.address = some
          { acc with pubKey := if inp.pubKey.Empty then acc.pubKey else inp.pubKey }) ∧
    (getInputs demoState [demoInput 30 "test:send", demoInput 30 "test:send"]).1
      = AccMap.empty :=
  ⟨(getInputs_spec demoState2 demoSendTwo.inputs).2.1 (by decide),
   ((getInputs_spec demoState [demoInput 30 "test:send", demoInput 30 "test:send"]).2.2
      (by decide)).1⟩

theorem localAddresses_cons_cross (out : TxOutput) (rest : List TxOutput) (c : String)
    (hc : out.chain = some c) : localAddresses (out :: rest) = localAddresses rest := by
  simp [localAddresses, List.filter_cons, hc]

theorem localAddresses_cons_local (out : TxOutput) (rest : List TxOutput)
    (hc : out.chain = none) :
    localAddresses (out :: rest) = out.address :: localAddresses rest := by
  simp [localAddresses, List.filter_cons, hc]

theorem getOrMakeOutputs_succeeds (s : State) (outs : List TxOutput) (m : AccMap)
    (hnd : (localAddresses outs).Nodup) (hnone : ∀ a ∈ localAddresses outs, m a = none) :
    (getOrMakeOutputs s m outs).2 = Result.OK := by
  induction outs generalizing m with
  | nil => rfl
  | cons out rest ih =>
    rw [getOrMakeOutputs]
    cases hc : out.chain with
    | some c =>
      dsimp only
      rw [localAddresses_cons_cross out rest c hc] at hnd hnone
      exact ih _ hnd hnone
    | none =>
      dsimp only
      rw [localAddresses_cons_local out rest hc] at hnd hnone
      rw [List.nodup_cons] at hnd
      rw [hnone _ (List.mem_cons_self _ _)]
      simp only [Option.isSome_none, Bool.false_eq_true, if_false]
      apply ih _ hnd.2
      intro a ha
      rw [AccMap.insert_ne _ _ _ _ (fun e : a = out.address => hnd.1 (by rw [← e]; exact ha))]
      exact hnone a (List.mem_cons_of_mem _ ha)

theorem getOrMakeOutputs_result (s : State) (outs : List TxOutput) (m : AccMap) :
    (getOrMakeOutputs s m outs).2 = Result.OK ∨
    (getOrMakeOutputs s m outs) = (AccMap.empty, Result.err CodeType.BaseDuplicateAddress) := by
  induction outs generalizing m with
  | nil => left; rfl
  | cons out rest ih =>
    rw [getOrMakeOutputs]
    cases out.chain with
    | some c => exact ih _
    | none =>
      dsimp only
      by_cases hm : (m out.address).isSome = true
      · rw [if_pos hm]; right; rfl
      · rw [if_neg hm]; exact ih _

/-- A `SendTx` that passes structural validation and whose input accounts
load stops at the resolution of the outputs when it fails. -/
theorem execSendTx_outputs_err (E : Env) (st : State) (cid : String) (tx : SendTx)
    (chk : Bool)
    (h1 : (validateInputsBasic E tx.inputs).IsErr = false)
    (h2 : (validateOutputsBasic E tx.outputs).IsErr = false)
    (h3 : (getInputs st tx.inputs).2.IsErr = false)
    (h4 : (getOrMakeOutputs st (getInputs st tx.inputs).1 tx.outputs).2.IsErr = true) :
    execSendTx E st cid tx chk
      = some ((getOrMakeOutputs st (getInputs st tx.inputs).1 tx.outputs).2, st) := by
  unfold execSendTx
  simp [h1, h2, h3, h4]

/-- C13 (amended): `getOrMakeOutputs` returns OK exactly when the local output
addresses are pairwise distinct and none is a key of the map it is given, and
otherwise DuplicateAddress with the nil map; on OK the map is extended by each
local output address, mapped to its stored account or to the empty account,
and has no other new entry, so a cross-chain output adds none. Consequently a
`SendTx` with a local output to one of its own input addresses is never
accepted, and it is rejected with DuplicateAddress, the state reading as
before, when it passes structural validation and its input accounts load. -/
theorem getOrMakeOutputs_spec (E : Env) (s : State) :
    (∀ (m : AccMap) (outs : List TxOutput),
      ((getOrMakeOutputs s m outs).2 = Result.OK ↔
        (localAddresses outs).Nodup ∧ ∀ a ∈ localAddresses outs, m a = none) ∧
      ((getOrMakeOutputs s m outs).2 ≠ Result.OK →
        getOrMakeOutputs s m outs = (AccMap.empty, Result.err CodeType.BaseDuplicateAddress)) ∧
      ((getOrMakeOutputs s m outs).2 = Result.OK →
        (∀ a ∈ localAddresses outs,
          (getOrMakeOutputs s m outs).1 a = some ((s.GetAccount a).getD Account.zero)) ∧
        ∀ a, a ∉ localAddresses outs → (getOrMakeOutputs s m outs).1 a = m a)) ∧
    (∀ (pgz : Plugins) (tx : SendTx) (isCheckTx : Bool) (inp : TxInput) (out : TxOutput),
      inp ∈ tx.inputs → out ∈ tx.outputs → out.chain = none → out.address = inp.address →
      (∀ res s', ExecTx E s pgz (Tx.send tx) isCheckTx = some (res, s') →
        res.code ≠ CodeType.OK) ∧
      ((validateInputsBasic E tx.inputs).IsErr = false →
        (validateOutputsBasic E tx.outputs).IsErr = false →
        (getInputs s tx.inputs).2.IsErr = false →
        ∃ s', ExecTx E s pgz (Tx.send tx) isCheckTx
            = some (Result.err CodeType.BaseDuplicateAddress, s') ∧
          ∀ k, s'.Get k = s.Get k)) := by
  have hs0 : ∀ a, (s.GetChainID E).2.GetAccount a = s.GetAccount a :=
    State.GetAccount_GetChainID E s
  have hfail : ∀ (st : State) (tx : SendTx) (inp : TxInput) (out : TxOutput),
      inp ∈ tx.inputs → out ∈ tx.outputs → out.chain = none → out.address = inp.address →
      (getInputs st tx.inputs).2.IsErr = false →
      (getOrMakeOutputs st (getInputs st tx.inputs).1 tx.outputs).2.IsErr = false → False := by
    intro st tx inp out hi ho hc he h3 h4
    obtain ⟨_, _, iload, _⟩ := getInputsLoop_ok st tx.inputs AccMap.empty _ _ rfl h3
    obtain ⟨_, onone, _, _⟩ := getOrMakeOutputs_ok st tx.outputs _ _ _ rfl h4
    obtain ⟨acc, _, hm⟩ := iload inp hi
    have hn := onone _ (mem_localAddresses ho hc)
    rw [he] at hn
    change (getInputs st tx.inputs).1 inp.address = _ at hm
    rw [hm] at hn
    cases hn
  constructor
  · intro m outs
    refine ⟨⟨?_, ?_⟩, ?_, ?_⟩
    · intro hok
      obtain ⟨hnd, hnone, _, _⟩ := getOrMakeOutputs_ok s outs m _ _ rfl
        (show (getOrMakeOutputs s m outs).2.IsErr = false by rw [hok]; rfl)
      exact ⟨hnd, hnone⟩
    · rintro ⟨hnd, hnone⟩
      exact getOrMakeOutputs_succeeds s outs m hnd hnone
    · intro hne
      rcases getOrMakeOutputs_result s outs m with h | h
      · exact absurd h hne
      · exact h
    · intro hok
      obtain ⟨_, _, hsome, hother⟩ := getOrMakeOutputs_ok s outs m _ _ rfl
        (show (getOrMakeOutputs s m outs).2.IsErr = false by rw [hok]; rfl)
      exact ⟨hsome, hother⟩
  · intro pgz tx isCheckTx inp out hi ho hc he
    constructor
    · intro res s' h hOK
      obtain ⟨_, _, h3, h4, _⟩ :=
        execSendTx_ok_inv E _ _ tx isCheckTx res s' h (Result.IsErr_false_iff.mpr hOK)
      exact hfail _ tx inp out hi ho hc he h3 h4
    · intro h1 h2 h3
      rw [← getInputs_congr s _ hs0] at h3
      have h4 : (getOrMakeOutputs (s.GetChainID E).2 (getInputs (s.GetChainID E).2
          tx.inputs).1 tx.outputs).2.IsErr = true := by
        by_contra h4
        exact hfail _ tx inp out hi ho hc he h3 (by simpa using h4)
      have hdup : getOrMakeOutputs (s.GetChainID E).2 (getInputs (s.GetChainID E).2
          tx.inputs).1 tx.outputs = (AccMap.empty, Result.err CodeType.BaseDuplicateAddress) := by
        rcases getOrMakeOutputs_result (s.GetChainID E).2 tx.outputs
          (getInputs (s.GetChainID E).2 tx.inputs).1 with h | h
        · rw [h] at h4; cases h4
        · exact h
      refine ⟨(s.GetChainID E).2, ?_, State.Get_GetChainID E s⟩
      have := execSendTx_outputs_err E (s.GetChainID E).2 (s.GetChainID E).1 tx isCheckTx
        h1 h2 h3 h4
      rw [hdup] at this
      exact this

/-- C13, witness: on `demoState` the transfer `demoSendSelf` of `A` to itself
passes structural validation and the loading of `A`, and is rejected with
DuplicateAddress, every key reading as before. -/
theorem getOrMakeOutputs_spec_witness :
    ∃ s', ExecTx refEnv demoState noPlugins (Tx.send demoSendSelf) false
        = some (Result.err CodeType.BaseDuplicateAddress, s') ∧
      ∀ k, s'.Get k = demoState.Get k :=
  ((getOrMakeOutputs_spec refEnv demoState).2 noPlugins demoSendSelf false
    { address := "A", coins := [⟨"atom", 30⟩], sequence := 9,
      signature := "test:send@ka", pubKey := ⟨none⟩ }
    { chain := none, address := "A", coins := [⟨"atom", 30⟩] }
    (by decide) (by decide) rfl rfl).2 (by decide) (by decide) (by decide)

/-- C13 as stated fails in its last sentence. The transfer of `Z` to itself,
`Z` having no stored account, is rejected with UnknownAddress by `getInputs`;
the transfer of `A` to itself whose input carries no signature is rejected by
the structural validation of the inputs. Neither is rejected with
DuplicateAddress. -/
theorem self_send_other_rejection :
    observe (ExecTx refEnv demoState noPlugins (Tx.send demoSendUnknownSelf) false)
      = some (Result.err CodeType.BaseUnknownAddress,
          some { pubKey := ⟨some "ka"⟩, sequence := 5, balance := [⟨"atom", 100⟩] },
          none) ∧
    observe (ExecTx refEnv demoState noPlugins (Tx.send demoSendSelfUnsigned) false)
      = some (Result.err CodeType.BaseInvalidInput,
          some { pubKey := ⟨some "ka"⟩, sequence := 5, balance := [⟨"atom", 100⟩] },
          none) := by
  decide

/-! ## A SendTx in check-only mode -/

/-- In check-only mode `adjustByOutputs` writes no account key, the packets
being stored outside the accounts. -/
theorem adjustByOutputs_check_frame (E : Env) (outs : List TxOutput) (st st' : State)
    (acc acc' : AccMap)
    (h : adjustByOutputs E st acc outs true = some (st', acc'))
    (hp : packetsKeepAccounts E outs) (a : String) :
    st'.Get (AccountKey a) = st.Get (AccountKey a) := by
  induction outs generalizing st acc with
  | nil =>
    simp only [adjustByOutputs, Option.some.injEq, Prod.mk.injEq] at h
    rw [h.1]
  | cons out rest ih =>
    rw [adjustByOutputs] at h
    cases hc : out.chain with
    | some dst =>
      rw [hc] at h
      dsimp only at h
      rw [ih _ _ h (packetsKeepAccounts_cons hp), State.Get_applyWrites,
        kvLookup_eq_none _ _ (fun kv hkv => hp out (List.mem_cons_self _ _) dst hc _ _ kv hkv a),
        State.Get_GetChainID]
    | none =>
      rw [hc] at h
      dsimp only at h
      cases ha : acc out.address with
      | none => rw [ha] at h; cases h
      | some a0 =>
        rw [ha] at h
        dsimp only at h
        simp only [Bool.not_true, Bool.false_eq_true, if_false] at h
        exact ih _ _ h (packetsKeepAccounts_cons hp)

/-- C14: for a `SendTx` accepted in check-only mode (the outgoing packets being
stored outside the accounts), the value stored under the account key of every
local output address is the one stored before, so no credit is written and an
absent destination stays absent; and each input account is written back with
its balance less the input coins and its sequence plus one. -/
theorem sendTx_check_effect (E : Env) (s : State) (pgz : Plugins) (tx : SendTx)
    (res : Result) (s' : State)
    (hp : packetsKeepAccounts E tx.outputs)
    (h : ExecTx E s pgz (Tx.send tx) true = some (res, s'))
    (hOK : res.code = CodeType.OK) :
    (∀ out ∈ tx.outputs, out.chain = none →
      s'.Get (AccountKey out.address) = s.Get (AccountKey out.address) ∧
      s'.GetAccount out.address = s.GetAccount out.address) ∧
    (∀ inp ∈ tx.inputs, ∃ acc, s.GetAccount inp.address = some acc ∧
      s'.GetAccount inp.address = some
        { pubKey := (withInputKey inp acc).pubKey,
          sequence := acc.sequence + 1,
          balance := acc.balance.Minus inp.coins }) := by
  have hinv := execSendTx_ok_inv E _ _ tx true res s' h (Result.IsErr_false_iff.mpr hOK)
  obtain ⟨_, _, h3, h4, t, r, st1, acc1, acc2, _, _, _, ha, hb, _⟩ := hinv
  have hs0 : ∀ a, (s.GetChainID E).2.GetAccount a = s.GetAccount a :=
    State.GetAccount_GetChainID E s
  obtain ⟨ind, _, _, _⟩ :=
    getInputsLoop_ok (s.GetChainID E).2 tx.inputs AccMap.empty _ _ rfl h3
  obtain ⟨_, onone, _, _⟩ :=
    getOrMakeOutputs_ok (s.GetChainID E).2 tx.outputs _ _ _ rfl h4
  have hacc := sendAccounts_input _ tx h3 h4
  obtain ⟨iadj, iframe, _⟩ := adjustByInputs_ok tx.inputs _ _ _ _ ha ind
  have oframe := adjustByOutputs_check_frame E tx.outputs _ _ _ _ hb hp
  have hget : ∀ a, s'.GetAccount a = st1.GetAccount a := by
    intro a
    unfold State.GetAccount
    rw [oframe a]
  have hkey : ∀ out ∈ tx.outputs, out.chain = none →
      s'.Get (AccountKey out.address) = s.Get (AccountKey out.address) := by
    intro out ho hc
    rw [oframe, iframe, State.Get_GetChainID]
    intro inp hi e
    have he : out.address = inp.address := AccountKey_injective e
    obtain ⟨acc, _, hm⟩ := hacc inp hi
    obtain ⟨_, _, iload, _⟩ :=
      getInputsLoop_ok (s.GetChainID E).2 tx.inputs AccMap.empty _ _ rfl h3
    obtain ⟨acc', _, hm'⟩ := iload inp hi
    have hn := onone _ (mem_localAddresses ho hc)
    rw [he] at hn
    change (getInputs (s.GetChainID E).2 tx.inputs).1 inp.address = _ at hm'
    rw [hm'] at hn
    cases hn
  refine ⟨?_, ?_⟩
  · intro out ho hc
    refine ⟨hkey out ho hc, ?_⟩
    unfold State.GetAccount
    rw [hkey out ho hc]
  · intro inp hi
    obtain ⟨acc, hg, hm⟩ := hacc inp hi
    obtain ⟨a0, h0, _, h1⟩ := iadj inp hi
    rw [hm] at h0
    cases h0
    refine ⟨acc, (hs0 _).symm.trans hg, ?_⟩
    rw [hget, h1, withInputKey_balance, withInputKey_sequence]

/-- C14, witness: in check-only mode the transfer of 30 atoms from `A`
(atom:100, sequence 5) to `B` is accepted; afterwards nothing is stored under
the account key of `B`, and `A` holds atom:70 at sequence 6. -/
theorem sendTx_check_effect_witness :
    ∃ res s', ExecTx refEnv demoState noPlugins (Tx.send (demoSend 30 ⟨"atom", 0⟩)) true
        = some (res, s') ∧
      res.code = CodeType.OK ∧
      s'.Get (AccountKey "B") = Value.absent ∧
      s'.GetAccount "B" = none ∧
      s'.GetAccount "A"
        = some { pubKey := ⟨some "ka"⟩, sequence := 6, balance := [⟨"atom", 70⟩] } := by
  have hsome : (ExecTx refEnv demoState noPlugins
      (Tx.send (demoSend 30 ⟨"atom", 0⟩)) true).isSome = true := by decide
  obtain ⟨⟨res, s'⟩, h⟩ := Option.isSome_iff_exists.mp hsome
  have hcode : (ExecTx refEnv demoState noPlugins
      (Tx.send (demoSend 30 ⟨"atom", 0⟩)) true).map (fun p => p.1.code)
      = some CodeType.OK := by decide
  have hOK : res.code = CodeType.OK := by
    rw [h] at hcode
    simpa using hcode
  have hp : packetsKeepAccounts refEnv (demoSend 30 ⟨"atom", 0⟩).outputs := by
    intro out ho dst hc
    simp only [demoSend, List.mem_singleton] at ho
    rw [ho] at hc
    cases hc
  obtain ⟨hout, hin⟩ :=
    sendTx_check_effect refEnv demoState noPlugins (demoSend 30 ⟨"atom", 0⟩) res s' hp h hOK
  have hB := hout { chain := none, address := "B", coins := [⟨"atom", 30⟩] }
    (by simp [demoSend]) rfl
  refine ⟨res, s', h, hOK, ?_, ?_, ?_⟩
  · rw [hB.1]; decide
  · rw [hB.2]; decide
  · obtain ⟨acc, h1, h2⟩ := hin (demoInput 30 "test:send") (by simp [demoSend])
    have hA : demoState.GetAccount "A"
        = some { pubKey := ⟨some "ka"⟩, sequence := 5, balance := [⟨"atom", 100⟩] } := by
      decide
    rw [show (demoInput 30 "test:send").address = "A" from rfl, hA] at h1
    cases h1
    rw [show (demoInput 30 "test:send").address = "A" from rfl] at h2
    rw [h2]
    decide

/-! ## No fatal abort, and the mode flag -/

theorem validateInputAdvanced_ok_balance (E : Env) (acc : Account) (sb : String)
    (inp : TxInput) (h : (validateInputAdvanced E acc sb inp).IsErr = false) :
    acc.balance.IsGTE inp.coins = true := by
  unfold validateInputAdvanced at h
  split_ifs at h with h1 h2 h3
  · cases h
  · cases h
  · simpa using h2
  · simpa using h2

/-- With every input account in the map, holding enough coins, and the input
addresses pairwise distinct, `adjustByInputs` returns, and the map it returns
keeps every key. -/
theorem adjustByInputs_total (ins : List TxInput) (st : State) (acc : AccMap)
    (hnd : (ins.map (fun i => i.address)).Nodup)
    (h : ∀ inp ∈ ins, ∃ a, acc inp.address = some a ∧ a.balance.IsGTE inp.coins = true) :
    ∃ st' acc', adjustByInputs st acc ins = some (st', acc') ∧
      ∀ a, (acc a).isSome = true → (acc' a).isSome = true := by
  induction ins generalizing st acc with
  | nil => exact ⟨st, acc, rfl, fun _ h => h⟩
  | cons inp rest ih =>
    rw [List.map_cons, List.nodup_cons] at hnd
    obtain ⟨a0, ha, hg⟩ := h inp (List.mem_cons_self _ _)
    rw [adjustByInputs, ha]
    dsimp only
    rw [hg]
    simp only [Bool.not_true, Bool.false_eq_true, if_false]
    obtain ⟨st', acc', he, hkeys⟩ := ih
      (st.SetAccount inp.address
        { a0 with balance := a0.balance.Minus inp.coins, sequence := a0.sequence + 1 })
      (acc.insert inp.address
        { a0 with balance := a0.balance.Minus inp.coins, sequence := a0.sequence + 1 })
      hnd.2
      (fun i hi => by
        obtain ⟨a, h1, h2⟩ := h i (List.mem_cons_of_mem _ hi)
        refine ⟨a, ?_, h2⟩
        rw [AccMap.insert_ne _ _ _ _ (fun e => hnd.1 (List.mem_map.mpr ⟨i, hi, e⟩))]
        exact h1)
    refine ⟨st', acc', he, ?_⟩
    intro a hsome
    apply hkeys
    by_cases e : a = inp.address
    · rw [e, AccMap.insert_same]; rfl
    · rw [AccMap.insert_ne _ _ _ _ e]; exact hsome

/-- With every local output address in the map, `adjustByOutputs` returns, in
either mode. -/
theorem adjustByOutputs_total (E : Env) (outs : List TxOutput) (st : State) (acc : AccMap)
    (chk : Bool) (h : ∀ a ∈ localAddresses outs, (acc a).isSome = true) :
    ∃ st' acc', adjustByOutputs E st acc outs chk = some (st', acc') := by
  induction outs generalizing st acc with
  | nil => exact ⟨st, acc, rfl⟩
  | cons out rest ih =>
    rw [adjustByOutputs]
    cases hc : out.chain with
    | some dst =>
      dsimp only
      rw [localAddresses_cons_cross out rest dst hc] at h
      exact ih _ _ h
    | none =>
      dsimp only
      rw [localAddresses_cons_local out rest hc] at h
      obtain ⟨a0, ha⟩ := Option.isSome_iff_exists.mp (h _ (List.mem_cons_self _ _))
      rw [ha]
      dsimp only
      apply ih
      intro a hmem
      by_cases e : a = out.address
      · rw [e, AccMap.insert_same]; rfl
      · rw [AccMap.insert_ne _ _ _ _ e]; exact h a (List.mem_cons_of_mem _ hmem)

/-- The `SendTx` case never aborts, and its result does not depend on the
mode. -/
theorem execSendTx_result (E : Env) (st : State) (cid : String) (tx : SendTx) :
    ∃ res, ∀ chk, ∃ s', execSendTx E st cid tx chk = some (res, s') := by
  by_cases h1 : (validateInputsBasic E tx.inputs).IsErr = true
  · exact ⟨validateInputsBasic E tx.inputs, fun chk => ⟨st, by unfold execSendTx; simp [h1]⟩⟩
  have h1' : (validateInputsBasic E tx.inputs).IsErr = false := by simpa using h1
  by_cases h2 : (validateOutputsBasic E tx.outputs).IsErr = true
  · exact ⟨validateOutputsBasic E tx.outputs,
      fun chk => ⟨st, by unfold execSendTx; simp [h1', h2]⟩⟩
  have h2' : (validateOutputsBasic E tx.outputs).IsErr = false := by simpa using h2
  by_cases h3 : (getInputs st tx.inputs).2.IsErr = true
  · exact ⟨(getInputs st tx.inputs).2,
      fun chk => ⟨st, by unfold execSendTx; simp [h1', h2', h3]⟩⟩
  have h3' : (getInputs st tx.inputs).2.IsErr = false := by simpa using h3
  by_cases h4 : (getOrMakeOutputs st (getInputs st tx.inputs).1 tx.outputs).2.IsErr = true
  · exact ⟨_, fun chk => ⟨st, execSendTx_outputs_err E st cid tx chk h1' h2' h3' h4⟩⟩
  have h4' : (getOrMakeOutputs st (getInputs st tx.inputs).1 tx.outputs).2.IsErr = false := by
    simpa using h4
  have hacc := sendAccounts_input st tx h3' h4'
  obtain ⟨t, r, hv⟩ := validateInputsAdvancedLoop_total_fn E
    (getOrMakeOutputs st (getInputs st tx.inputs).1 tx.outputs).1 (E.sendSignBytes cid tx)
    tx.inputs [] (fun i hi => by obtain ⟨a, _, ha⟩ := hacc i hi; exact ⟨_, ha⟩)
  by_cases h5 : r.IsErr = true
  · exact ⟨r, fun chk => ⟨st, execSendTx_adv_err E st cid tx chk t r h1' h2' h3' h4' hv h5⟩⟩
  have h5' : r.IsErr = false := by simpa using h5
  by_cases h6 : t.IsEqual (if Coins.IsValid [tx.fee] = true
      then (sumOutputs tx.outputs).Plus [tx.fee] else sumOutputs tx.outputs) = true
  · obtain ⟨ind, _, _, _⟩ := getInputsLoop_ok st tx.inputs AccMap.empty _ _ rfl h3'
    obtain ⟨_, _, oload, _⟩ := getOrMakeOutputs_ok st tx.outputs _ _ _ rfl h4'
    obtain ⟨st1, acc1, ha, hkeys⟩ := adjustByInputs_total tx.inputs st
      (getOrMakeOutputs st (getInputs st tx.inputs).1 tx.outputs).1 ind
      (fun i hi => by
        obtain ⟨a, ha1, ha2⟩ := validateInputsAdvancedLoop_ok_all E _ _ _ _ t r hv h5' i hi
        exact ⟨a, ha1, validateInputAdvanced_ok_balance E _ _ _ ha2⟩)
    refine ⟨Result.NewResultOK (E.txID cid tx), fun chk => ?_⟩
    obtain ⟨st2, acc2, hb⟩ := adjustByOutputs_total E tx.outputs st1 acc1 chk
      (fun a hmem => hkeys a (by rw [oload a hmem]; rfl))
    refine ⟨st2, ?_⟩
    unfold execSendTx
    have hv' : validateInputsAdvanced E
        (getOrMakeOutputs st (getInputs st tx.inputs).1 tx.outputs).1
        (E.sendSignBytes cid tx) tx.inputs = some (t, r) := hv
    simp [h1', h2', h3', h4', hv', h5', h6, ha, hb]
  · have h6' : t.IsEqual (if Coins.IsValid [tx.fee] = true
        then (sumOutputs tx.outputs).Plus [tx.fee] else sumOutputs tx.outputs) = false := by
      simpa using h6
    exact ⟨_, fun chk => ⟨st,
      execSendTx_invalidOutput E st cid tx chk t r h1' h2' h3' h4' hv h5' h6'⟩⟩

/-- An error of the `AppTx` case in check-only mode is its result in delivery
mode too. -/
theorem execAppTx_check_err (E : Env) (st : State) (pgz : Plugins) (cid : String)
    (tx : AppTx) (res : Result) (s1 : State)
    (h : execAppTx E st pgz cid tx true = some (res, s1)) (hres : res.IsErr = true) :
    execAppTx E st pgz cid tx false = some (res, st) := by
  by_cases h1 : (E.inputValidateBasic tx.input).IsErr = true
  · unfold execAppTx at h ⊢
    rw [if_pos h1] at h ⊢
    simp only [Option.some.injEq, Prod.mk.injEq] at h
    rw [h.1]
  have h1' : (E.inputValidateBasic tx.input).IsErr = false := by simpa using h1
  cases hg : st.GetAccount tx.input.address with
  | none =>
    unfold execAppTx at h ⊢
    rw [if_neg h1, hg] at h ⊢
    simp only [Option.some.injEq, Prod.mk.injEq] at h
    rw [h.1]
  | some acc =>
    rw [execAppTx_loaded E st pgz cid tx true acc h1' hg] at h
    rw [execAppTx_loaded E st pgz cid tx false acc h1' hg]
    by_cases h3 : (validateInputAdvanced E (withInputKey tx.input acc) (E.appSignBytes cid tx)
        tx.input).IsErr = true
    · rw [if_pos h3] at h ⊢
      simp only [Option.some.injEq, Prod.mk.injEq] at h
      rw [h.1]
    rw [if_neg h3] at h ⊢
    by_cases h4 : (!tx.input.coins.IsGTE [tx.fee]) = true
    · rw [if_pos h4] at h ⊢
      simp only [Option.some.injEq, Prod.mk.injEq] at h
      rw [h.1]
    rw [if_neg h4] at h ⊢
    cases hpl : pgz.GetByName tx.name with
    | none =>
      rw [hpl] at h
      simp only [Option.some.injEq, Prod.mk.injEq] at h
      rw [h.1]
    | some plugin =>
      rw [hpl] at h
      simp only [if_true, Option.some.injEq, Prod.mk.injEq] at h
      rw [← h.1] at hres
      cases hres

/-- C15: validation does not depend on the mode flag. For every state and every
`SendTx`, `ExecTx` returns in check-only mode and in delivery mode, with the
same result; and for every transaction, an error returned in check-only mode
is returned in delivery mode from the same state, with the same code. -/
theorem mode_independent_validation (E : Env) (s : State) (pgz : Plugins) :
    (∀ stx : SendTx, ∃ res s1 s2,
      ExecTx E s pgz (Tx.send stx) true = some (res, s1) ∧
      ExecTx E s pgz (Tx.send stx) false = some (res, s2)) ∧
    (∀ (tx : Tx) (res : Result) (s1 : State),
      ExecTx E s pgz tx true = some (res, s1) → res.code ≠ CodeType.OK →
      ∃ res' s2, ExecTx E s pgz tx false = some (res', s2) ∧
        res'.code ≠ CodeType.OK ∧ res'.code = res.code ∧ res'.data = res.data) := by
  constructor
  · intro stx
    obtain ⟨res, hres⟩ := execSendTx_result E (s.GetChainID E).2 (s.GetChainID E).1 stx
    obtain ⟨s1, h1⟩ := hres true
    obtain ⟨s2, h2⟩ := hres false
    exact ⟨res, s1, s2, h1, h2⟩
  · intro tx res s1 h hne
    have herr : res.IsErr = true := by simpa [Result.IsErr] using hne
    cases tx with
    | send stx =>
      obtain ⟨r, hr⟩ := execSendTx_result E (s.GetChainID E).2 (s.GetChainID E).1 stx
      obtain ⟨t1, h1⟩ := hr true
      obtain ⟨t2, h2⟩ := hr false
      have e : some (r, t1) = some (res, s1) := h1.symm.trans h
      simp only [Option.some.injEq, Prod.mk.injEq] at e
      exact ⟨r, t2, h2, by rw [e.1]; exact hne, by rw [e.1], by rw [e.1]⟩
    | app atx =>
      exact ⟨res, (s.GetChainID E).2,
        execAppTx_check_err E _ pgz _ atx res s1 h herr, hne, rfl, rfl⟩
    | unknown =>
      have e : some (Result.err CodeType.EncodingError, (s.GetChainID E).2) = some (res, s1) := h
      simp only [Option.some.injEq, Prod.mk.injEq] at e
      exact ⟨res, (s.GetChainID E).2, by rw [← e.1]; rfl, hne, rfl, rfl⟩

/-- C15, witness: on `demoState` the call of an unregistered plugin returns
UnknownAddress in check-only mode, and in delivery mode too. -/
theorem mode_independent_validation_witness :
    ∃ res' s2, ExecTx refEnv demoState noPlugins (Tx.app (demoApp "nope")) false
        = some (res', s2) ∧
      res'.code = CodeType.BaseUnknownAddress := by
  have hsome : (ExecTx refEnv demoState noPlugins (Tx.app (demoApp "nope")) true).isSome
      = true := by decide
  obtain ⟨⟨res, s1⟩, h⟩ := Option.isSome_iff_exists.mp hsome
  have hcode : (ExecTx refEnv demoState noPlugins (Tx.app (demoApp "nope")) true).map
      (fun p => p.1.code) = some CodeType.BaseUnknownAddress := by decide
  have hc : res.code = CodeType.BaseUnknownAddress := by
    rw [h] at hcode
    simpa using hcode
  obtain ⟨res', s2, h2, _, hsame, _⟩ :=
    (mode_independent_validation refEnv demoState noPlugins).2 _ res s1 h
      (by rw [hc]; decide)
  exact ⟨res', s2, h2, hsame.trans hc⟩

/-! ## Scratch layers -/

namespace State

theorem parent?_Set (s : State) (k : String) (v : Value) :
    (s.Set k v).parent? = s.parent? := by
  cases s <;> rfl

theorem parent?_applyWrites (s : State) (ws : List (String × Value)) :
    (s.applyWrites ws).parent? = s.parent? := by
  induction ws generalizing s with
  | nil => rfl
  | cons kv ws ih => rw [applyWrites_cons, ih, parent?_Set]

theorem applyWrites_CacheWrap (s : State) (ws : List (String × Value)) :
    (s.CacheWrap).applyWrites ws = wrap s.chainID s ws := by
  unfold CacheWrap
  rw [applyWrites_wrap, List.nil_append]

theorem Get_CacheWrap (s : State) (k : String) : (s.CacheWrap).Get k = s.Get k := rfl

end State

/-- C16: a scratch state `C` made by `CacheWrap` of `S`, after any sequence of
`Set` and `SetAccount` calls on it and no `CacheSync`: the state that `C`
points to is `S` as it was, so `S` reads as before at every key; a second
child made from it reads what `S` holds, none of the writes of `C`; and `C`
reads the last value it wrote to a key it wrote, and otherwise what `S`
holds. -/
theorem cacheWrap_isolation (S : State) (ws : List (String × Value)) :
    ((S.CacheWrap).applyWrites ws).parent? = some S ∧
    (∀ P, ((S.CacheWrap).applyWrites ws).parent? = some P →
      ∀ k, P.Get k = S.Get k ∧ (P.CacheWrap).Get k = S.Get k) ∧
    (∀ before k v after, ws = before ++ (k, v) :: after → (∀ kv ∈ after, kv.1 ≠ k) →
      ((S.CacheWrap).applyWrites ws).Get k = v) ∧
    (∀ k, k ∉ ws.map Prod.fst → ((S.CacheWrap).applyWrites ws).Get k = S.Get k) := by
  have hpar : ((S.CacheWrap).applyWrites ws).parent? = some S := by
    rw [State.applyWrites_CacheWrap]; rfl
  refine ⟨hpar, ?_, ?_, ?_⟩
  · intro P hP k
    rw [hpar] at hP
    cases hP
    exact ⟨rfl, rfl⟩
  · intro before k v after hsplit hlast
    rw [State.Get_applyWrites, hsplit, kvLookup_last before after k v hlast]
  · intro k hk
    rw [State.Get_applyWrites, kvLookup_not_written ws k hk]
    rfl

/-- C16, witness: a scratch layer of `demoState` in which the key `counter` is
written twice and the account of `B` once reads the second value of `counter`,
reads `A` as `demoState` holds it, and leaves `demoState` as its parent. -/
theorem cacheWrap_isolation_witness :
    ((demoState.CacheWrap).applyWrites
      [("counter", Value.bytes "1"), (AccountKey "B", Value.account Account.zero),
       ("counter", Value.bytes "2")]).Get "counter" = Value.bytes "2" ∧
    ((demoState.CacheWrap).applyWrites
      [("counter", Value.bytes "1"), (AccountKey "B", Value.account Account.zero),
       ("counter", Value.bytes "2")]).Get (AccountKey "A") = demoState.Get (AccountKey "A") ∧
    (demoState.CacheWrap).Get "counter" = Value.absent :=
  ⟨(cacheWrap_isolation demoState _).2.2.1
      [("counter", Value.bytes "1"), (AccountKey "B", Value.account Account.zero)]
      "counter" (Value.bytes "2") [] rfl (by simp),
   (cacheWrap_isolation demoState _).2.2.2 (AccountKey "A") (by decide),
   by decide⟩

/-- C17: a scratch state `C` made by `CacheWrap` of `S`, after any sequence of
writes: `CacheSync` applies the buffered writes to `S`, the immediate parent,
in the order they were made; afterwards the parent reads, at a key written in
`C`, the last value written to it, and at any other key what `S` held; what
lies below `S` is not touched; and without `CacheSync` the parent is `S` as it
was. -/
theorem cacheSync_flush (S : State) (ws : List (String × Value)) :
    ((S.CacheWrap).applyWrites ws).CacheSync
      = some (ws.foldl (fun st kv => st.Set kv.1 kv.2) S) ∧
    (∀ P, ((S.CacheWrap).applyWrites ws).CacheSync = some P →
      (∀ before k v after, ws = before ++ (k, v) :: after → (∀ kv ∈ after, kv.1 ≠ k) →
        P.Get k = v) ∧
      (∀ k, k ∉ ws.map Prod.fst → P.Get k = S.Get k) ∧
      P.parent? = S.parent?) ∧
    ((S.CacheWrap).applyWrites ws).parent? = some S := by
  have hsync : ((S.CacheWrap).applyWrites ws).CacheSync = some (S.applyWrites ws) := by
    rw [State.applyWrites_CacheWrap]; rfl
  refine ⟨hsync, ?_, ?_⟩
  · intro P hP
    rw [hsync] at hP
    cases hP
    refine ⟨?_, ?_, State.parent?_applyWrites S ws⟩
    · intro before k v after hsplit hlast
      rw [State.Get_applyWrites, hsplit, kvLookup_last before after k v hlast]
    · intro k hk
      rw [State.Get_applyWrites, kvLookup_not_written ws k hk]
  · rw [State.applyWrites_CacheWrap]; rfl

/-- C17, witness: flushing a scratch layer of `demoState` in which the key
`counter` was written twice leaves the parent reading the second value at
`counter` and the account of `A` as before. -/
theorem cacheSync_flush_witness :
    ∃ P, ((demoState.CacheWrap).applyWrites
        [("counter", Value.bytes "1"), ("counter", Value.bytes "2")]).CacheSync = some P ∧
      P.Get "counter" = Value.bytes "2" ∧
      P.Get (AccountKey "A") = demoState.Get (AccountKey "A") := by
  obtain ⟨hsync, hget, _⟩ := cacheSync_flush demoState
    [("counter", Value.bytes "1"), ("counter", Value.bytes "2")]
  obtain ⟨hlast, hother, _⟩ := hget _ hsync
  exact ⟨_, hsync, hlast [("counter", Value.bytes "1")] "counter" (Value.bytes "2") [] rfl
    (by simp), hother (AccountKey "A") (by decide)⟩

/-- C18: `Commit` on a state whose backing store is not the persistent client,
a scratch state made by `CacheWrap` among them, returns InternalError and
leaves the state as it was, read cache included; on a state backed by the
persistent client it returns the result of the commit of the engine and
leaves the state with an empty read cache, so that every key reads as the
engine stores it. -/
theorem commit_spec (commitSync : (String → Value) → Result) :
    (∀ s : State, s.backedByEyes = false →
      s.Commit commitSync = (Result.err CodeType.InternalError, s)) ∧
    (∀ s : State, (s.CacheWrap).Commit commitSync
      = (Result.err CodeType.InternalError, s.CacheWrap)) ∧
    (∀ s : State, s.backedByEyes = true →
      (s.Commit commitSync).1 = commitSync s.storeGet ∧
      (∀ rc, (s.Commit commitSync).2.readCache? = some rc → ∀ k, rc k = none) ∧
      (s.Commit commitSync).2.readCache?.isSome = true ∧
      (∀ k, (s.Commit commitSync).2.Get k = s.storeGet k) ∧
      (∀ k, (s.Commit commitSync).2.storeGet k = s.storeGet k) ∧
      (s.Commit commitSync).2.chainID = s.chainID ∧
      (s.Commit commitSync).2.backedByEyes = true) := by
  refine ⟨?_, ?_, ?_⟩
  · intro s hs
    cases s with
    | root c e store rc =>
      cases e with
      | false => rfl
      | true => cases hs
    | wrap c p ws => rfl
  · intro s; rfl
  · intro s hs
    cases s with
    | root c e store rc =>
      cases e with
      | false => cases hs
      | true =>
        refine ⟨rfl, ?_, rfl, fun _ => rfl, fun _ => rfl, rfl, rfl⟩
        intro rc' hrc k
        simp only [State.Commit, State.readCache?, Option.some.injEq] at hrc
        rw [← hrc]
    | wrap c p ws => cases hs

/-- C18, witness: `demoState`, whose backing store is not the persistent
client, answers `Commit` with InternalError and is left as it was; the state
made by `NewState` over a persistent client holding the account of `A`, after
a write to the key `counter`, answers with the result of the engine and reads
the written value back from the engine. -/
theorem commit_spec_witness :
    demoState.Commit (fun _ => Result.NewResultOK "hash")
      = (Result.err CodeType.InternalError, demoState) ∧
    (((NewState true demoState.storeGet).Set "counter" (Value.bytes "1")).Commit
      (fun _ => Result.NewResultOK "hash")).1 = Result.NewResultOK "hash" ∧
    (((NewState true demoState.storeGet).Set "counter" (Value.bytes "1")).Commit
      (fun _ => Result.NewResultOK "hash")).2.Get "counter" = Value.bytes "1" :=
  ⟨(commit_spec (fun _ => Result.NewResultOK "hash")).1 demoState rfl,
   ((commit_spec (fun _ => Result.NewResultOK "hash")).2.2
      ((NewState true demoState.storeGet).Set "counter" (Value.bytes "1")) rfl).1,
   (((commit_spec (fun _ => Result.NewResultOK "hash")).2.2
      ((NewState true demoState.storeGet).Set "counter" (Value.bytes "1")) rfl).2.2.2.1
      "counter").trans (by decide)⟩

/-! ## What the engine never touches -/

namespace Kept

variable {E : Env} {α : Type} (K : Kept E α)

theorem through_applyWrites (s : State) (ws : List (String × Value)) (hg : K.good s) :
    K.obs (s.applyWrites ws) = K.obs s ∧ K.good (s.applyWrites ws) := by
  induction ws generalizing s with
  | nil => exact ⟨rfl, hg⟩
  | cons kv ws ih =>
    rw [State.applyWrites_cons]
    obtain ⟨h1, h2⟩ := ih _ (K.good_Set s kv.1 kv.2 hg)
    exact ⟨h1.trans (K.obs_Set s kv.1 kv.2), h2⟩

theorem through_adjustByInputs (ins : List TxInput) (st st' : State) (acc acc' : AccMap)
    (h : Basecoin.adjustByInputs st acc ins = some (st', acc')) (hg : K.good st) :
    K.obs st' = K.obs st ∧ K.good st' := by
  induction ins generalizing st acc with
  | nil =>
    simp only [Basecoin.adjustByInputs, Option.some.injEq, Prod.mk.injEq] at h
    rw [← h.1]; exact ⟨rfl, hg⟩
  | cons inp rest ih =>
    rw [Basecoin.adjustByInputs] at h
    cases ha : acc inp.address with
    | none => rw [ha] at h; cases h
    | some a0 =>
      rw [ha] at h
      dsimp only at h
      by_cases hb : (!a0.balance.IsGTE inp.coins) = true
      · rw [if_pos hb] at h; cases h
      rw [if_neg hb] at h
      obtain ⟨h1, h2⟩ := ih _ _ h (K.good_Set st _ _ hg)
      exact ⟨h1.trans (K.obs_Set st _ _), h2⟩

theorem through_adjustByOutputs (outs : List TxOutput) (st st' : State) (acc acc' : AccMap)
    (chk : Bool) (h : Basecoin.adjustByOutputs E st acc outs chk = some (st', acc'))
    (hg : K.good st) : K.obs st' = K.obs st ∧ K.good st' := by
  induction outs generalizing st acc with
  | nil =>
    simp only [Basecoin.adjustByOutputs, Option.some.injEq, Prod.mk.injEq] at h
    rw [← h.1]; exact ⟨rfl, hg⟩
  | cons out rest ih =>
    rw [Basecoin.adjustByOutputs] at h
    cases hc : out.chain with
    | some dst =>
      rw [hc] at h
      dsimp only at h
      obtain ⟨w1, w2⟩ := K.through_applyWrites (st.GetChainID E).2
        (E.saveNewIBCPacket (st.GetChainID E).2 (st.GetChainID E).1 dst
          (out.address, out.coins)) (K.good_GetChainID st hg)
      obtain ⟨h1, h2⟩ := ih _ _ h w2
      exact ⟨h1.trans (w1.trans (K.obs_GetChainID st hg)), h2⟩
    | none =>
      rw [hc] at h
      dsimp only at h
      cases ha : acc out.address with
      | none => rw [ha] at h; cases h
      | some a0 =>
        rw [ha] at h
        dsimp only at h
        cases chk with
        | true =>
          simp only [Bool.not_true, Bool.false_eq_true, if_false] at h
          exact ih _ _ h hg
        | false =>
          simp only [Bool.not_false, if_true] at h
          obtain ⟨h1, h2⟩ := ih _ _ h (K.good_Set st _ _ hg)
          exact ⟨h1.trans (K.obs_Set st _ _), h2⟩

theorem through_execSendTx (st : State) (cid : String) (tx : SendTx) (chk : Bool) (res : Result)
    (s' : State) (h : Basecoin.execSendTx E st cid tx chk = some (res, s'))
    (hg : K.good st) : K.obs s' = K.obs st ∧ K.good s' := by
  by_cases hres : res.IsErr = true
  · rw [execSendTx_err E st cid tx chk res s' h hres]; exact ⟨rfl, hg⟩
  · obtain ⟨_, _, _, _, t, r, st1, acc1, acc2, _, _, _, ha, hb, _⟩ :=
      execSendTx_ok_inv E st cid tx chk res s' h (by simpa using hres)
    obtain ⟨a1, a2⟩ := K.through_adjustByInputs tx.inputs _ _ _ _ ha hg
    obtain ⟨b1, b2⟩ := K.through_adjustByOutputs tx.outputs _ _ _ _ chk hb a2
    exact ⟨b1.trans a1, b2⟩

theorem through_SetAccount (s : State) (a : String) (acc : Account) (hg : K.good s) :
    K.obs (s.SetAccount a acc) = K.obs s ∧ K.good (s.SetAccount a acc) :=
  ⟨K.obs_Set s _ _, K.good_Set s _ _ hg⟩

theorem through_execAppTx (st : State) (pgz : Plugins) (cid : String) (tx : AppTx) (chk : Bool)
    (res : Result) (s' : State)
    (h : Basecoin.execAppTx E st pgz cid tx chk = some (res, s')) (hg : K.good st) :
    K.obs s' = K.obs st ∧ K.good s' := by
  have same : ∀ (r : Result), some (r, st) = some (res, s') →
      K.obs s' = K.obs st ∧ K.good s' := by
    intro r e
    simp only [Option.some.injEq, Prod.mk.injEq] at e
    rw [← e.2]; exact ⟨rfl, hg⟩
  by_cases h1 : (E.inputValidateBasic tx.input).IsErr = true
  · unfold Basecoin.execAppTx at h
    rw [if_pos h1] at h
    exact same _ h
  cases hacc : st.GetAccount tx.input.address with
  | none =>
    unfold Basecoin.execAppTx at h
    rw [if_neg h1, hacc] at h
    exact same _ h
  | some acc =>
    rw [execAppTx_loaded E st pgz cid tx chk acc (by simpa using h1) hacc] at h
    by_cases h3 : (validateInputAdvanced E (withInputKey tx.input acc) (E.appSignBytes cid tx)
        tx.input).IsErr = true
    · rw [if_pos h3] at h; exact same _ h
    rw [if_neg h3] at h
    by_cases h4 : (!tx.input.coins.IsGTE [tx.fee]) = true
    · rw [if_pos h4] at h; exact same _ h
    rw [if_neg h4] at h
    cases hpl : pgz.GetByName tx.name with
    | none => rw [hpl] at h; exact same _ h
    | some plugin =>
      rw [hpl] at h
      dsimp only at h
      by_cases h5 : chk = true
      · rw [if_pos h5] at h
        simp only [Option.some.injEq, Prod.mk.injEq] at h
        rw [← h.2]; exact K.through_SetAccount st _ _ hg
      rw [if_neg h5] at h
      by_cases h6 : (plugin.RunTx (appCache st tx acc) (appContext tx acc) tx.data).1.IsOK = true
      · rw [if_pos h6] at h
        simp only [Option.some.injEq, Prod.mk.injEq] at h
        rw [← h.2]; exact K.through_applyWrites st _ hg
      · rw [if_neg h6] at h
        simp only [Option.some.injEq, Prod.mk.injEq] at h
        rw [← h.2]; exact K.through_SetAccount st _ _ hg

theorem through_ExecTx (s : State) (pgz : Plugins) (tx : Tx) (chk : Bool) (res : Result)
    (s' : State) (h : Basecoin.ExecTx E s pgz tx chk = some (res, s')) (hg : K.good s) :
    K.obs s' = K.obs s ∧ K.good s' := by
  have hg0 := K.good_GetChainID s hg
  have ho0 := K.obs_GetChainID s hg
  cases tx with
  | send stx =>
    obtain ⟨h1, h2⟩ := K.through_execSendTx _ _ stx chk res s' h hg0
    exact ⟨h1.trans ho0, h2⟩
  | app atx =>
    obtain ⟨h1, h2⟩ := K.through_execAppTx _ pgz _ atx chk res s' h hg0
    exact ⟨h1.trans ho0, h2⟩
  | unknown =>
    have e : some (Result.err CodeType.EncodingError, (s.GetChainID E).2) = some (res, s') := h
    simp only [Option.some.injEq, Prod.mk.injEq] at e
    rw [← e.2]; exact ⟨ho0, hg0⟩

end Kept

/-! ## The chain id -/

namespace State

theorem chainID_Set (s : State) (k : String) (v : Value) : (s.Set k v).chainID = s.chainID := by
  cases s <;> rfl

theorem chainID_withChainID (s : State) (c : String) : (s.withChainID c).chainID = c := by
  cases s <;> rfl

theorem chainID_storeSet (s : State) (k : String) (v : Value) :
    (s.storeSet k v).chainID = s.chainID := by
  cases s <;> rfl

theorem GetChainID_of_ne (E : Env) (s : State) (h : s.chainID ≠ "") :
    s.GetChainID E = (s.chainID, s) := by
  unfold GetChainID
  rw [if_pos h]

theorem storeGet_storeSet_same (s : State) (k : String) (v : Value) :
    (s.storeSet k v).storeGet k = v := by
  cases s with
  | root c e store rc => simp [storeSet, storeGet]
  | wrap c p ws => simp [storeSet, storeGet, kvLookup_append]

theorem chainID_SetChainID (s : State) (c : String) : (s.SetChainID c).chainID = c := by
  unfold SetChainID
  rw [chainID_storeSet, chainID_withChainID]

/-- After `SetChainID(c)`, `GetChainID` returns `c`. -/
theorem GetChainID_SetChainID (E : Env) (s : State) (c : String) :
    ((s.SetChainID c).GetChainID E).1 = c := by
  by_cases hc : c = ""
  · unfold GetChainID
    rw [chainID_SetChainID, if_neg (not_not.mpr hc)]
    dsimp only
    unfold SetChainID
    rw [storeGet_storeSet_same, hc]
    rfl
  · rw [GetChainID_of_ne E _ (by rw [chainID_SetChainID]; exact hc), chainID_SetChainID]

end State

theorem splitKey_base_chain_id : splitKey "base/chain_id" = ("base", "chain_id") := by
  decide

/-- C19 (amended): once the chain id of a state is set to a non-empty value
`c`, `GetChainID` returns `c`, and goes on returning `c` after `Set`,
`SetAccount`, `CacheWrap`, `Commit` and `ExecTx`, whatever they write; but it
is not immutable: after a later `SetChainID(c')`, or
`SetOption("base/chain_id", c')`, `GetChainID` returns `c'`. -/
theorem chainID_kept_until_reset (E : Env) (c : String) (hc : c ≠ "") :
    (∀ s : State, (s.SetChainID c).chainID = c) ∧
    (∀ s1 : State, s1.chainID = c →
      s1.GetChainID E = (c, s1) ∧
      (∀ k v, (s1.Set k v).chainID = c) ∧
      (∀ a acc, (s1.SetAccount a acc).chainID = c) ∧
      (s1.CacheWrap).chainID = c ∧
      (∀ commitSync, (s1.Commit commitSync).2.chainID = c) ∧
      (∀ pgz tx isCheckTx res s', ExecTx E s1 pgz tx isCheckTx = some (res, s') →
        s'.chainID = c)) ∧
    (∀ (s1 : State) (c' : String), s1.chainID = c →
      ((s1.SetChainID c').GetChainID E).1 = c') ∧
    (∀ (A : AppEnv) (app : Basecoin) (c' : String), app.state.chainID = c →
      ((app.SetOption A "base/chain_id" c').2.state.GetChainID E).1 = c') := by
  refine ⟨fun s => State.chainID_SetChainID s c, ?_, ?_, ?_⟩
  · intro s1 h1
    refine ⟨?_, ?_, ?_, ?_, ?_, ?_⟩
    · rw [State.GetChainID_of_ne E s1 (by rw [h1]; exact hc), h1]
    · intro k v; rw [State.chainID_Set, h1]
    · intro a acc; unfold State.SetAccount; rw [State.chainID_Set, h1]
    · unfold State.CacheWrap; exact h1
    · intro cs
      cases s1 with
      | root c0 e store rc => cases e <;> exact h1
      | wrap c0 p ws => exact h1
    · intro pgz tx chk res s' h
      have hk := Kept.through_ExecTx
        ({ obs := State.chainID
           good := fun s => s.chainID ≠ ""
           obs_Set := State.chainID_Set
           good_Set := fun s k v hg => by
             show (s.Set k v).chainID ≠ ""
             rw [State.chainID_Set]; exact hg
           obs_GetChainID := fun s hg => by rw [State.GetChainID_of_ne E s hg]
           good_GetChainID := fun s hg => by
             show (s.GetChainID E).2.chainID ≠ ""
             rw [State.GetChainID_of_ne E s hg]; exact hg } : Kept E String)
        s1 pgz tx chk res s' h (by show s1.chainID ≠ ""; rw [h1]; exact hc)
      exact hk.1.trans h1
  · intro s1 c' _
    exact State.GetChainID_SetChainID E s1 c'
  · intro A app c' _
    unfold Basecoin.SetOption
    rw [splitKey_base_chain_id]
    simp only [PluginNameBase, ne_eq, not_true_eq_false, if_false, if_true]
    exact State.GetChainID_SetChainID E app.state c'

/-- C19, witness: with the chain id set to `test`, a write of another value
to the key `base/chain_id` leaves `GetChainID` returning `test`, and
`SetChainID("other")` makes it return `other`. -/
theorem chainID_kept_until_reset_witness :
    (((demoState.SetChainID "test").Set "base/chain_id" (Value.bytes "other")).GetChainID
      refEnv).1 = "test" ∧
    (((demoState.SetChainID "test").SetChainID "other").GetChainID refEnv).1 = "other" := by
  obtain ⟨hset, hkeep, hreset, _⟩ := chainID_kept_until_reset refEnv "test" (by decide)
  constructor
  · have h1 := ((hkeep (demoState.SetChainID "test") (hset demoState)).2.1
      "base/chain_id" (Value.bytes "other"))
    rw [((hkeep _ h1).1)]
  · exact hreset (demoState.SetChainID "test") "other" (hset demoState)

/-- C19 as stated fails: the chain id of the committed state of
`demoApplication` has been set to `test`, and `GetChainID` returns `test`;
after `SetChainID("other")`, and likewise after
`SetOption("base/chain_id", "other")`, `GetChainID` returns `other`. -/
theorem chainID_not_immutable :
    (demoApplication.state.GetChainID refEnv).1 = "test" ∧
    ((demoApplication.state.SetChainID "other").GetChainID refEnv).1 = "other" ∧
    ((demoApplication.SetOption refAppEnv "base/chain_id" "other").2.state.GetChainID
      refEnv).1 = "other" := by
  decide

/-! ## CheckTx -/

/-- The `AppTx` case never aborts. -/
theorem execAppTx_total (E : Env) (st : State) (pgz : Plugins) (cid : String) (tx : AppTx)
    (chk : Bool) : ∃ res s', execAppTx E st pgz cid tx chk = some (res, s') := by
  by_cases h1 : (E.inputValidateBasic tx.input).IsErr = true
  · exact ⟨_, st, by unfold execAppTx; rw [if_pos h1]⟩
  cases hacc : st.GetAccount tx.input.address with
  | none => exact ⟨_, st, by unfold execAppTx; rw [if_neg h1, hacc]⟩
  | some acc =>
    rw [execAppTx_loaded E st pgz cid tx chk acc (by simpa using h1) hacc]
    by_cases h3 : (validateInputAdvanced E (withInputKey tx.input acc) (E.appSignBytes cid tx)
        tx.input).IsErr = true
    · rw [if_pos h3]; exact ⟨_, _, rfl⟩
    rw [if_neg h3]
    by_cases h4 : (!tx.input.coins.IsGTE [tx.fee]) = true
    · rw [if_pos h4]; exact ⟨_, _, rfl⟩
    rw [if_neg h4]
    cases pgz.GetByName tx.name with
    | none => exact ⟨_, _, rfl⟩
    | some plugin =>
      dsimp only
      by_cases h5 : chk = true
      · rw [if_pos h5]; exact ⟨_, _, rfl⟩
      rw [if_neg h5]
      by_cases h6 : (plugin.RunTx (appCache st tx acc) (appContext tx acc) tx.data).1.IsOK = true
      · rw [if_pos h6]; exact ⟨_, _, rfl⟩
      · rw [if_neg h6]; exact ⟨_, _, rfl⟩

/-- `ExecTx` never aborts: every transaction gets a result. -/
theorem ExecTx_total (E : Env) (s : State) (pgz : Plugins) (tx : Tx) (chk : Bool) :
    ∃ res s', ExecTx E s pgz tx chk = some (res, s') := by
  cases tx with
  | send stx =>
    obtain ⟨res, h⟩ := execSendTx_result E (s.GetChainID E).2 (s.GetChainID E).1 stx
    obtain ⟨s', hs⟩ := h chk
    exact ⟨res, s', hs⟩
  | app atx => exact execAppTx_total E _ pgz _ atx chk
  | unknown => exact ⟨_, _, rfl⟩

/-- `ExecTx` on a scratch state writes to its buffer only: the parent is the
same afterwards. -/
theorem ExecTx_parent (E : Env) (s : State) (pgz : Plugins) (tx : Tx) (chk : Bool)
    (res : Result) (s' : State) (h : ExecTx E s pgz tx chk = some (res, s')) :
    s'.parent? = s.parent? :=
  (Kept.through_ExecTx
    ({ obs := State.parent?
       good := fun _ => True
       obs_Set := State.parent?_Set
       good_Set := fun _ _ _ _ => trivial
       obs_GetChainID := fun s _ => by
         unfold State.GetChainID
         split_ifs
         · rfl
         · cases s <;> rfl
       good_GetChainID := fun _ _ => trivial } : Kept E (Option State))
    s pgz tx chk res s' h trivial).1

/-- C20: in an application with a check state, made from the committed state,
`CheckTx` returns for every byte string, and leaves the committed state as it
was, so that every key read through it returns the same value, whether the
transaction is rejected or accepted and whatever its kind; on success the
result is the bare OK; and the check state afterwards is still a scratch
layer of the committed state. -/
theorem checkTx_keeps_committed (A : AppEnv) (app : Basecoin) (txBytes : String)
    (cache : State) (hc : app.cacheState = some cache)
    (hp : cache.parent? = some app.state) :
    ∃ res app', app.CheckTx A txBytes = some (res, app') ∧
      app'.state = app.state ∧
      (∀ k, app'.state.Get k = app.state.Get k) ∧
      (res.code = CodeType.OK → res = Result.OK) ∧
      ∃ cache', app'.cacheState = some cache' ∧ cache'.parent? = some app.state := by
  unfold Basecoin.CheckTx
  by_cases hlen : txBytes.length > maxTxSize
  · rw [if_pos hlen]
    exact ⟨_, app, rfl, rfl, fun _ => rfl, (fun h => by cases h), cache, hc, hp⟩
  rw [if_neg hlen]
  cases A.decodeTx txBytes with
  | none => exact ⟨_, app, rfl, rfl, fun _ => rfl, (fun h => by cases h), cache, hc, hp⟩
  | some tx =>
    dsimp only
    rw [hc]
    dsimp only
    obtain ⟨res, cache', hex⟩ := ExecTx_total A.env cache app.plugins tx true
    have hpar := (ExecTx_parent A.env cache app.plugins tx true res cache' hex).trans hp
    rw [hex]
    dsimp only
    rw [hpar]
    by_cases herr : res.IsErr = true
    · rw [if_pos herr]
      refine ⟨res, _, rfl, rfl, fun _ => rfl, ?_, cache', rfl, hpar⟩
      intro hOK
      exact absurd hOK (Result.code_ne_OK_of_IsErr herr)
    · rw [if_neg herr]
      exact ⟨Result.OK, _, rfl, rfl, fun _ => rfl, fun _ => rfl, cache', rfl, hpar⟩

/-- C20, witness: on `demoApplication`, `CheckTx` of the bytes `send` (the
transfer of 30 atoms from `A` to `B`, for which the engine returns the
transaction id as data) returns the bare OK, and `CheckTx` of the bytes
`call-unknown` returns UnknownAddress; after either, `A` reads through the
committed state as before, with atom:100 at sequence 5. -/
theorem checkTx_keeps_committed_witness :
    (∃ app', demoApplication.CheckTx refAppEnv "send" = some (Result.OK, app') ∧
      app'.state.GetAccount "A"
        = some { pubKey := ⟨some "ka"⟩, sequence := 5, balance := [⟨"atom", 100⟩] }) ∧
    (∃ app', demoApplication.CheckTx refAppEnv "call-unknown"
        = some (Result.err CodeType.BaseUnknownAddress, app') ∧
      app'.state.GetAccount "A"
        = some { pubKey := ⟨some "ka"⟩, sequence := 5, balance := [⟨"atom", 100⟩] }) := by
  have hA : demoApplication.state.GetAccount "A"
      = some { pubKey := ⟨some "ka"⟩, sequence := 5, balance := [⟨"atom", 100⟩] } := by
    decide
  constructor
  · obtain ⟨res, app', h, hst, _, _, _⟩ := checkTx_keeps_committed refAppEnv demoApplication
      "send" _ rfl rfl
    have hres : (demoApplication.CheckTx refAppEnv "send").map Prod.fst = some Result.OK := by
      decide
    rw [h] at hres
    simp only [Option.map_some', Option.some.injEq] at hres
    rw [hres] at h
    exact ⟨app', h, by rw [hst]; exact hA⟩
  · obtain ⟨res, app', h, hst, _, _, _⟩ := checkTx_keeps_committed refAppEnv demoApplication
      "call-unknown" _ rfl rfl
    have hres : (demoApplication.CheckTx refAppEnv "call-unknown").map Prod.fst
        = some (Result.err CodeType.BaseUnknownAddress) := by
      decide
    rw [h] at hres
    simp only [Option.map_some', Option.some.injEq] at hres
    rw [hres] at h
    exact ⟨app', h, by rw [hst]; exact hA⟩

/-! ## The decision order of `validateInputAdvanced` -/

/-- C25: `validateInputAdvanced` decides in a fixed order. It returns
InvalidSequence if the sequence of the account plus one is not the sequence of
the input, whatever the balance and the signature; otherwise InsufficientFunds
if the balance is not greater than or equal to the input coins; otherwise
InvalidSignature if the signature does not verify over the sign-bytes under
the public key of the account; otherwise OK. So it returns OK exactly when
the three checks pass. Its only output is the result: it writes neither the
account nor the input. -/
theorem validateInputAdvanced_order (E : Env) (acc : Account) (signBytes : String)
    (inp : TxInput) :
    (acc.sequence + 1 ≠ inp.sequence →
      validateInputAdvanced E acc signBytes inp = Result.err CodeType.BaseInvalidSequence) ∧
    (acc.sequence + 1 = inp.sequence → acc.balance.IsGTE inp.coins = false →
      validateInputAdvanced E acc signBytes inp
        = Result.err CodeType.BaseInsufficientFunds) ∧
    (acc.sequence + 1 = inp.sequence → acc.balance.IsGTE inp.coins = true →
      E.verifyBytes acc.pubKey signBytes inp.signature = false →
      validateInputAdvanced E acc signBytes inp
        = Result.err CodeType.BaseInvalidSignature) ∧
    (validateInputAdvanced E acc signBytes inp = Result.OK ↔
      acc.sequence + 1 = inp.sequence ∧ acc.balance.IsGTE inp.coins = true ∧
      E.verifyBytes acc.pubKey signBytes inp.signature = true) := by
  refine ⟨?_, ?_, ?_, ?_⟩
  · intro h
    exact validateInputAdvanced_wrong_sequence E acc signBytes inp h
  · intro hseq hbal
    unfold validateInputAdvanced
    rw [if_neg (not_not.mpr hseq), hbal]
    rfl
  · intro hseq hbal hver
    rw [validateInputAdvanced_of_seq_bal E acc signBytes inp hseq hbal, hver]
    rfl
  · constructor
    · intro hok
      have herr : (validateInputAdvanced E acc signBytes inp).IsErr = false := by
        rw [hok]; rfl
      refine ⟨?_, validateInputAdvanced_ok_balance E _ _ _ herr,
        validateInputAdvanced_ok_verifies E _ _ _ herr⟩
      by_contra hseq
      rw [validateInputAdvanced_wrong_sequence E acc signBytes inp hseq] at hok
      cases hok
    · rintro ⟨hseq, hbal, hver⟩
      rw [validateInputAdvanced_of_seq_bal E acc signBytes inp hseq hbal, hver]
      rfl

/-- C25, witness: the account of `A` (atom:100, sequence 5, key `ka`) against
inputs of `A`: the sequence 9 gives InvalidSequence even with 500 atoms and no
valid signature; the sequence 6 with 500 atoms gives InsufficientFunds; the
sequence 6 with 30 atoms and a forged signature gives InvalidSignature; and
the sequence 6 with 30 atoms and the signature of `ka` gives OK. -/
theorem validateInputAdvanced_order_witness :
    validateInputAdvanced refEnv
        { pubKey := ⟨some "ka"⟩, sequence := 5, balance := [⟨"atom", 100⟩] } "test:send"
        { address := "A", coins := [⟨"atom", 500⟩], sequence := 9, signature := "forged",
          pubKey := ⟨none⟩ } = Result.err CodeType.BaseInvalidSequence ∧
    validateInputAdvanced refEnv
        { pubKey := ⟨some "ka"⟩, sequence := 5, balance := [⟨"atom", 100⟩] } "test:send"
        { address := "A", coins := [⟨"atom", 500⟩], sequence := 6, signature := "forged",
          pubKey := ⟨none⟩ } = Result.err CodeType.BaseInsufficientFunds ∧
    validateInputAdvanced refEnv
        { pubKey := ⟨some "ka"⟩, sequence := 5, balance := [⟨"atom", 100⟩] } "test:send"
        { address := "A", coins := [⟨"atom", 30⟩], sequence := 6, signature := "forged",
          pubKey := ⟨none⟩ } = Result.err CodeType.BaseInvalidSignature ∧
    validateInputAdvanced refEnv
        { pubKey := ⟨some "ka"⟩, sequence := 5, balance := [⟨"atom", 100⟩] } "test:send"
        (demoInput 30 "test:send") = Result.OK :=
  ⟨(validateInputAdvanced_order refEnv _ "test:send" _).1 (by decide),
   (validateInputAdvanced_order refEnv _ "test:send" _).2.1 (by decide) (by decide),
   (validateInputAdvanced_order refEnv _ "test:send" _).2.2.1 (by decide) (by decide)
     (by decide),
   (validateInputAdvanced_order refEnv _ "test:send" _).2.2.2.mpr
     ⟨by decide, by decide, by decide⟩⟩

/-! ## No fatal abort on a `SendTx` -/

/-- C24: for every state, every mode and every `SendTx`, `ExecTx` returns a
result and a state: it never reaches a `PanicSanity` abort. Whenever the
accounts map has been built (both `getInputs` and `getOrMakeOutputs`
succeeded), every input address and every local output address is a key of
it, so `validateInputsAdvanced` returns; whenever `validateInputsAdvanced` has
passed, the balance of every input account in the map is greater than or
equal to its input coins and the input addresses are distinct, so
`adjustByInputs` returns, and the map that it hands on to `adjustByOutputs`
still has every local output address as a key, so `adjustByOutputs` returns
in either mode. -/
theorem sendTx_never_aborts (E : Env) (s : State) (pgz : Plugins) (stx : SendTx)
    (chk : Bool) :
    (∃ res s', ExecTx E s pgz (Tx.send stx) chk = some (res, s')) ∧
    ((getInputs (s.GetChainID E).2 stx.inputs).2.IsErr = false →
     (getOrMakeOutputs (s.GetChainID E).2 (getInputs (s.GetChainID E).2 stx.inputs).1
        stx.outputs).2.IsErr = false →
      (∀ inp ∈ stx.inputs,
        ((getOrMakeOutputs (s.GetChainID E).2 (getInputs (s.GetChainID E).2 stx.inputs).1
          stx.outputs).1 inp.address).isSome = true) ∧
      (∀ a ∈ localAddresses stx.outputs,
        ((getOrMakeOutputs (s.GetChainID E).2 (getInputs (s.GetChainID E).2 stx.inputs).1
          stx.outputs).1 a).isSome = true) ∧
      (∃ t r, validateInputsAdvanced E
        (getOrMakeOutputs (s.GetChainID E).2 (getInputs (s.GetChainID E).2 stx.inputs).1
          stx.outputs).1 (E.sendSignBytes (s.GetChainID E).1 stx) stx.inputs = some (t, r)) ∧
      (∀ t r, validateInputsAdvanced E
        (getOrMakeOutputs (s.GetChainID E).2 (getInputs (s.GetChainID E).2 stx.inputs).1
          stx.outputs).1 (E.sendSignBytes (s.GetChainID E).1 stx) stx.inputs = some (t, r) →
        r.IsErr = false →
        (stx.inputs.map (fun i => i.address)).Nodup ∧
        (∀ inp ∈ stx.inputs, ∃ acc,
          (getOrMakeOutputs (s.GetChainID E).2 (getInputs (s.GetChainID E).2 stx.inputs).1
            stx.outputs).1 inp.address = some acc ∧
          acc.balance.IsGTE inp.coins = true) ∧
        ∃ st1 acc1, adjustByInputs (s.GetChainID E).2
          (getOrMakeOutputs (s.GetChainID E).2 (getInputs (s.GetChainID E).2 stx.inputs).1
            stx.outputs).1 stx.inputs = some (st1, acc1) ∧
          (∀ a ∈ localAddresses stx.outputs, (acc1 a).isSome = true) ∧
          ∀ mode, ∃ st2 acc2, adjustByOutputs E st1 acc1 stx.outputs mode
            = some (st2, acc2))) := by
  constructor
  · obtain ⟨res, h⟩ := execSendTx_result E (s.GetChainID E).2 (s.GetChainID E).1 stx
    obtain ⟨s', hs⟩ := h chk
    exact ⟨res, s', hs⟩
  · intro h3 h4
    have hacc := sendAccounts_input (s.GetChainID E).2 stx h3 h4
    obtain ⟨ind, _, _, _⟩ := getInputsLoop_ok (s.GetChainID E).2 stx.inputs AccMap.empty _ _ rfl h3
    obtain ⟨_, _, oload, _⟩ := getOrMakeOutputs_ok (s.GetChainID E).2 stx.outputs _ _ _ rfl h4
    have hin : ∀ inp ∈ stx.inputs,
        ((getOrMakeOutputs (s.GetChainID E).2 (getInputs (s.GetChainID E).2 stx.inputs).1
          stx.outputs).1 inp.address).isSome = true := by
      intro inp hi
      obtain ⟨a, _, ha⟩ := hacc inp hi
      rw [ha]; rfl
    have hout : ∀ a ∈ localAddresses stx.outputs,
        ((getOrMakeOutputs (s.GetChainID E).2 (getInputs (s.GetChainID E).2 stx.inputs).1
          stx.outputs).1 a).isSome = true := by
      intro a ha
      rw [oload a ha]; rfl
    refine ⟨hin, hout, ?_, ?_⟩
    · exact validateInputsAdvancedLoop_total_fn E _ _ stx.inputs []
        (fun i hi => by obtain ⟨a, _, ha⟩ := hacc i hi; exact ⟨_, ha⟩)
    · intro t r hv hr
      have hbal : ∀ inp ∈ stx.inputs, ∃ acc,
          (getOrMakeOutputs (s.GetChainID E).2 (getInputs (s.GetChainID E).2 stx.inputs).1
            stx.outputs).1 inp.address = some acc ∧
          acc.balance.IsGTE inp.coins = true := by
        intro i hi
        obtain ⟨a, ha1, ha2⟩ := validateInputsAdvancedLoop_ok_all E _ _ _ _ t r hv hr i hi
        exact ⟨a, ha1, validateInputAdvanced_ok_balance E _ _ _ ha2⟩
      obtain ⟨st1, acc1, ha, hkeys⟩ := adjustByInputs_total stx.inputs (s.GetChainID E).2
        (getOrMakeOutputs (s.GetChainID E).2 (getInputs (s.GetChainID E).2 stx.inputs).1
          stx.outputs).1 ind hbal
      refine ⟨ind, hbal, st1, acc1, ha, fun a hmem => hkeys a (hout a hmem), fun mode => ?_⟩
      exact adjustByOutputs_total E stx.outputs st1 acc1 mode
        (fun a hmem => hkeys a (hout a hmem))

/-- C24, witness: the transfer of 30 atoms from `A` to `B` on the scenario
state builds its accounts map, passes the per-input checks and runs both
adjustments; it is accepted in delivery mode. -/
theorem sendTx_never_aborts_witness :
    (getInputs (demoState.GetChainID refEnv).2 (demoSend 30 ⟨"atom", 0⟩).inputs).2.IsErr
      = false ∧
    (getOrMakeOutputs (demoState.GetChainID refEnv).2
      (getInputs (demoState.GetChainID refEnv).2 (demoSend 30 ⟨"atom", 0⟩).inputs).1
      (demoSend 30 ⟨"atom", 0⟩).outputs).2.IsErr = false ∧
    (∃ res s', ExecTx refEnv demoState noPlugins (Tx.send (demoSend 30 ⟨"atom", 0⟩)) false
      = some (res, s')) ∧
    (∀ a ∈ localAddresses (demoSend 30 ⟨"atom", 0⟩).outputs,
      ((getOrMakeOutputs (demoState.GetChainID refEnv).2
        (getInputs (demoState.GetChainID refEnv).2 (demoSend 30 ⟨"atom", 0⟩).inputs).1
        (demoSend 30 ⟨"atom", 0⟩).outputs).1 a).isSome = true) :=
  ⟨by decide, by decide,
   (sendTx_never_aborts refEnv demoState noPlugins (demoSend 30 ⟨"atom", 0⟩) false).1,
   ((sendTx_never_aborts refEnv demoState noPlugins (demoSend 30 ⟨"atom", 0⟩) false).2
     (by decide) (by decide)).2.1⟩

/-! ## The conservation check with a fee that is not valid -/

/-- A `SendTx` that passes the earlier checks and whose totals agree is
accepted: both adjustments return. -/
theorem execSendTx_accept (E : Env) (st : State) (cid : String) (tx : SendTx)
    (chk : Bool) (t : Coins) (r : Result)
    (h1 : (validateInputsBasic E tx.inputs).IsErr = false)
    (h2 : (validateOutputsBasic E tx.outputs).IsErr = false)
    (h3 : (getInputs st tx.inputs).2.IsErr = false)
    (h4 : (getOrMakeOutputs st (getInputs st tx.inputs).1 tx.outputs).2.IsErr = false)
    (h5 : validateInputsAdvanced E (getOrMakeOutputs st (getInputs st tx.inputs).1 tx.outputs).1
      (E.sendSignBytes cid tx) tx.inputs = some (t, r))
    (h6 : r.IsErr = false)
    (h7 : t.IsEqual (if Coins.IsValid [tx.fee] = true then (sumOutputs tx.outputs).Plus [tx.fee]
      else sumOutputs tx.outputs) = true) :
    ∃ s', execSendTx E st cid tx chk = some (Result.NewResultOK (E.txID cid tx), s') := by
  obtain ⟨ind, _, _, _⟩ := getInputsLoop_ok st tx.inputs AccMap.empty _ _ rfl h3
  obtain ⟨_, _, oload, _⟩ := getOrMakeOutputs_ok st tx.outputs _ _ _ rfl h4
  obtain ⟨st1, acc1, ha, hkeys⟩ := adjustByInputs_total tx.inputs st
    (getOrMakeOutputs st (getInputs st tx.inputs).1 tx.outputs).1 ind
    (fun i hi => by
      obtain ⟨a, ha1, ha2⟩ := validateInputsAdvancedLoop_ok_all E _ _ _ _ t r h5 h6 i hi
      exact ⟨a, ha1, validateInputAdvanced_ok_balance E _ _ _ ha2⟩)
  obtain ⟨st2, acc2, hb⟩ := adjustByOutputs_total E tx.outputs st1 acc1 chk
    (fun a hmem => hkeys a (by rw [oload a hmem]; rfl))
  refine ⟨st2, ?_⟩
  unfold execSendTx
  simp [h1, h2, h3, h4, h5, h6, h7, ha, hb]

/-- C26: for every state, every mode and every `SendTx` that passes all the
checks before the conservation check and whose fee fails the coins validity
check, the fee counts as nothing in the sum: `ExecTx` accepts the transaction
(result OK with the transaction id) exactly when, in every denomination, the
sum of the input coins equals the sum of the output coins alone, and
otherwise it returns InvalidOutput, every key of the state reading as
before. -/
theorem invalid_fee_counts_as_zero (E : Env) (s : State) (pgz : Plugins) (tx : SendTx)
    (isCheckTx : Bool)
    (hpass : sendPassesChecks E s tx = true) (hfee : Coins.IsValid [tx.fee] = false) :
    ((∀ d, (tx.inputs.map (fun i => i.coins.amountOf d)).sum
        = (tx.outputs.map (fun o => o.coins.amountOf d)).sum) →
      ∃ s', ExecTx E s pgz (Tx.send tx) isCheckTx
        = some (Result.NewResultOK (E.txID (s.GetChainID E).1 tx), s')) ∧
    ((∃ d, (tx.inputs.map (fun i => i.coins.amountOf d)).sum
        ≠ (tx.outputs.map (fun o => o.coins.amountOf d)).sum) →
      ∃ s', ExecTx E s pgz (Tx.send tx) isCheckTx
          = some (Result.err CodeType.BaseInvalidOutput, s') ∧
        ∀ k, s'.Get k = s.Get k) ∧
    (∀ res s', ExecTx E s pgz (Tx.send tx) isCheckTx = some (res, s') →
      (res.code = CodeType.OK ↔
        ∀ d, (tx.inputs.map (fun i => i.coins.amountOf d)).sum
          = (tx.outputs.map (fun o => o.coins.amountOf d)).sum)) := by
  obtain ⟨h1, h2, h3, h4, t, r, h5, h6⟩ := execSendTx_GetChainID_pass E s tx hpass
  have hzero : ∀ d, countedFee tx.fee d = 0 := by
    intro d; unfold countedFee; rw [hfee]; rfl
  have hsum : ∀ d, Coins.amountOf t d = (tx.inputs.map (fun i => i.coins.amountOf d)).sum :=
    amountOf_inTotal E _ _ _ t r h5 h6
  have hout : ∀ d, Coins.amountOf (if Coins.IsValid [tx.fee] = true
        then (sumOutputs tx.outputs).Plus [tx.fee] else sumOutputs tx.outputs) d
      = (tx.outputs.map (fun o => o.coins.amountOf d)).sum := by
    intro d; rw [amountOf_outPlusFees, hzero, add_zero]
  have haccept : (∀ d, (tx.inputs.map (fun i => i.coins.amountOf d)).sum
        = (tx.outputs.map (fun o => o.coins.amountOf d)).sum) →
      ∃ s', ExecTx E s pgz (Tx.send tx) isCheckTx
        = some (Result.NewResultOK (E.txID (s.GetChainID E).1 tx), s') := by
    intro heq
    apply execSendTx_accept E _ _ tx isCheckTx t r h1 h2 h3 h4 h5 h6
    rw [Coins.IsEqual_iff]
    intro d
    rw [hsum, hout, heq]
  have hreject : (∃ d, (tx.inputs.map (fun i => i.coins.amountOf d)).sum
        ≠ (tx.outputs.map (fun o => o.coins.amountOf d)).sum) →
      ExecTx E s pgz (Tx.send tx) isCheckTx
          = some (Result.err CodeType.BaseInvalidOutput, (s.GetChainID E).2) := by
    rintro ⟨d, hd⟩
    apply execSendTx_invalidOutput E _ _ tx isCheckTx t r h1 h2 h3 h4 h5 h6
    rw [Bool.eq_false_iff]
    intro heq
    apply hd
    rw [← hsum, ← hout]
    exact (Coins.IsEqual_iff _ _).mp heq d
  refine ⟨haccept, fun hd => ⟨_, hreject hd, State.Get_GetChainID E s⟩, ?_⟩
  intro res s' h
  constructor
  · intro hOK
    by_contra hne
    push_neg at hne
    rw [hreject hne] at h
    simp only [Option.some.injEq, Prod.mk.injEq] at h
    rw [← h.1] at hOK
    cases hOK
  · intro heq
    obtain ⟨s2, h2'⟩ := haccept heq
    rw [h2'] at h
    simp only [Option.some.injEq, Prod.mk.injEq] at h
    rw [← h.1]
    rfl

/-- C26, witness: with `A` holding atom:100 at sequence 5 and the fee atom:-5,
which fails the coins validity check, the transfer of 30 atoms in and 30 atoms
out is accepted, and the transfer of 30 atoms in and 25 atoms out is rejected
with InvalidOutput, the state reading as before. -/
theorem invalid_fee_counts_as_zero_witness :
    (sendPassesChecks refEnv demoState (demoSend 30 ⟨"atom", -5⟩) = true ∧
     Coins.IsValid [(demoSend 30 ⟨"atom", -5⟩).fee] = false ∧
     ∃ s', ExecTx refEnv demoState noPlugins (Tx.send (demoSend 30 ⟨"atom", -5⟩)) false
        = some (Result.NewResultOK
            (refEnv.txID (demoState.GetChainID refEnv).1 (demoSend 30 ⟨"atom", -5⟩)), s')) ∧
    (sendPassesChecks refEnv demoState (demoSend 25 ⟨"atom", -5⟩) = true ∧
     Coins.IsValid [(demoSend 25 ⟨"atom", -5⟩).fee] = false ∧
     ∃ s', ExecTx refEnv demoState noPlugins (Tx.send (demoSend 25 ⟨"atom", -5⟩)) false
          = some (Result.err CodeType.BaseInvalidOutput, s') ∧
        ∀ k, s'.Get k = demoState.Get k) :=
  ⟨⟨by decide, by decide,
    (invalid_fee_counts_as_zero refEnv demoState noPlugins (demoSend 30 ⟨"atom", -5⟩) false
      (by decide) (by decide)).1
      (fun d => by simp [demoSend, demoInput, Coins.amountOf_cons, Coins.amountOf_nil])⟩,
   ⟨by decide, by decide,
    (invalid_fee_counts_as_zero refEnv demoState noPlugins (demoSend 25 ⟨"atom", -5⟩) false
      (by decide) (by decide)).2.1 ⟨"atom", by decide⟩⟩⟩

/-! ## `splitKey` and the routing of `SetOption` -/

/-- A list with a `'/'` is what comes before the first one, the `'/'`, and
what comes after it. -/
theorem split_at_first_slash (l : List Char) (h : '/' ∈ l) :
    l = l.takeWhile (fun c => c ≠ '/') ++ '/' :: (l.dropWhile (fun c => c ≠ '/')).drop 1 := by
  induction l with
  | nil => cases h
  | cons c rest ih =>
    by_cases hc : c = '/'
    · subst hc
      simp [List.takeWhile, List.dropWhile]
    · have hr : '/' ∈ rest := by
        rcases List.mem_cons.mp h with h1 | h1
        · exact absurd h1.symm hc
        · exact h1
      have e1 : (c :: rest).takeWhile (fun c => c ≠ '/')
          = c :: rest.takeWhile (fun c => c ≠ '/') := by
        simp [List.takeWhile, hc]
      have e2 : (c :: rest).dropWhile (fun c => c ≠ '/')
          = rest.dropWhile (fun c => c ≠ '/') := by
        simp [List.dropWhile, hc]
      rw [e1, e2, List.cons_append, ← ih hr]

theorem no_slash_before_first (l : List Char) : '/' ∉ l.takeWhile (fun c => c ≠ '/') := by
  intro h
  have := List.mem_takeWhile_imp h
  simp at this

/-- The prefix of a key is `base` exactly when the key is `base` or starts
with `base/`. -/
theorem splitKey_prefix_base (key : String) :
    (splitKey key).1 = PluginNameBase ↔ key = "base" ∨ ∃ s : String, key = "base/" ++ s := by
  unfold splitKey PluginNameBase
  by_cases h : '/' ∈ key.data
  · rw [if_pos h]
    constructor
    · intro hp
      right
      refine ⟨String.mk ((key.data.dropWhile (fun c => c ≠ '/')).drop 1), ?_⟩
      apply String.ext
      have hd : key.data.takeWhile (fun c => c ≠ '/') = "base".data := by
        have := congrArg String.data hp
        exact this
      rw [String.data_append]
      conv_lhs => rw [split_at_first_slash key.data h, hd]
      rfl
    · rintro (hk | ⟨s, hk⟩)
      · subst hk
        exact absurd h (by decide)
      · subst hk
        apply String.ext
        rw [String.data_append]
        rfl
  · rw [if_neg h]
    constructor
    · intro hp; exact Or.inl hp
    · rintro (hk | ⟨s, hk⟩)
      · exact hk
      · exfalso
        apply h
        rw [hk, String.data_append]
        exact List.mem_append_left _ (by decide)

/-- C27: `splitKey` splits at the first `'/'`. For a key with a `'/'` it
returns a prefix with no `'/'` and a suffix such that prefix, `"/"` and suffix
make up the key; for a key with no `'/'` it returns the key and the empty
string. Hence `SetOption` routes a key to the base component (the `chain_id`
and `account` options) exactly when the key is `base` or starts with `base/`,
and to the plugin registry, under the prefix as plugin name, otherwise. -/
theorem splitKey_spec (key : String) :
    ('/' ∈ key.data →
      '/' ∉ (splitKey key).1.data ∧ (splitKey key).1 ++ "/" ++ (splitKey key).2 = key) ∧
    ('/' ∉ key.data → splitKey key = (key, "")) ∧
    ((splitKey key).1 = PluginNameBase ↔ key = "base" ∨ ∃ s : String, key = "base/" ++ s) ∧
    (∀ (A : AppEnv) (app : Basecoin) (value : String),
      ((key = "base" ∨ ∃ s : String, key = "base/" ++ s) →
        app.SetOption A key value =
          if (splitKey key).2 = "chain_id" then
            ("Success", { app with
              state := app.state.SetChainID value,
              cacheState := app.cacheState.map
                (fun c => c.withParent (app.state.SetChainID value)) })
          else if (splitKey key).2 = "account" then
            match A.decodeGenesisAccount value with
            | GenesisDecode.jsonError msg => ("Error decoding acc message: " ++ msg, app)
            | GenesisDecode.addrError msg => ("Invalid address: " ++ msg, app)
            | GenesisDecode.ok addr acc =>
              ("Success", { app with
                state := app.state.SetAccount addr acc,
                cacheState := app.cacheState.map
                  (fun c => c.withParent (app.state.SetAccount addr acc)) })
          else ("Unrecognized option key " ++ (splitKey key).2, app)) ∧
      (¬ (key = "base" ∨ ∃ s : String, key = "base/" ++ s) →
        app.SetOption A key value =
          match app.plugins.GetByName (splitKey key).1 with
          | none => ("Invalid plugin name: " ++ (splitKey key).1, app)
          | some plugin =>
            ((plugin.SetOption app.state (splitKey key).2 value).1,
              { app with
                state := app.state.applyWrites
                  (plugin.SetOption app.state (splitKey key).2 value).2,
                cacheState := app.cacheState.map (fun c => c.withParent
                  (app.state.applyWrites
                    (plugin.SetOption app.state (splitKey key).2 value).2)) }))) := by
  refine ⟨?_, ?_, splitKey_prefix_base key, ?_⟩
  · intro h
    unfold splitKey
    rw [if_pos h]
    refine ⟨no_slash_before_first key.data, ?_⟩
    apply String.ext
    rw [String.data_append, String.data_append]
    conv_rhs => rw [split_at_first_slash key.data h]
    simp
  · intro h
    unfold splitKey
    rw [if_neg h]
  · intro A app value
    constructor
    · intro hb
      have hp : (splitKey key).1 = PluginNameBase := (splitKey_prefix_base key).mpr hb
      unfold Basecoin.SetOption
      simp only [hp, ne_eq, not_true_eq_false, if_false]
    · intro hb
      have hp : (splitKey key).1 ≠ PluginNameBase := fun e => hb ((splitKey_prefix_base key).mp e)
      unfold Basecoin.SetOption
      simp only [ne_eq, hp, not_false_eq_true, if_true]

/-- C27, witness: `base/chain_id` splits into `base` and `chain_id` and is
routed to the base component, where it sets the chain id; `counter/step/x`
splits at the first `'/'` only, and `counter` alone is not split; neither is
routed to the base component: with no plugin of the name `counter`, the option
is refused as an invalid plugin name. -/
theorem splitKey_spec_witness :
    ('/' ∉ (splitKey "counter/step/x").1.data ∧
      (splitKey "counter/step/x").1 ++ "/" ++ (splitKey "counter/step/x").2
        = "counter/step/x") ∧
    splitKey "counter/step/x" = ("counter", "step/x") ∧
    splitKey "counter" = ("counter", "") ∧
    (demoApplication.SetOption refAppEnv "base/chain_id" "other").1 = "Success" ∧
    (demoApplication.SetOption refAppEnv "base/chain_id" "other").2.state.chainID = "other" ∧
    (demoApplication.SetOption refAppEnv "counter/step/x" "1").1
      = "Invalid plugin name: counter" :=
  ⟨(splitKey_spec "counter/step/x").1 (by decide), by decide,
   (splitKey_spec "counter").2.1 (by decide),
   by rw [((splitKey_spec "base/chain_id").2.2.2 refAppEnv demoApplication "other").1
        (Or.inr ⟨"chain_id", by decide⟩)]; decide,
   by rw [((splitKey_spec "base/chain_id").2.2.2 refAppEnv demoApplication "other").1
        (Or.inr ⟨"chain_id", by decide⟩)]; decide,
   by rw [((splitKey_spec "counter/step/x").2.2.2 refAppEnv demoApplication "1").2
        (by
          rintro (h | ⟨s, h⟩)
          · exact absurd h (by decide)
          · have := congrArg (fun k : String => k.data.take 5) h
            simp [String.data_append] at this)]; decide⟩

/-! ## The two handles of the application -/

theorem State.parent?_withParent (c p q : State) (h : c.parent? = some p) :
    (c.withParent q).parent? = some q := by
  cases c with
  | root _ _ _ _ => cases h
  | wrap _ _ _ => rfl

theorem State.parent?_SetChainID (s : State) (c : String) :
    (s.SetChainID c).parent? = s.parent? := by
  cases s <;> rfl

theorem State.parent?_SetAccount (s : State) (a : String) (acc : Account) :
    (s.SetAccount a acc).parent? = s.parent? :=
  State.parent?_Set s _ _

/-- A write to the committed state keeps the two handles: the check state
points to the committed state as it now is. -/
theorem Basecoin.twoHandles_write (app : Basecoin) (state' : State) (h : app.twoHandles)
    (hp : state'.parent? = app.state.parent?) :
    Basecoin.twoHandles
      (Basecoin.mk state' (app.cacheState.map (fun c => c.withParent state')) app.plugins) := by
  obtain ⟨hroot, cache, hc, hcp⟩ := h
  refine ⟨hp.trans hroot, cache.withParent state', ?_, State.parent?_withParent _ _ _ hcp⟩
  show Option.map _ app.cacheState = _
  rw [hc]; rfl

theorem Basecoin.SetOption_twoHandles (A : AppEnv) (app : Basecoin) (key value : String)
    (h : app.twoHandles) : (app.SetOption A key value).2.twoHandles := by
  unfold Basecoin.SetOption
  dsimp only
  split_ifs with h1 h2 h3
  · cases hg : app.plugins.GetByName (splitKey key).1 with
    | none => exact h
    | some plugin =>
      exact Basecoin.twoHandles_write app _ h (State.parent?_applyWrites _ _)
  · exact Basecoin.twoHandles_write app _ h (State.parent?_SetChainID _ _)
  · cases hd : A.decodeGenesisAccount value with
    | jsonError msg => exact h
    | addrError msg => exact h
    | ok addr acc => exact Basecoin.twoHandles_write app _ h (State.parent?_SetAccount _ _ _)
  · exact h

theorem Basecoin.DeliverTx_twoHandles (A : AppEnv) (app : Basecoin) (txBytes : String)
    (res : Result) (app' : Basecoin) (h : app.twoHandles)
    (hd : app.DeliverTx A txBytes = some (res, app')) : app'.twoHandles := by
  unfold Basecoin.DeliverTx at hd
  by_cases hlen : txBytes.length > maxTxSize
  · rw [if_pos hlen] at hd
    simp only [Option.some.injEq, Prod.mk.injEq] at hd
    rw [← hd.2]; exact h
  rw [if_neg hlen] at hd
  cases hdec : A.decodeTx txBytes with
  | none =>
    rw [hdec] at hd
    simp only [Option.some.injEq, Prod.mk.injEq] at hd
    rw [← hd.2]; exact h
  | some tx =>
    rw [hdec] at hd
    dsimp only at hd
    cases hex : ExecTx A.env app.state app.plugins tx false with
    | none => rw [hex] at hd; cases hd
    | some p =>
      obtain ⟨r, state'⟩ := p
      rw [hex] at hd
      simp only [Option.some.injEq, Prod.mk.injEq] at hd
      rw [← hd.2]
      exact Basecoin.twoHandles_write app _ h (ExecTx_parent A.env _ _ _ _ _ _ hex)

/-- With the two handles, `CheckTx` returns, keeps the committed state and
keeps the two handles. -/
theorem Basecoin.CheckTx_twoHandles (A : AppEnv) (app : Basecoin) (txBytes : String)
    (h : app.twoHandles) :
    ∃ res app', app.CheckTx A txBytes = some (res, app') ∧ app'.state = app.state ∧
      app'.twoHandles := by
  obtain ⟨hroot, cache, hc, hp⟩ := h
  unfold Basecoin.CheckTx
  by_cases hlen : txBytes.length > maxTxSize
  · rw [if_pos hlen]
    exact ⟨_, app, rfl, rfl, hroot, cache, hc, hp⟩
  rw [if_neg hlen]
  cases A.decodeTx txBytes with
  | none => exact ⟨_, app, rfl, rfl, hroot, cache, hc, hp⟩
  | some tx =>
    dsimp only
    rw [hc]
    dsimp only
    obtain ⟨res, cache', hex⟩ := ExecTx_total A.env cache app.plugins tx true
    have hpar := (ExecTx_parent A.env cache app.plugins tx true res cache' hex).trans hp
    rw [hex]
    dsimp only
    rw [hpar]
    by_cases herr : res.IsErr = true
    · rw [if_pos herr]
      exact ⟨res, _, rfl, rfl, hroot, cache', rfl, hpar⟩
    · rw [if_neg herr]
      exact ⟨Result.OK, _, rfl, rfl, hroot, cache', rfl, hpar⟩

/-- What a successful `Commit` leaves: the committed state is a root state
that reads what its backing store held, and the check state is a fresh scratch
layer of it. -/
theorem Basecoin.Commit_ok (A : AppEnv) (app : Basecoin) (res : Result) (app' : Basecoin)
    (h : app.Commit A = some (res, app')) :
    app'.cacheState = some app'.state.CacheWrap ∧ app'.state.parent? = none ∧
    (∀ k, app'.state.Get k = app.state.storeGet k) ∧ app'.plugins = app.plugins := by
  unfold Basecoin.Commit at h
  dsimp only at h
  by_cases he : (app.state.Commit A.commitSync).1.IsErr = true
  · rw [if_pos he] at h; cases h
  rw [if_neg he] at h
  simp only [Option.some.injEq, Prod.mk.injEq] at h
  rw [← h.2]
  cases hs : app.state with
  | wrap c p ws =>
    rw [hs] at he
    exact absurd rfl he
  | root c e store rc =>
    cases e with
    | false =>
      rw [hs] at he
      exact absurd rfl he
    | true => exact ⟨rfl, rfl, fun _ => rfl, rfl⟩

theorem Basecoin.Commit_twoHandles (A : AppEnv) (app : Basecoin) (res : Result)
    (app' : Basecoin) (h : app.Commit A = some (res, app')) : app'.twoHandles := by
  obtain ⟨hc, hroot, _, _⟩ := Basecoin.Commit_ok A app res app' h
  exact ⟨hroot, _, hc, rfl⟩

theorem Basecoin.call_twoHandles (A : AppEnv) (app app' : Basecoin) (c : AppCall)
    (h : app.twoHandles) (hc : app.call A c = some app') : app'.twoHandles := by
  cases c with
  | setOption key value =>
    simp only [Basecoin.call, Option.some.injEq] at hc
    rw [← hc]; exact Basecoin.SetOption_twoHandles A app key value h
  | deliverTx b =>
    simp only [Basecoin.call, Option.map_eq_some', Prod.exists, exists_eq_right] at hc
    obtain ⟨res, hd⟩ := hc
    exact Basecoin.DeliverTx_twoHandles A app b res app' h hd
  | checkTx b =>
    simp only [Basecoin.call, Option.map_eq_some', Prod.exists, exists_eq_right] at hc
    obtain ⟨res, hd⟩ := hc
    obtain ⟨r, a, h1, _, h3⟩ := Basecoin.CheckTx_twoHandles A app b h
    rw [h1] at hd
    simp only [Option.some.injEq, Prod.mk.injEq] at hd
    rw [← hd.2]; exact h3
  | commit =>
    simp only [Basecoin.call, Option.map_eq_some', Prod.exists, exists_eq_right] at hc
    obtain ⟨res, hd⟩ := hc
    exact Basecoin.Commit_twoHandles A app res app' hd

theorem Basecoin.calls_twoHandles (A : AppEnv) (app app' : Basecoin) (cs : List AppCall)
    (h : app.twoHandles) (hc : app.calls A cs = some app') : app'.twoHandles := by
  induction cs generalizing app with
  | nil =>
    simp only [Basecoin.calls, Option.some.injEq] at hc
    rw [← hc]; exact h
  | cons c cs ih =>
    rw [Basecoin.calls] at hc
    cases h1 : app.call A c with
    | none => rw [h1] at hc; cases hc
    | some app1 =>
      rw [h1] at hc
      exact ih app1 (Basecoin.call_twoHandles A app app1 c h h1) hc

theorem Basecoin.calls_append (A : AppEnv) (app : Basecoin) (cs ds : List AppCall) :
    app.calls A (cs ++ ds) = (app.calls A cs).bind (fun a => a.calls A ds) := by
  induction cs generalizing app with
  | nil => rfl
  | cons c cs ih =>
    rw [List.cons_append, Basecoin.calls, Basecoin.calls]
    cases app.call A c with
    | none => rfl
    | some app1 => exact ih app1

/-- A sequence of `CheckTx` calls on an application with the two handles
keeps the committed state. -/
theorem Basecoin.checks_keep_state (A : AppEnv) (app app' : Basecoin) (txs : List String)
    (h : app.twoHandles) (hc : app.calls A (txs.map AppCall.checkTx) = some app') :
    app'.state = app.state := by
  induction txs generalizing app with
  | nil =>
    simp only [List.map_nil, Basecoin.calls, Option.some.injEq] at hc
    rw [← hc]
  | cons b rest ih =>
    rw [List.map_cons, Basecoin.calls] at hc
    obtain ⟨r, a, h1, h2, h3⟩ := Basecoin.CheckTx_twoHandles A app b h
    have hcall : app.call A (AppCall.checkTx b) = some a := by
      simp only [Basecoin.call, h1, Option.map_some']
    rw [hcall] at hc
    exact (ih a h3 hc).trans h2

/-- C21: for every application state and every sequence of `CheckTx` calls
made on it, after a successful `Commit` the check state is a fresh scratch
layer of the committed state: it points to the committed state, its write
buffer is empty, and reading any key through it returns what the committed
state returns. So no write of an earlier `CheckTx` is visible: if the
application held its two handles before the `CheckTx` calls, every key reads
through the new check state as the backing store of the committed state held
it before them. -/
theorem commit_fresh_check_state (A : AppEnv) (app0 : Basecoin) (txs : List String)
    (res : Result) (app' : Basecoin)
    (h : (app0.calls A (txs.map AppCall.checkTx)).bind (fun app => app.Commit A)
      = some (res, app')) :
    app'.cacheState = some app'.state.CacheWrap ∧
    (∀ cache, app'.cacheState = some cache →
      cache.parent? = some app'.state ∧ cache.writes = [] ∧
      ∀ k, cache.Get k = app'.state.Get k) ∧
    (app0.twoHandles → ∀ cache, app'.cacheState = some cache →
      ∀ k, cache.Get k = app0.state.storeGet k) := by
  cases hrun : app0.calls A (txs.map AppCall.checkTx) with
  | none => rw [hrun] at h; cases h
  | some app =>
    rw [hrun] at h
    change app.Commit A = some (res, app') at h
    obtain ⟨hc, _, hget, _⟩ := Basecoin.Commit_ok A app res app' h
    refine ⟨hc, ?_, ?_⟩
    · intro cache hcache
      rw [hc] at hcache
      simp only [Option.some.injEq] at hcache
      rw [← hcache]
      exact ⟨rfl, rfl, fun _ => rfl⟩
    · intro h0 cache hcache k
      rw [hc] at hcache
      simp only [Option.some.injEq] at hcache
      rw [← hcache, State.Get_CacheWrap, hget, Basecoin.checks_keep_state A app0 app txs h0 hrun]

/-- C21, witness: on the scenario application over a persistent engine, after
`CheckTx` of the transfer of 30 atoms from `A` to `B` (which debits `A` in the
old check state) and a `Commit`, the new check state has an empty write
buffer and reads the account of `A` as the committed state does: atom:100 at
sequence 5. -/
theorem commit_fresh_check_state_witness :
    (demoEyesApplication.calls refAppEnv [AppCall.checkTx "send"]).map
      (fun app => app.cacheState.map (fun c => c.GetAccount "A"))
      = some (some (some { pubKey := ⟨some "ka"⟩, sequence := 6, balance := [⟨"atom", 70⟩] })) ∧
    ∃ res app', (demoEyesApplication.calls refAppEnv (["send"].map AppCall.checkTx)).bind
        (fun app => app.Commit refAppEnv) = some (res, app') ∧
      ∀ cache, app'.cacheState = some cache →
        cache.writes = [] ∧
        cache.GetAccount "A"
          = some { pubKey := ⟨some "ka"⟩, sequence := 5, balance := [⟨"atom", 100⟩] } := by
  refine ⟨by decide, ?_⟩
  have hsome : ((demoEyesApplication.calls refAppEnv (["send"].map AppCall.checkTx)).bind
      (fun app => app.Commit refAppEnv)).isSome = true := by decide
  obtain ⟨⟨res, app'⟩, h⟩ := Option.isSome_iff_exists.mp hsome
  refine ⟨res, app', h, fun cache hcache => ?_⟩
  have hth := commit_fresh_check_state refAppEnv demoEyesApplication ["send"] res app' h
  refine ⟨(hth.2.1 cache hcache).2.1, ?_⟩
  have hk := hth.2.2 ⟨rfl, _, rfl, rfl⟩ cache hcache (AccountKey "A")
  unfold State.GetAccount
  rw [hk]
  decide

/-- Before the first `Commit` the check state stays nil: `SetOption` and
`DeliverTx` keep a nil check state, and a `CheckTx` that returns does too. -/
theorem Basecoin.call_keeps_nil (A : AppEnv) (app app' : Basecoin) (c : AppCall)
    (hn : app.cacheState = none) (hc : c ≠ AppCall.commit)
    (h : app.call A c = some app') : app'.cacheState = none := by
  cases c with
  | commit => exact absurd rfl hc
  | setOption key value =>
    simp only [Basecoin.call, Option.some.injEq] at h
    rw [← h]
    unfold Basecoin.SetOption
    dsimp only
    split_ifs with h1 h2 h3
    · cases hg : app.plugins.GetByName (splitKey key).1 with
      | none => exact hn
      | some plugin =>
        show Option.map _ app.cacheState = none
        rw [hn]; rfl
    · show Option.map _ app.cacheState = none
      rw [hn]; rfl
    · cases hd : A.decodeGenesisAccount value with
      | jsonError msg => exact hn
      | addrError msg => exact hn
      | ok addr acc =>
        show Option.map _ app.cacheState = none
        rw [hn]; rfl
    · exact hn
  | deliverTx b =>
    simp only [Basecoin.call, Option.map_eq_some', Prod.exists, exists_eq_right] at h
    obtain ⟨res, hd⟩ := h
    unfold Basecoin.DeliverTx at hd
    by_cases hlen : b.length > maxTxSize
    · rw [if_pos hlen] at hd
      simp only [Option.some.injEq, Prod.mk.injEq] at hd
      rw [← hd.2]; exact hn
    rw [if_neg hlen] at hd
    cases hdec : A.decodeTx b with
    | none =>
      rw [hdec] at hd
      simp only [Option.some.injEq, Prod.mk.injEq] at hd
      rw [← hd.2]; exact hn
    | some tx =>
      rw [hdec] at hd
      dsimp only at hd
      cases hex : ExecTx A.env app.state app.plugins tx false with
      | none => rw [hex] at hd; cases hd
      | some p =>
        obtain ⟨r, state'⟩ := p
        rw [hex] at hd
        simp only [Option.some.injEq, Prod.mk.injEq] at hd
        rw [← hd.2]
        show Option.map _ app.cacheState = none
        rw [hn]; rfl
  | checkTx b =>
    simp only [Basecoin.call, Option.map_eq_some', Prod.exists, exists_eq_right] at h
    obtain ⟨res, hd⟩ := h
    unfold Basecoin.CheckTx at hd
    by_cases hlen : b.length > maxTxSize
    · rw [if_pos hlen] at hd
      simp only [Option.some.injEq, Prod.mk.injEq] at hd
      rw [← hd.2]; exact hn
    rw [if_neg hlen] at hd
    cases hdec : A.decodeTx b with
    | none =>
      rw [hdec] at hd
      simp only [Option.some.injEq, Prod.mk.injEq] at hd
      rw [← hd.2]; exact hn
    | some tx =>
      rw [hdec, hn] at hd
      cases hd

theorem Basecoin.calls_keep_nil (A : AppEnv) (app app' : Basecoin) (cs : List AppCall)
    (hn : app.cacheState = none) (hc : ∀ c ∈ cs, c ≠ AppCall.commit)
    (h : app.calls A cs = some app') : app'.cacheState = none := by
  induction cs generalizing app with
  | nil =>
    simp only [Basecoin.calls, Option.some.injEq] at h
    rw [← h]; exact hn
  | cons c cs ih =>
    rw [Basecoin.calls] at h
    cases h1 : app.call A c with
    | none => rw [h1] at h; cases h
    | some app1 =>
      rw [h1] at h
      exact ih app1
        (Basecoin.call_keeps_nil A app app1 c hn (hc c (List.mem_cons_self _ _)) h1)
        (fun d hd => hc d (List.mem_cons_of_mem _ hd)) h

/-- On a nil check state, `CheckTx` of bytes that decode aborts. -/
theorem Basecoin.CheckTx_nil (A : AppEnv) (app : Basecoin) (txBytes : String) (tx : Tx)
    (hn : app.cacheState = none) (hlen : txBytes.length ≤ maxTxSize)
    (hdec : A.decodeTx txBytes = some tx) : app.CheckTx A txBytes = none := by
  unfold Basecoin.CheckTx
  rw [if_neg (not_lt.mpr hlen), hdec, hn]

/-- C22 (amended): in every state of the application reached through a
successful `Commit`, whatever `SetOption`, `DeliverTx`, `CheckTx` and `Commit`
calls come before and after it, the application holds two store handles, the
committed root state and a check state that is a scratch layer pointing to
it, and `CheckTx` returns. In the state returned by `NewBasecoin` (with any
plugins registered), and in every state reached from it without a `Commit`,
the check state is nil and `CheckTx` of a transaction that decodes aborts. -/
theorem two_handles_after_commit (A : AppEnv) (store : String → Value) (pgz : Plugins) :
    (∀ (before after : List AppCall) (app : Basecoin),
      Basecoin.calls A { NewBasecoin store with plugins := pgz }
        (before ++ AppCall.commit :: after) = some app →
      app.twoHandles ∧ ∀ txBytes, ∃ res app', app.CheckTx A txBytes = some (res, app')) ∧
    (∀ (cs : List AppCall) (app : Basecoin), (∀ c ∈ cs, c ≠ AppCall.commit) →
      Basecoin.calls A { NewBasecoin store with plugins := pgz } cs = some app →
      app.cacheState = none ∧
      ∀ txBytes tx, txBytes.length ≤ maxTxSize → A.decodeTx txBytes = some tx →
        app.CheckTx A txBytes = none) := by
  constructor
  · intro before after app h
    rw [Basecoin.calls_append] at h
    cases h1 : Basecoin.calls A { NewBasecoin store with plugins := pgz } before with
    | none => rw [h1] at h; cases h
    | some app1 =>
      rw [h1] at h
      change Basecoin.calls A app1 (AppCall.commit :: after) = some app at h
      rw [Basecoin.calls] at h
      cases h2 : app1.call A AppCall.commit with
      | none => rw [h2] at h; cases h
      | some app2 =>
        rw [h2] at h
        change Basecoin.calls A app2 after = some app at h
        have h2' := h2
        simp only [Basecoin.call, Option.map_eq_some', Prod.exists, exists_eq_right] at h2'
        obtain ⟨res, hcm⟩ := h2'
        have htwo : app.twoHandles :=
          Basecoin.calls_twoHandles A app2 app after
            (Basecoin.Commit_twoHandles A app1 res app2 hcm) h
        refine ⟨htwo, fun txBytes => ?_⟩
        obtain ⟨r, a, hr, _⟩ := Basecoin.CheckTx_twoHandles A app txBytes htwo
        exact ⟨r, a, hr⟩
  · intro cs app hcs h
    have hn : app.cacheState = none :=
      Basecoin.calls_keep_nil A _ app cs rfl hcs h
    exact ⟨hn, fun txBytes tx hlen hdec => Basecoin.CheckTx_nil A app txBytes tx hn hlen hdec⟩

/-- C22, witness: the application made by `NewBasecoin` over the engine of the
scenario, with the chain id set and a `Commit` made, holds its two handles and
`CheckTx` of the scenario transfer returns; with the chain id set but no
`Commit` made, its check state is nil and `CheckTx` of the scenario transfer
aborts. -/
theorem two_handles_after_commit_witness :
    (∃ app, Basecoin.calls refAppEnv
        { NewBasecoin demoState.storeGet with plugins := demoPlugins }
        ([AppCall.setOption "base/chain_id" "test"] ++ AppCall.commit :: []) = some app ∧
      app.twoHandles ∧ ∃ res app', app.CheckTx refAppEnv "send" = some (res, app')) ∧
    (∃ app, Basecoin.calls refAppEnv
        { NewBasecoin demoState.storeGet with plugins := demoPlugins }
        [AppCall.setOption "base/chain_id" "test"] = some app ∧
      app.cacheState = none ∧ app.CheckTx refAppEnv "send" = none) := by
  constructor
  · have hsome : (Basecoin.calls refAppEnv
        { NewBasecoin demoState.storeGet with plugins := demoPlugins }
        ([AppCall.setOption "base/chain_id" "test"] ++ AppCall.commit :: [])).isSome
        = true := by decide
    obtain ⟨app, h⟩ := Option.isSome_iff_exists.mp hsome
    have hth := (two_handles_after_commit refAppEnv demoState.storeGet demoPlugins).1
      [AppCall.setOption "base/chain_id" "test"] [] app h
    exact ⟨app, h, hth.1, hth.2 "send"⟩
  · have hsome : (Basecoin.calls refAppEnv
        { NewBasecoin demoState.storeGet with plugins := demoPlugins }
        [AppCall.setOption "base/chain_id" "test"]).isSome = true := by decide
    obtain ⟨app, h⟩ := Option.isSome_iff_exists.mp hsome
    have hth := (two_handles_after_commit refAppEnv demoState.storeGet demoPlugins).2
      [AppCall.setOption "base/chain_id" "test"] app (by decide) h
    exact ⟨app, h, hth.1, hth.2 "send" (Tx.send (demoSend 30 ⟨"atom", 0⟩)) (by decide) rfl⟩

/-- C22 as stated fails: the state returned by `NewBasecoin` before any
`Commit` holds no check state, and `CheckTx` of the scenario transfer on it
aborts instead of returning a result. -/
theorem newBasecoin_has_no_check_state :
    (NewBasecoin demoState.storeGet).cacheState.isSome = false ∧
    ((NewBasecoin demoState.storeGet).CheckTx refAppEnv "send").isSome = false ∧
    refAppEnv.decodeTx "send" = some (Tx.send (demoSend 30 ⟨"atom", 0⟩)) := by
  refine ⟨by decide, by decide, by decide⟩

/-! ## Coherence of the read cache -/

/-- Where the read cache is coherent, `Get` returns what the backing store
holds. -/
theorem State.Get_of_coherentAt (s : State) (k : String) (h : s.coherentAt k) :
    s.Get k = s.storeGet k := by
  cases s with
  | wrap c p ws => rfl
  | root c e store rc =>
    unfold State.coherentAt at h
    show (match rc k with | some v => v | none => store k) = store k
    cases hk : rc k with
    | none => rfl
    | some v => exact (h rc v rfl hk).symm

theorem State.coherentAt_Set (s : State) (k k' : String) (v : Value) (h : s.coherentAt k) :
    (s.Set k' v).coherentAt k := by
  cases s with
  | wrap c p ws => intro rc w hrc; cases hrc
  | root c e store rc =>
    intro rc' w hrc hw
    simp only [State.Set, State.readCache?, Option.some.injEq] at hrc
    subst hrc
    show (if k = k' then v else store k) = w
    have hw' : (if k = k' then some v else rc k) = some w := hw
    by_cases hk : k = k'
    · rw [if_pos hk] at hw' ⊢
      exact Option.some.inj hw'
    · rw [if_neg hk] at hw' ⊢
      exact h rc w rfl hw'

theorem State.coherentAt_Commit (commitSync : (String → Value) → Result) (s : State)
    (k : String) (h : s.coherentAt k) : (s.Commit commitSync).2.coherentAt k := by
  cases s with
  | wrap c p ws => exact h
  | root c e store rc =>
    cases e with
    | false => exact h
    | true =>
      intro rc' w hrc hw
      simp only [State.Commit, State.readCache?, Option.some.injEq] at hrc
      subst hrc
      cases hw

/-- The key is not in the read cache of the state. -/
theorem State.notCached_Set (s : State) (k k' : String) (v : Value) (hne : k ≠ k')
    (h : ∀ rc, s.readCache? = some rc → rc k = none) :
    ∀ rc, (s.Set k' v).readCache? = some rc → rc k = none := by
  cases s with
  | wrap c p ws => intro rc hrc; cases hrc
  | root c e store rc =>
    intro rc' hrc
    simp only [State.Set, State.readCache?, Option.some.injEq] at hrc
    subst hrc
    show (if k = k' then some v else rc k) = none
    rw [if_neg hne]
    exact h rc rfl

theorem State.notCached_Commit (commitSync : (String → Value) → Result) (s : State)
    (k : String) (h : ∀ rc, s.readCache? = some rc → rc k = none) :
    ∀ rc, (s.Commit commitSync).2.readCache? = some rc → rc k = none := by
  cases s with
  | wrap c p ws => exact h
  | root c e store rc =>
    cases e with
    | false => exact h
    | true =>
      intro rc' hrc
      simp only [State.Commit, State.readCache?, Option.some.injEq] at hrc
      subst hrc
      rfl

theorem State.readCache?_SetChainID (s : State) (c : String) :
    (s.SetChainID c).readCache? = s.readCache? := by
  cases s <;> rfl

theorem State.storeGet_SetChainID_of_ne (s : State) (c k : String) (hk : k ≠ "base/chain_id") :
    (s.SetChainID c).storeGet k = s.storeGet k := by
  cases s with
  | root ch e store rc =>
    show (if k = "base/chain_id" then Value.bytes c else store k) = store k
    rw [if_neg hk]
  | wrap ch p ws =>
    show (match kvLookup (ws ++ [("base/chain_id", Value.bytes c)]) k with
      | some v => v | none => p.Get k) = (match kvLookup ws k with | some v => v | none => p.Get k)
    rw [kvLookup_append, if_neg (Ne.symm hk)]

/-- `SetChainID` writes the backing store only: it keeps the coherence at
every other key, and at `base/chain_id` if that key is not in the read
cache. -/
theorem State.coherentAt_SetChainID (s : State) (c k : String) (h : s.coherentAt k)
    (hk : k ≠ "base/chain_id" ∨ ∀ rc, s.readCache? = some rc → rc k = none) :
    (s.SetChainID c).coherentAt k := by
  intro rc w hrc hw
  rw [State.readCache?_SetChainID] at hrc
  rcases hk with hk | hk
  · rw [State.storeGet_SetChainID_of_ne s c k hk]
    exact h rc w hrc hw
  · rw [hk rc hrc] at hw
    cases hw

theorem AccountKey_ne_chain_id (a : String) : AccountKey a ≠ "base/chain_id" := by
  intro h
  have := congrArg (fun k : String => k.data.take 6) h
  simp [AccountKey, String.data_append] at this

theorem State.calls_append_one (commitSync : (String → Value) → Result) (s : State)
    (cs : List StateCall) (c : StateCall) :
    s.calls commitSync (cs ++ [c]) = (s.calls commitSync cs).call commitSync c := by
  unfold State.calls
  rw [List.foldl_append]
  rfl

/-- C30 (amended): after `NewState(store)` and any sequence of `Set`,
`SetAccount`, `SetChainID` and `Commit` calls made through that state, every
key other than `base/chain_id` that is in the read cache maps to the value
that the backing store holds, so `Get(k)` equals `store.Get(k)` for every
such key; and the same holds of the key `base/chain_id` if no `Set` call of
the sequence wrote that key. (`SetChainID` writes `base/chain_id` to the
backing store and not to the read cache.) -/
theorem readCache_coherent (commitSync : (String → Value) → Result) (isEyes : Bool)
    (store : String → Value) (cs : List StateCall) :
    (∀ k, k ≠ "base/chain_id" →
      ((NewState isEyes store).calls commitSync cs).coherentAt k ∧
      ((NewState isEyes store).calls commitSync cs).Get k
        = ((NewState isEyes store).calls commitSync cs).storeGet k) ∧
    ((∀ v, StateCall.set "base/chain_id" v ∉ cs) →
      ∀ k, ((NewState isEyes store).calls commitSync cs).coherentAt k ∧
        ((NewState isEyes store).calls commitSync cs).Get k
          = ((NewState isEyes store).calls commitSync cs).storeGet k) := by
  have hstep : ∀ (s : State) (c : StateCall) (k : String), s.coherentAt k →
      (k ≠ "base/chain_id" ∨ ∀ rc, s.readCache? = some rc → rc k = none) →
      (s.call commitSync c).coherentAt k := by
    intro s c k h hk
    cases c with
    | set key value => exact State.coherentAt_Set s k key value h
    | setAccount addr acc => exact State.coherentAt_Set s k _ _ h
    | setChainID c => exact State.coherentAt_SetChainID s c k h hk
    | commit => exact State.coherentAt_Commit commitSync s k h
  have h0 : ∀ k, (NewState isEyes store).coherentAt k := by
    intro k rc w hrc hw
    simp only [NewState, State.readCache?, Option.some.injEq] at hrc
    subst hrc
    cases hw
  constructor
  · intro k hk
    have hcoh : ((NewState isEyes store).calls commitSync cs).coherentAt k := by
      induction cs using List.reverseRecOn with
      | nil => exact h0 k
      | append_singleton cs c ih =>
        rw [State.calls_append_one]
        exact hstep _ c k ih (Or.inl hk)
    exact ⟨hcoh, State.Get_of_coherentAt _ k hcoh⟩
  · intro hset k
    have hboth : ((NewState isEyes store).calls commitSync cs).coherentAt k ∧
        (k = "base/chain_id" → ∀ rc,
          ((NewState isEyes store).calls commitSync cs).readCache? = some rc →
            rc k = none) := by
      induction cs using List.reverseRecOn with
      | nil =>
        refine ⟨h0 k, fun _ rc hrc => ?_⟩
        simp only [State.calls, List.foldl_nil, NewState, State.readCache?,
          Option.some.injEq] at hrc
        subst hrc
        rfl
      | append_singleton cs c ih =>
        have hset' : ∀ v, StateCall.set "base/chain_id" v ∉ cs :=
          fun v hv => hset v (List.mem_append_left _ hv)
        obtain ⟨ih1, ih2⟩ := ih hset'
        rw [State.calls_append_one]
        refine ⟨hstep _ c k ih1 ?_, ?_⟩
        · by_cases hk : k = "base/chain_id"
          · exact Or.inr (ih2 hk)
          · exact Or.inl hk
        · intro hk
          cases c with
          | set key value =>
            have hne : k ≠ key := by
              intro e
              apply hset value
              rw [List.mem_append]
              right
              rw [← e, hk]
              exact List.mem_singleton_self _
            exact State.notCached_Set _ k key value hne (ih2 hk)
          | setAccount addr acc =>
            have hne : k ≠ AccountKey addr := by
              rw [hk]; exact (AccountKey_ne_chain_id addr).symm
            exact State.notCached_Set _ k _ _ hne (ih2 hk)
          | setChainID c =>
            intro rc hrc
            rw [State.call, State.readCache?_SetChainID] at hrc
            exact ih2 hk rc hrc
          | commit => exact State.notCached_Commit commitSync _ k (ih2 hk)
    exact ⟨hboth.1, State.Get_of_coherentAt _ k hboth.1⟩

/-- C30, witness: on a state made by `NewState`, after `SetChainID("test")`, a
`Set` of the key `counter`, and a `Commit`, the keys `counter` and
`base/chain_id` read through `Get` as the backing store holds them. -/
theorem readCache_coherent_witness :
    (∀ v, StateCall.set "base/chain_id" v ∉
      [StateCall.setChainID "test", StateCall.set "counter" (Value.bytes "1"),
       StateCall.commit]) ∧
    ((NewState true demoState.storeGet).calls (fun _ => Result.NewResultOK "hash")
      [StateCall.setChainID "test", StateCall.set "counter" (Value.bytes "1"),
       StateCall.commit]).Get "counter"
      = ((NewState true demoState.storeGet).calls (fun _ => Result.NewResultOK "hash")
      [StateCall.setChainID "test", StateCall.set "counter" (Value.bytes "1"),
       StateCall.commit]).storeGet "counter" ∧
    ((NewState true demoState.storeGet).calls (fun _ => Result.NewResultOK "hash")
      [StateCall.setChainID "test", StateCall.set "counter" (Value.bytes "1"),
       StateCall.commit]).Get "base/chain_id"
      = ((NewState true demoState.storeGet).calls (fun _ => Result.NewResultOK "hash")
      [StateCall.setChainID "test", StateCall.set "counter" (Value.bytes "1"),
       StateCall.commit]).storeGet "base/chain_id" :=
  ⟨by simp,
   ((readCache_coherent (fun _ => Result.NewResultOK "hash") true demoState.storeGet
      [StateCall.setChainID "test", StateCall.set "counter" (Value.bytes "1"),
       StateCall.commit]).1 "counter" (by decide)).2,
   ((readCache_coherent (fun _ => Result.NewResultOK "hash") true demoState.storeGet
      [StateCall.setChainID "test", StateCall.set "counter" (Value.bytes "1"),
       StateCall.commit]).2 (by simp) "base/chain_id").2⟩

/-- C30 as stated fails: on a state made by `NewState` over an empty store,
after `Set("base/chain_id", "x")` and `SetChainID("y")` the read cache still
maps `base/chain_id` to `x` while the backing store holds `y`, so `Get`
returns `x` and `store.Get` returns `y`. -/
theorem readCache_stale_chain_id :
    ((NewState true (fun _ => Value.absent)).calls (fun _ => Result.NewResultOK "hash")
      [StateCall.set "base/chain_id" (Value.bytes "x"), StateCall.setChainID "y"]).Get
        "base/chain_id" = Value.bytes "x" ∧
    ((NewState true (fun _ => Value.absent)).calls (fun _ => Result.NewResultOK "hash")
      [StateCall.set "base/chain_id" (Value.bytes "x"), StateCall.setChainID "y"]).storeGet
        "base/chain_id" = Value.bytes "y" ∧
    ((NewState true (fun _ => Value.absent)).calls (fun _ => Result.NewResultOK "hash")
      [StateCall.set "base/chain_id" (Value.bytes "x"), StateCall.setChainID "y"]).readCache?.map
        (fun rc => rc "base/chain_id") = some (some (Value.bytes "x")) := by
  refine ⟨by decide, by decide, by decide⟩

/-! ## Conservation of the total supply -/

/-- A sum over a finite set of a function that vanishes outside two disjoint
lists without repetition is the sum over the two lists. -/
theorem sum_supported_on (F : Finset String) (I O : List String) (hI : I.Nodup)
    (hO : O.Nodup) (hdis : ∀ a ∈ I, a ∉ O) (hIF : ∀ a ∈ I, a ∈ F) (hOF : ∀ a ∈ O, a ∈ F)
    (δ : String → Int) (h0 : ∀ a, a ∉ I → a ∉ O → δ a = 0) :
    ∑ a in F, δ a = (I.map δ).sum + (O.map δ).sum := by
  have hsub : I.toFinset ∪ O.toFinset ⊆ F := by
    intro a ha
    rcases Finset.mem_union.mp ha with h | h
    · exact hIF a (List.mem_toFinset.mp h)
    · exact hOF a (List.mem_toFinset.mp h)
  have hdisj : Disjoint I.toFinset O.toFinset := by
    rw [Finset.disjoint_left]
    intro a ha hb
    exact hdis a (List.mem_toFinset.mp ha) (List.mem_toFinset.mp hb)
  rw [← Finset.sum_subset hsub (fun a _ hna => h0 a
      (fun h => hna (Finset.mem_union_left _ (List.mem_toFinset.mpr h)))
      (fun h => hna (Finset.mem_union_right _ (List.mem_toFinset.mpr h)))),
    Finset.sum_union hdisj, List.sum_toFinset _ hI, List.sum_toFinset _ hO]

theorem sum_map_neg_int {α : Type} (l : List α) (f : α → Int) :
    (l.map (fun x => - f x)).sum = - (l.map f).sum := by
  induction l with
  | nil => rfl
  | cons x l ih => rw [List.map_cons, List.sum_cons, ih, List.map_cons, List.sum_cons]; ring

theorem localAddresses_of_local (outs : List TxOutput) (h : ∀ out ∈ outs, out.chain = none) :
    localAddresses outs = outs.map (fun o => o.address) := by
  unfold localAddresses
  rw [List.filter_eq_self.mpr (fun o ho => by rw [h o ho]; rfl)]

theorem State.holding_GetChainID (E : Env) (s : State) (a d : String) :
    (s.GetChainID E).2.holding a d = s.holding a d := by
  unfold State.holding
  rw [State.GetAccount_GetChainID]

/-- What an accepted `SendTx` with only local outputs does, in delivery mode,
to what the state stores per address and denomination. -/
theorem execSendTx_delivery_holdings (E : Env) (st : State) (cid : String) (tx : SendTx)
    (res : Result) (s' : State) (hlocal : ∀ out ∈ tx.outputs, out.chain = none)
    (h : execSendTx E st cid tx false = some (res, s')) (hres : res.IsErr = false)
    (d : String) :
    (tx.inputs.map (fun i => i.address)).Nodup ∧
    (tx.outputs.map (fun o => o.address)).Nodup ∧
    (∀ a ∈ tx.inputs.map (fun i => i.address), a ∉ tx.outputs.map (fun o => o.address)) ∧
    (∀ inp ∈ tx.inputs,
      s'.holding inp.address d = st.holding inp.address d - inp.coins.amountOf d) ∧
    (∀ out ∈ tx.outputs,
      s'.holding out.address d = st.holding out.address d + out.coins.amountOf d) ∧
    (∀ a, a ∉ tx.inputs.map (fun i => i.address) → a ∉ tx.outputs.map (fun o => o.address) →
      s'.GetAccount a = st.GetAccount a) ∧
    (tx.inputs.map (fun i => i.coins.amountOf d)).sum
      = (tx.outputs.map (fun o => o.coins.amountOf d)).sum + countedFee tx.fee d := by
  have hinv := execSendTx_ok_inv E st cid tx false res s' h hres
  obtain ⟨_, _, h3, h4, t, r, st1, acc1, acc2, hv, hr, heq, ha, hb, _⟩ := hinv
  have hp : packetsKeepAccounts E tx.outputs := by
    intro out ho dst hc
    rw [hlocal out ho] at hc
    cases hc
  have hla := localAddresses_of_local tx.outputs hlocal
  obtain ⟨ind, _, iload, _⟩ := getInputsLoop_ok st tx.inputs AccMap.empty _ _ rfl h3
  obtain ⟨ond, onone, oload, oother⟩ := getOrMakeOutputs_ok st tx.outputs _ _ _ rfl h4
  obtain ⟨iadj, iframe, imap⟩ := adjustByInputs_ok tx.inputs _ _ _ _ ha ind
  obtain ⟨oadj, oframe⟩ := adjustByOutputs_ok E tx.outputs _ _ _ _ hb ond hp
  have hdisj : ∀ inp ∈ tx.inputs, inp.address ∉ localAddresses tx.outputs := by
    intro inp hi hmem
    obtain ⟨acc, _, hm⟩ := iload inp hi
    have hn := onone _ hmem
    change (getInputs st tx.inputs).1 inp.address = none at hn
    change (getInputs st tx.inputs).1 inp.address = _ at hm
    rw [hm] at hn
    cases hn
  refine ⟨ind, hla ▸ ond, ?_, ?_, ?_, ?_, ?_⟩
  · intro a ha'
    obtain ⟨i, hi, he⟩ := List.mem_map.mp ha'
    rw [← hla, ← he]
    exact hdisj i hi
  · intro inp hi
    obtain ⟨acc, hg, hm⟩ := iload inp hi
    obtain ⟨a0, h0, _, h1⟩ := iadj inp hi
    rw [oother _ (hdisj inp hi)] at h0
    change (getInputs st tx.inputs).1 inp.address = _ at hm
    rw [hm] at h0
    cases h0
    unfold State.holding
    rw [oframe _ (hdisj inp hi), h1, hg]
    show Coins.amountOf ((withInputKey inp acc).balance.Minus inp.coins) d = _
    rw [Coins.amountOf_Minus, withInputKey_balance]
  · intro out ho
    have hc := hlocal out ho
    have hmem := mem_localAddresses ho hc
    obtain ⟨a0, h0, h1⟩ := oadj out ho hc
    have hni : out.address ∉ tx.inputs.map (fun i => i.address) := by
      intro hm
      obtain ⟨i, hi, he⟩ := List.mem_map.mp hm
      exact hdisj i hi (he ▸ hmem)
    rw [imap _ hni, oload _ hmem] at h0
    cases h0
    unfold State.holding
    rw [h1]
    show Coins.amountOf (((st.GetAccount out.address).getD Account.zero).balance.Plus
      out.coins) d = _
    rw [Coins.amountOf_Plus]
    cases st.GetAccount out.address with
    | none => rfl
    | some acc => rfl
  · intro a hi ho
    rw [← hla] at ho
    rw [oframe a ho]
    unfold State.GetAccount
    rw [iframe _ (fun inp hinp e => hi (List.mem_map.mpr ⟨inp, hinp, (AccountKey_injective e).symm⟩))]
  · rw [← amountOf_inTotal E _ _ _ t r hv hr d, ← amountOf_outPlusFees]
    exact (Coins.IsEqual_iff _ _).mp heq d

/-- C29: conservation of the total supply. For every state and every `SendTx`
with only local outputs that `ExecTx` accepts in delivery mode, and for every
finite set of addresses that holds the input and output addresses (such as
the set of all the addresses with a stored account), the sum over the set of
the stored balances after the call equals, in every denomination, that sum
before the call minus the fee that the conservation check counts (the fee, or
nothing when the fee fails the validity check); and the account of every
address outside the inputs and outputs is stored as before. -/
theorem sendTx_conserves_supply (E : Env) (s : State) (pgz : Plugins) (tx : SendTx)
    (res : Result) (s' : State)
    (hlocal : ∀ out ∈ tx.outputs, out.chain = none)
    (h : ExecTx E s pgz (Tx.send tx) false = some (res, s'))
    (hOK : res.code = CodeType.OK) :
    (∀ (addrs : Finset String), (∀ inp ∈ tx.inputs, inp.address ∈ addrs) →
      (∀ out ∈ tx.outputs, out.address ∈ addrs) →
      ∀ d, ∑ a in addrs, s'.holding a d = ∑ a in addrs, s.holding a d - countedFee tx.fee d) ∧
    (∀ a, (∀ inp ∈ tx.inputs, inp.address ≠ a) → (∀ out ∈ tx.outputs, out.address ≠ a) →
      s'.GetAccount a = s.GetAccount a) := by
  have hE : execSendTx E (s.GetChainID E).2 (s.GetChainID E).1 tx false = some (res, s') := h
  constructor
  · intro addrs hin hout d
    obtain ⟨ind, ond, hdis, hI, hO, hframe, hsum⟩ :=
      execSendTx_delivery_holdings E _ _ tx res s' hlocal hE (Result.IsErr_false_iff.mpr hOK) d
    have hδ := sum_supported_on addrs (tx.inputs.map (fun i => i.address))
      (tx.outputs.map (fun o => o.address)) ind ond hdis
      (fun a ha => by obtain ⟨i, hi, he⟩ := List.mem_map.mp ha; exact he ▸ hin i hi)
      (fun a ha => by obtain ⟨o, ho, he⟩ := List.mem_map.mp ha; exact he ▸ hout o ho)
      (fun a => s'.holding a d - s.holding a d)
      (fun a hi ho => by
        have := hframe a hi ho
        rw [State.GetAccount_GetChainID] at this
        show s'.holding a d - s.holding a d = 0
        unfold State.holding
        rw [this]
        exact sub_self _)
    rw [List.map_map, List.map_map] at hδ
    have e1 : (tx.inputs.map ((fun a => s'.holding a d - s.holding a d) ∘ fun i => i.address))
        = tx.inputs.map (fun i => - i.coins.amountOf d) := by
      apply List.map_congr_left
      intro i hi
      show s'.holding i.address d - s.holding i.address d = _
      rw [hI i hi, State.holding_GetChainID]
      ring
    have e2 : (tx.outputs.map ((fun a => s'.holding a d - s.holding a d) ∘ fun o => o.address))
        = tx.outputs.map (fun o => o.coins.amountOf d) := by
      apply List.map_congr_left
      intro o ho
      show s'.holding o.address d - s.holding o.address d = _
      rw [hO o ho, State.holding_GetChainID]
      ring
    rw [e1, e2, sum_map_neg_int, hsum, Finset.sum_sub_distrib] at hδ
    linarith
  · intro a hi ho
    obtain ⟨_, _, _, _, _, hframe, _⟩ :=
      execSendTx_delivery_holdings E _ _ tx res s' hlocal hE (Result.IsErr_false_iff.mpr hOK) ""
    rw [hframe a
      (fun hm => by obtain ⟨i, hi', he⟩ := List.mem_map.mp hm; exact hi i hi' he)
      (fun hm => by obtain ⟨o, ho', he⟩ := List.mem_map.mp hm; exact ho o ho' he),
      State.GetAccount_GetChainID]

/-- C29, witness: `A` (atom:100) sends 30 atoms, `B` receives 25 atoms and the
fee is atom:5, in delivery mode: the transfer is accepted, and over the
addresses `A`, `B` and `C` the atoms stored afterwards are those stored before
less the 5 atoms of the fee: 95 against 100. -/
theorem sendTx_conserves_supply_witness :
    ∃ res s', ExecTx refEnv demoState noPlugins (Tx.send (demoSend 25 ⟨"atom", 5⟩)) false
        = some (res, s') ∧
      res.code = CodeType.OK ∧
      (∀ d, ∑ a in ({"A", "B", "C"} : Finset String), s'.holding a d
        = ∑ a in ({"A", "B", "C"} : Finset String), demoState.holding a d
          - countedFee (demoSend 25 ⟨"atom", 5⟩).fee d) ∧
      ∑ a in ({"A", "B", "C"} : Finset String), demoState.holding a "atom" = 100 ∧
      countedFee (demoSend 25 ⟨"atom", 5⟩).fee "atom" = 5 := by
  have hsome : (ExecTx refEnv demoState noPlugins
      (Tx.send (demoSend 25 ⟨"atom", 5⟩)) false).isSome = true := by decide
  obtain ⟨⟨res, s'⟩, h⟩ := Option.isSome_iff_exists.mp hsome
  have hcode : (ExecTx refEnv demoState noPlugins
      (Tx.send (demoSend 25 ⟨"atom", 5⟩)) false).map (fun p => p.1.code)
      = some CodeType.OK := by decide
  have hOK : res.code = CodeType.OK := by
    rw [h] at hcode
    simpa using hcode
  refine ⟨res, s', h, hOK,
    (sendTx_conserves_supply refEnv demoState noPlugins (demoSend 25 ⟨"atom", 5⟩) res s'
      (by simp [demoSend]) h hOK).1 {"A", "B", "C"}
      (by simp [demoSend, demoInput]) (by simp [demoSend]), by decide, by decide⟩

/-! ## `getInputs` and the public key of an input account -/

/-- C28, the code at the failing input: on a state that stores the account of
`B` with no public key, `getInputs` of an input of `B` that supplies no public
key returns OK, and the account of `B` in the returned map has no public key.
The comment of `getInputs` says that the accounts of the inputs "must either
already have" a public key "or it must be specified in the TxInput"; the code
has no such check. -/
theorem getInputs_accepts_unknown_key :
    (demoStateNoKey.GetAccount "B").map (fun acc => acc.pubKey.Empty) = some true ∧
    demoInputNoKey.pubKey.Empty = true ∧
    (getInputs demoStateNoKey [demoInputNoKey]).2 = Result.OK ∧
    ((getInputs demoStateNoKey [demoInputNoKey]).1 "B").map (fun acc => acc.pubKey.Empty)
      = some true := by
  decide

/-! ## Balances stay non-negative -/

theorem Coins.amountOf_nonneg (cs : Coins) (h : cs.IsNonnegative) (d : String) :
    0 ≤ cs.amountOf d := by
  unfold Coins.amountOf
  apply List.sum_nonneg
  intro x hx
  obtain ⟨c, hc, rfl⟩ := List.mem_map.mp hx
  exact h c (List.mem_filter.mp hc).1

theorem Coins.IsNonnegative_canon (ds : List String) (f : String → Int)
    (h : ∀ d, 0 ≤ f d) : (Coins.canon ds f).IsNonnegative := by
  intro c hc
  unfold Coins.canon at hc
  obtain ⟨d, _, rfl⟩ := List.mem_map.mp hc
  exact h d

theorem Coins.IsNonnegative_Minus (a b : Coins) (h : a.IsGTE b = true) :
    (a.Minus b).IsNonnegative := by
  apply Coins.IsNonnegative_canon
  intro d
  have := (Coins.IsGTE_iff a b).mp h d
  omega

theorem Coins.IsNonnegative_Plus (a b : Coins) (ha : ∀ d, 0 ≤ a.amountOf d)
    (hb : ∀ d, 0 ≤ b.amountOf d) : (a.Plus b).IsNonnegative := by
  apply Coins.IsNonnegative_canon
  intro d
  have := ha d
  have := hb d
  omega

theorem Coins.IsNonnegative_of_IsValid (cs : Coins) (h : cs.IsValid = true) :
    cs.IsNonnegative := by
  unfold Coins.IsValid at h
  rw [Bool.and_eq_true, List.all_eq_true] at h
  intro c hc
  have := h.2 c hc
  simp only [decide_eq_true_eq] at this
  exact le_of_lt this

theorem State.balancesNonnegative_Set (s : State) (k : String) (v : Value)
    (h : s.balancesNonnegative) (hv : ∀ acc, v = Value.account acc → acc.balance.IsNonnegative) :
    (s.Set k v).balancesNonnegative := by
  intro k' acc hg
  rw [State.Get_Set] at hg
  by_cases hk : k' = k
  · rw [if_pos hk] at hg
    exact hv acc hg
  · rw [if_neg hk] at hg
    exact h k' acc hg

theorem State.balancesNonnegative_SetAccount (s : State) (a : String) (acc : Account)
    (h : s.balancesNonnegative) (hacc : acc.balance.IsNonnegative) :
    (s.SetAccount a acc).balancesNonnegative :=
  State.balancesNonnegative_Set s _ _ h (fun acc' e => by cases e; exact hacc)

theorem State.balancesNonnegative_applyWrites (s : State) (ws : List (String × Value))
    (h : s.balancesNonnegative) (hw : writesNonnegative ws) :
    (s.applyWrites ws).balancesNonnegative := by
  induction ws generalizing s with
  | nil => exact h
  | cons kv ws ih =>
    rw [State.applyWrites_cons]
    exact ih _ (State.balancesNonnegative_Set s _ _ h (hw kv (List.mem_cons_self _ _)))
      (fun kv' hkv => hw kv' (List.mem_cons_of_mem _ hkv))

theorem State.balancesNonnegative_GetChainID (E : Env) (s : State)
    (h : s.balancesNonnegative) : (s.GetChainID E).2.balancesNonnegative := by
  intro k acc hg
  rw [State.Get_GetChainID] at hg
  exact h k acc hg

theorem State.balancesNonnegative_GetAccount (s : State) (h : s.balancesNonnegative)
    (a : String) (acc : Account) (hg : s.GetAccount a = some acc) (d : String) :
    0 ≤ acc.balance.amountOf d := by
  unfold State.GetAccount at hg
  cases hv : s.Get (AccountKey a) with
  | bytes b => rw [hv] at hg; cases hg
  | account acc' =>
    rw [hv] at hg
    cases hg
    exact Coins.amountOf_nonneg _ (h _ _ hv) d

theorem getInputsLoop_nonneg (s : State) (h : s.balancesNonnegative) (ins : List TxInput)
    (m : AccMap) (hm : ∀ a acc, m a = some acc → ∀ d, 0 ≤ acc.balance.amountOf d) :
    ∀ a acc, (getInputsLoop s m ins).1 a = some acc → ∀ d, 0 ≤ acc.balance.amountOf d := by
  induction ins generalizing m with
  | nil => exact hm
  | cons inp rest ih =>
    rw [getInputsLoop]
    by_cases hd : (m inp.address).isSome = true
    · rw [if_pos hd]
      intro a acc he; cases he
    rw [if_neg hd]
    cases hg : s.GetAccount inp.address with
    | none => intro a acc he; cases he
    | some acc0 =>
      apply ih
      intro a acc he d
      by_cases ha : a = inp.address
      · rw [ha, AccMap.insert_same] at he
        cases he
        rw [withInputKey_balance]
        exact State.balancesNonnegative_GetAccount s h _ _ hg d
      · rw [AccMap.insert_ne _ _ _ _ ha] at he
        exact hm a acc he d

theorem getOrMakeOutputs_nonneg (s : State) (h : s.balancesNonnegative) (outs : List TxOutput)
    (m : AccMap) (hm : ∀ a acc, m a = some acc → ∀ d, 0 ≤ acc.balance.amountOf d) :
    ∀ a acc, (getOrMakeOutputs s m outs).1 a = some acc → ∀ d, 0 ≤ acc.balance.amountOf d := by
  induction outs generalizing m with
  | nil => exact hm
  | cons out rest ih =>
    rw [getOrMakeOutputs]
    cases hc : out.chain with
    | some c => exact ih m hm
    | none =>
      dsimp only
      by_cases hd : (m out.address).isSome = true
      · rw [if_pos hd]
        intro a acc he; cases he
      rw [if_neg hd]
      apply ih
      intro a acc he d
      by_cases ha : a = out.address
      · rw [ha, AccMap.insert_same] at he
        cases he
        cases hg : s.GetAccount out.address with
        | none => exact le_refl _
        | some acc0 => exact State.balancesNonnegative_GetAccount s h _ _ hg d
      · rw [AccMap.insert_ne _ _ _ _ ha] at he
        exact hm a acc he d

theorem adjustByInputs_nonneg (ins : List TxInput) (st st' : State) (acc acc' : AccMap)
    (h : adjustByInputs st acc ins = some (st', acc')) (hs : st.balancesNonnegative)
    (hm : ∀ a x, acc a = some x → ∀ d, 0 ≤ x.balance.amountOf d) :
    st'.balancesNonnegative ∧ ∀ a x, acc' a = some x → ∀ d, 0 ≤ x.balance.amountOf d := by
  induction ins generalizing st acc with
  | nil =>
    simp only [adjustByInputs, Option.some.injEq, Prod.mk.injEq] at h
    rw [← h.1, ← h.2]
    exact ⟨hs, hm⟩
  | cons inp rest ih =>
    rw [adjustByInputs] at h
    cases ha : acc inp.address with
    | none => rw [ha] at h; cases h
    | some a0 =>
      rw [ha] at h
      dsimp only at h
      by_cases hb : (!a0.balance.IsGTE inp.coins) = true
      · rw [if_pos hb] at h; cases h
      rw [if_neg hb] at h
      have hb' : a0.balance.IsGTE inp.coins = true := by simpa using hb
      have hnn := Coins.IsNonnegative_Minus _ _ hb'
      apply ih _ _ h
      · exact State.balancesNonnegative_SetAccount st _ _ hs hnn
      · intro a x he d
        by_cases hx : a = inp.address
        · rw [hx, AccMap.insert_same] at he
          cases he
          exact Coins.amountOf_nonneg _ hnn d
        · rw [AccMap.insert_ne _ _ _ _ hx] at he
          exact hm a x he d

theorem adjustByOutputs_nonneg (E : Env) (outs : List TxOutput) (st st' : State)
    (acc acc' : AccMap) (chk : Bool)
    (h : adjustByOutputs E st acc outs chk = some (st', acc')) (hs : st.balancesNonnegative)
    (hm : ∀ a x, acc a = some x → ∀ d, 0 ≤ x.balance.amountOf d)
    (ho : ∀ out ∈ outs, out.coins.IsNonnegative)
    (hibc : ∀ s src dst payload, writesNonnegative (E.saveNewIBCPacket s src dst payload)) :
    st'.balancesNonnegative := by
  induction outs generalizing st acc with
  | nil =>
    simp only [adjustByOutputs, Option.some.injEq, Prod.mk.injEq] at h
    rw [← h.1]
    exact hs
  | cons out rest ih =>
    rw [adjustByOutputs] at h
    have ho' : ∀ o ∈ rest, o.coins.IsNonnegative := fun o hmem => ho o (List.mem_cons_of_mem _ hmem)
    cases hc : out.chain with
    | some dst =>
      rw [hc] at h
      dsimp only at h
      exact ih _ _ h
        (State.balancesNonnegative_applyWrites _ _
          (State.balancesNonnegative_GetChainID E st hs) (hibc _ _ _ _)) hm ho'
    | none =>
      rw [hc] at h
      dsimp only at h
      cases ha : acc out.address with
      | none => rw [ha] at h; cases h
      | some a0 =>
        rw [ha] at h
        dsimp only at h
        have hnn : (a0.balance.Plus out.coins).IsNonnegative :=
          Coins.IsNonnegative_Plus _ _ (hm _ _ ha)
            (Coins.amountOf_nonneg _ (ho out (List.mem_cons_self _ _)))
        apply ih _ _ h
        · cases chk with
          | true => exact hs
          | false => exact State.balancesNonnegative_SetAccount st _ _ hs hnn
        · intro a x he d
          by_cases hx : a = out.address
          · rw [hx, AccMap.insert_same] at he
            cases he
            exact Coins.amountOf_nonneg _ hnn d
          · rw [AccMap.insert_ne _ _ _ _ hx] at he
            exact hm a x he d
        · exact ho'

theorem validateOutputsBasic_ok_all (E : Env) (outs : List TxOutput)
    (h : (validateOutputsBasic E outs).IsErr = false) :
    ∀ out ∈ outs, (E.outputValidateBasic out).IsErr = false := by
  induction outs with
  | nil => intro out ho; cases ho
  | cons o rest ih =>
    rw [validateOutputsBasic] at h
    by_cases he : (E.outputValidateBasic o).IsErr = true
    · rw [if_pos he, he] at h; cases h
    rw [if_neg he] at h
    intro out ho
    rcases List.mem_cons.mp ho with e | hmem
    · rw [e]; simpa using he
    · exact ih h out hmem

theorem execSendTx_nonneg (E : Env) (st : State) (cid : String) (tx : SendTx) (chk : Bool)
    (res : Result) (s' : State) (hs : st.balancesNonnegative)
    (hstruct : ∀ out : TxOutput, (E.outputValidateBasic out).IsErr = false →
      out.coins.IsValid = true)
    (hibc : ∀ s src dst payload, writesNonnegative (E.saveNewIBCPacket s src dst payload))
    (h : execSendTx E st cid tx chk = some (res, s')) : s'.balancesNonnegative := by
  by_cases hres : res.IsErr = true
  · rw [execSendTx_err E st cid tx chk res s' h hres]
    exact hs
  have hres' : res.IsErr = false := by simpa using hres
  obtain ⟨_, h2, _, _, t, r, st1, acc1, acc2, _, _, _, ha, hb, _⟩ :=
    execSendTx_ok_inv E st cid tx chk res s' h hres'
  have hm0 := getInputsLoop_nonneg st hs tx.inputs AccMap.empty (fun a acc he => by cases he)
  have hm := getOrMakeOutputs_nonneg st hs tx.outputs _ hm0
  obtain ⟨hs1, hm1⟩ := adjustByInputs_nonneg tx.inputs st st1 _ acc1 ha hs hm
  exact adjustByOutputs_nonneg E tx.outputs st1 s' acc1 acc2 chk hb hs1 hm1
    (fun out ho => Coins.IsNonnegative_of_IsValid _
      (hstruct out (validateOutputsBasic_ok_all E tx.outputs h2 out ho))) hibc

theorem execAppTx_nonneg (E : Env) (st : State) (pgz : Plugins) (cid : String) (tx : AppTx)
    (chk : Bool) (res : Result) (s' : State) (hs : st.balancesNonnegative)
    (hplugin : ∀ name plugin, pgz.GetByName name = some plugin →
      ∀ cache ctx data, writesNonnegative (plugin.RunTx cache ctx data).2)
    (h : execAppTx E st pgz cid tx chk = some (res, s')) : s'.balancesNonnegative := by
  have key : ∀ (r : Result), some (r, st) = some (res, s') → s'.balancesNonnegative := by
    intro r e
    simp only [Option.some.injEq, Prod.mk.injEq] at e
    rw [← e.2]; exact hs
  by_cases h1 : (E.inputValidateBasic tx.input).IsErr = true
  · unfold execAppTx at h
    rw [if_pos h1] at h
    exact key _ h
  cases hg : st.GetAccount tx.input.address with
  | none =>
    unfold execAppTx at h
    rw [if_neg h1, hg] at h
    exact key _ h
  | some acc =>
    rw [execAppTx_loaded E st pgz cid tx chk acc (by simpa using h1) hg] at h
    by_cases h3 : (validateInputAdvanced E (withInputKey tx.input acc) (E.appSignBytes cid tx)
        tx.input).IsErr = true
    · rw [if_pos h3] at h; exact key _ h
    rw [if_neg h3] at h
    by_cases h4 : (!tx.input.coins.IsGTE [tx.fee]) = true
    · rw [if_pos h4] at h; exact key _ h
    rw [if_neg h4] at h
    have h3' : (withInputKey tx.input acc).balance.IsGTE tx.input.coins = true :=
      validateInputAdvanced_ok_balance E _ _ _ (by simpa using h3)
    have h4' : tx.input.coins.IsGTE [tx.fee] = true := by simpa using h4
    have hdeb : (appDebited tx acc).balance.IsNonnegative :=
      Coins.IsNonnegative_Minus _ _ h3'
    cases hp : pgz.GetByName tx.name with
    | none => rw [hp] at h; exact key _ h
    | some plugin =>
      rw [hp] at h
      dsimp only at h
      by_cases h5 : chk = true
      · rw [if_pos h5] at h
        simp only [Option.some.injEq, Prod.mk.injEq] at h
        rw [← h.2]
        exact State.balancesNonnegative_SetAccount st _ _ hs hdeb
      rw [if_neg h5] at h
      by_cases h6 : (plugin.RunTx (appCache st tx acc) (appContext tx acc) tx.data).1.IsOK = true
      · rw [if_pos h6] at h
        simp only [Option.some.injEq, Prod.mk.injEq] at h
        rw [← h.2]
        apply State.balancesNonnegative_applyWrites st _ hs
        intro kv hkv a e
        rcases List.mem_cons.mp hkv with e1 | hmem
        · rw [e1] at e
          cases e
          exact hdeb
        · exact hplugin tx.name plugin hp _ _ _ kv hmem a e
      · rw [if_neg h6] at h
        simp only [Option.some.injEq, Prod.mk.injEq] at h
        rw [← h.2]
        apply State.balancesNonnegative_SetAccount st _ _ hs
        exact Coins.IsNonnegative_Plus _ _ (Coins.amountOf_nonneg _ hdeb)
          (Coins.amountOf_nonneg _ (Coins.IsNonnegative_Minus _ _ h4'))

/-- C23: non-negativity of balances is an invariant of `ExecTx`. On every
state in which every stored account has a balance of non-negative amounts
only, with a structural validation of outputs that passes only valid coins
(sorted, no non-positive entry), and with plugins and an inter-chain
collaborator that store no account with a negative amount, `ExecTx` of every
transaction, in either mode, returns, and whatever the result (acceptance,
rejection, plugin success or plugin failure) every stored account still has a
balance of non-negative amounts only. -/
theorem balances_stay_nonnegative (E : Env) (s : State) (pgz : Plugins) (tx : Tx)
    (isCheckTx : Bool) (hs : s.balancesNonnegative)
    (hstruct : ∀ out : TxOutput, (E.outputValidateBasic out).IsErr = false →
      out.coins.IsValid = true)
    (hibc : ∀ st src dst payload, writesNonnegative (E.saveNewIBCPacket st src dst payload))
    (hplugin : ∀ name plugin, pgz.GetByName name = some plugin →
      ∀ cache ctx data, writesNonnegative (plugin.RunTx cache ctx data).2) :
    ∃ res s', ExecTx E s pgz tx isCheckTx = some (res, s') ∧ s'.balancesNonnegative := by
  obtain ⟨res, s', h⟩ := ExecTx_total E s pgz tx isCheckTx
  refine ⟨res, s', h, ?_⟩
  have hs0 := State.balancesNonnegative_GetChainID E s hs
  cases tx with
  | send stx => exact execSendTx_nonneg E _ _ stx isCheckTx res s' hs0 hstruct hibc h
  | app atx => exact execAppTx_nonneg E _ pgz _ atx isCheckTx res s' hs0 hplugin h
  | unknown =>
    simp only [ExecTx, Option.some.injEq, Prod.mk.injEq] at h
    rw [← h.2]; exact hs0

theorem demoState_balancesNonnegative : demoState.balancesNonnegative := by
  intro k acc h
  change (if k = AccountKey "A" then
      Value.account { pubKey := ⟨some "ka"⟩, sequence := 5, balance := [⟨"atom", 100⟩] }
    else Value.absent) = Value.account acc at h
  split_ifs at h
  · cases h
    intro c hc
    rw [List.mem_singleton] at hc
    rw [hc]
    decide
  · cases h

theorem refEnv_outputs_valid (out : TxOutput)
    (h : (refEnv.outputValidateBasic out).IsErr = false) : out.coins.IsValid = true := by
  change (refOutputValidateBasic out).IsErr = false at h
  unfold refOutputValidateBasic at h
  split_ifs at h with h1 h2
  · cases h
  · cases h
  · simpa using h2

theorem refEnv_packets_nonnegative (st : State) (src dst : String) (payload : String × Coins) :
    writesNonnegative (refEnv.saveNewIBCPacket st src dst payload) := by
  intro kv hkv acc e
  change kv ∈ [("ibc,egress," ++ src ++ "," ++ dst, Value.bytes payload.1)] at hkv
  rw [List.mem_singleton] at hkv
  rw [hkv] at e
  cases e

theorem demoPlugins_nonnegative (name : String) (plugin : Plugin)
    (hp : demoPlugins.GetByName name = some plugin) (cache : State) (ctx : CallContext)
    (data : String) : writesNonnegative (plugin.RunTx cache ctx data).2 := by
  have hw : (plugin.RunTx cache ctx data).2 = [("counter", Value.bytes "1")] := by
    change (if name = "fail" then some failingPlugin
      else if name = "count" then some countingPlugin
      else if name = "paid" then some refusingPlugin
      else none) = some plugin at hp
    split_ifs at hp <;> cases hp <;> rfl
  intro kv hkv acc e
  rw [hw, List.mem_singleton] at hkv
  rw [hkv] at e
  cases e

/-- C23, witness: on the scenario state, where `A` holds atom:100, the call of
the failing plugin in delivery mode (10 atoms sent, fee of 2 atoms, the rest
refunded) returns and leaves only non-negative balances; `A` then holds
atom:98. -/
theorem balances_stay_nonnegative_witness :
    demoState.balancesNonnegative ∧
    (∃ res s', ExecTx refEnv demoState demoPlugins (Tx.app (demoApp "fail")) false
        = some (res, s') ∧ s'.balancesNonnegative) ∧
    (ExecTx refEnv demoState demoPlugins (Tx.app (demoApp "fail")) false).map
        (fun p => (p.1.code, p.2.GetAccount "A"))
      = some (CodeType.InternalError,
          some { pubKey := ⟨some "ka"⟩, sequence := 6, balance := [⟨"atom", 98⟩] }) :=
  ⟨demoState_balancesNonnegative,
   balances_stay_nonnegative refEnv demoState demoPlugins (Tx.app (demoApp "fail")) false
     demoState_balancesNonnegative refEnv_outputs_valid refEnv_packets_nonnegative
     demoPlugins_nonnegative,
   by decide⟩

end Basecoin
